import Mathlib

/-!
Verification of the SafeScan backend ingredient-analysis pipeline.

Shallow embedding of the JavaScript sources:
  src/utils/ingredientNormalizer.js
  src/utils/riskClassifier.js
  src/services/ingredientAnalysis.service.js
  src/services/datasetAnalysis.service.js
  src/services/aiModel.service.js
  src/services/aiExplain.service.js
  src/controllers/scan.controller.js

Strings are modelled as lists of characters (Lean `List Char`); the
JavaScript regular expressions used by the sources are implemented as
explicit scanners with the exact matching semantics of the source
patterns (word boundaries, greedy quantifiers with backtracking,
global leftmost non-overlapping replacement).  Character classes are
the ASCII classes of the JavaScript regexes.
-/

namespace SafeScan

/-! ## Character-level primitives mirroring JavaScript semantics -/

/-- JavaScript whitespace test for the regex class backslash-s
(ASCII part: space, tab, newline, carriage return, vertical tab,
form feed). -/
def jsIsSpace (c : Char) : Bool :=
  c == ' ' || c == '\t' || c == '\n' || c == '\r' || c == '\x0b' || c == '\x0c'

/-- JavaScript regex word character (the class backslash-w):
ASCII letters, digits, underscore. -/
def isWordChar (c : Char) : Bool :=
  ('a' ≤ c && c ≤ 'z') || ('A' ≤ c && c ≤ 'Z') || ('0' ≤ c && c ≤ '9') || c == '_'

/-- ASCII digit test, the regex class backslash-d. -/
def isDigitChar (c : Char) : Bool :=
  '0' ≤ c && c ≤ '9'

/-- ASCII letter test. -/
def isAsciiLetter (c : Char) : Bool :=
  ('a' ≤ c && c ≤ 'z') || ('A' ≤ c && c ≤ 'Z')

/-- Lowercasing of one character as JavaScript toLowerCase on the
ASCII and Latin-1 ranges (the character repertoire of the sources:
the only non-ASCII letter in the code is the accented e of the
ingredients label). -/
def jsLowerChar (c : Char) : Char :=
  if (65 ≤ c.toNat ∧ c.toNat ≤ 90) ∨ (192 ≤ c.toNat ∧ c.toNat ≤ 222 ∧ c.toNat ≠ 215) then
    Char.ofNat (c.toNat + 32)
  else c

/-- Lowercase a character list (JavaScript String.prototype.toLowerCase). -/
def jsToLower (cs : List Char) : List Char :=
  cs.map jsLowerChar

/-- JavaScript String.prototype.trim on a character list. -/
def jsTrim (cs : List Char) : List Char :=
  ((cs.dropWhile jsIsSpace).reverse.dropWhile jsIsSpace).reverse

/-- Dropping a while-matched head never lengthens a list. -/
theorem dropWhile_length_le (p : Char → Bool) :
    ∀ cs : List Char, (cs.dropWhile p).length ≤ cs.length := by
  intro cs
  induction cs with
  | nil => simp [List.dropWhile]
  | cons c cs ih =>
    simp only [List.dropWhile]
    by_cases h : p c
    · simp only [h]
      exact Nat.le_succ_of_le ih
    · simp [h]

/-- Split on maximal nonempty runs of delimiter characters, keeping the
(possibly empty) pieces before, between and after the runs: the
semantics of JavaScript String.prototype.split with a regex of the
form [delims]+ .  The helper prepends a character onto the first
piece. -/
def consPiece (c : Char) : List (List Char) → List (List Char)
  | [] => [[c]]
  | piece :: rest => (c :: piece) :: rest

/-- Split on maximal nonempty runs of delimiter characters: a
delimiter at the head opens an empty piece exactly when the next
character does not extend the run. -/
def splitOnRuns (p : Char → Bool) : List Char → List (List Char)
  | [] => [[]]
  | [c] => if p c then [[], []] else [[c]]
  | c :: c2 :: cs =>
    if p c then
      (if p c2 then splitOnRuns p (c2 :: cs) else [] :: splitOnRuns p (c2 :: cs))
    else consPiece c (splitOnRuns p (c2 :: cs))

/-- Keep the first occurrence of each element, preserving order: the
JavaScript seen-Set deduplication loop. -/
def dedupFirstAux {α : Type} [BEq α] (seen : List α) : List α → List α
  | [] => []
  | t :: ts =>
    if seen.contains t then dedupFirstAux seen ts
    else t :: dedupFirstAux (t :: seen) ts

/-- Deduplicate while preserving first-seen order. -/
def dedupFirst {α : Type} [BEq α] (ts : List α) : List α :=
  dedupFirstAux [] ts

/-- Whole-list containment of a contiguous pattern, the semantics of
JavaScript String.prototype.includes. -/
def listHasInfix (pat : List Char) : List Char → Bool
  | [] => pat.isEmpty
  | c :: cs => pat.isPrefixOf (c :: cs) || listHasInfix pat cs

/-- Collapse every maximal run of whitespace to a single space: the
regex replace of backslash-s+ by one space. -/
def collapseWs : List Char → List Char
  | [] => []
  | [c] => if jsIsSpace c then [' '] else [c]
  | c :: c2 :: cs =>
    if jsIsSpace c then
      (if jsIsSpace c2 then collapseWs (c2 :: cs) else ' ' :: collapseWs (c2 :: cs))
    else c :: collapseWs (c2 :: cs)

/-- Replace every occurrence of one character by another
(a JavaScript global single-character regex replace). -/
def replaceChar (a b : Char) (cs : List Char) : List Char :=
  cs.map (fun c => if c == a then b else c)

/-! ## Tokenizer: src/utils/ingredientNormalizer.js -/

/-- The delimiter class of the token split regex [,;|\n]+ . -/
def isTokenDelim (c : Char) : Bool :=
  c == ',' || c == ';' || c == '|' || c == '\n'

/-- The bullet class of the cleanToken regex: the characters mapped
to a space. -/
def isBullet (c : Char) : Bool :=
  c == '•' || c == '·'

/-- The trailing-punctuation class of the cleanToken regex [.;:]+$ . -/
def isTrailPunct (c : Char) : Bool :=
  c == '.' || c == ';' || c == ':'

/-- Strip one trailing maximal run of the class [.;:] . -/
def stripTrailingPunct (cs : List Char) : List Char :=
  (cs.reverse.dropWhile isTrailPunct).reverse

/-- The regex replace of ^\(\(.*\)\)$ by the captured group: remove one
surrounding parenthesis pair when the first character is an opening and
the last a closing parenthesis; the dot of the capture group does not
match a newline, so an inner newline blocks the rewrite. -/
def stripOuterParens (cs : List Char) : List Char :=
  if cs.head? == some '(' && cs.getLast? == some ')' && decide (2 ≤ cs.length)
      && (cs.drop 1).dropLast.all (fun c => !(c == '\n')) then
    (cs.drop 1).dropLast
  else cs

/-- Case-insensitive literal word match at the head of a list: returns
the remainder on success.  The expected word is given lowercased. -/
def matchWordCI (w : List Char) (cs : List Char) : Option (List Char) :=
  if (cs.take w.length).map jsLowerChar == w then some (cs.drop w.length) else none

/-- The COMMON_PREFIX_RE regex of ingredientNormalizer.js: strip one
leading label of the form whitespace* (ingredients|ingredient|ingredientes-with-accent)
whitespace* separator? whitespace*, case-insensitively; the separator
class is colon, hyphen or en dash.  When no alternative matches, the
replace is a no-op. -/
def labelAttempt (afterWs : List Char) : Option (List Char) :=
  match matchWordCI "ingredients".data afterWs with
  | some rest => some rest
  | none =>
    match matchWordCI "ingredient".data afterWs with
    | some rest => some rest
    | none => matchWordCI "ingrédients".data afterWs

/-- After the matched label word: skip whitespace, one optional
separator from the class colon, hyphen, en dash, then whitespace. -/
def consumeLabelSep (rest : List Char) : List Char :=
  let r1 := rest.dropWhile jsIsSpace
  let r2 :=
    match r1 with
    | [] => ([] : List Char)
    | c :: t => if c == ':' || c == '-' || c == '–' then t else r1
  r2.dropWhile jsIsSpace

/-- The label replace itself: a no-op when no alternative matches
after the leading whitespace. -/
def stripIngredientsLabel (cs : List Char) : List Char :=
  match labelAttempt (cs.dropWhile jsIsSpace) with
  | none => cs
  | some rest => consumeLabelSep rest

/-- cleanToken of ingredientNormalizer.js: collapse whitespace and map
bullets to spaces, trim; strip trailing punctuation, trim; strip one
surrounding parenthesis pair, trim; strip a leading ingredients label,
trim; lowercase. -/
def cleanToken (cs : List Char) : List Char :=
  let t1 := jsTrim ((collapseWs cs).map (fun c => if isBullet c then ' ' else c))
  let t2 := jsTrim (stripTrailingPunct t1)
  let t3 := jsTrim (stripOuterParens t2)
  let t4 := jsTrim (stripIngredientsLabel t3)
  jsToLower t4

/-- normalizeIngredients of ingredientNormalizer.js on a character
list: normalize carriage returns and tabs, strip one leading label,
trim, split on delimiter runs, clean each piece, drop pieces of length
below two, deduplicate preserving first-seen order. -/
def normalizeIngredientsL (cs : List Char) : List (List Char) :=
  if cs = [] then []
  else
    let cleaned := jsTrim (stripIngredientsLabel (replaceChar '\t' ' ' (replaceChar '\r' '\n' cs)))
    let parts := splitOnRuns isTokenDelim cleaned
    let tokens := (parts.map cleanToken).filter (fun t => 1 < t.length)
    dedupFirst tokens

/-- normalizeIngredients on a string; a non-string or empty input
yields the empty token sequence. -/
def normalizeIngredients (text : String) : List String :=
  (normalizeIngredientsL text.data).map String.mk

/-! ## PII sanitizer: buildAiPayload of ingredientAnalysis.service.js

The three global regex replaces are implemented as left-to-right
scanners with the exact matching semantics of the patterns, including
word boundaries and greedy backtracking.  The `prevW` parameter is the
word-character status of the character immediately before the current
position (false at the start of the string), which decides the
word-boundary assertions. -/

/-- Word-character status of the head of a list; an empty list counts
as a non-word position (end or start of string for boundary purposes). -/
def headIsWord (cs : List Char) : Bool :=
  match cs with
  | [] => false
  | c :: _ => isWordChar c

/-- The placeholder for the phone-number replace. -/
def phonePH : List Char := "[PHONE REDACTED]".data

/-- The placeholder for the email replace. -/
def emailPH : List Char := "[EMAIL REDACTED]".data

/-- The placeholder for the SSN replace. -/
def ssnPH : List Char := "[SSN REDACTED]".data

/-- Scanner of the global replace of word-boundary digit-run patterns:
a match is a maximal run of at least ten digits whose neighbours on
both sides are word boundaries. -/
def goPhone (prevW : Bool) : List Char → List Char
  | [] => []
  | c :: cs =>
    if isDigitChar c && !prevW then
      let run := c :: cs.takeWhile isDigitChar
      let rest := cs.dropWhile isDigitChar
      if 10 ≤ run.length && !headIsWord rest then
        phonePH ++ goPhone true rest
      else
        run ++ goPhone true rest
    else c :: goPhone (isWordChar c) cs
  termination_by cs => cs.length
  decreasing_by
    · simp only [List.length_cons]
      exact Nat.lt_succ_of_le (dropWhile_length_le isDigitChar cs)
    · simp only [List.length_cons]
      exact Nat.lt_succ_of_le (dropWhile_length_le isDigitChar cs)
    · simp

/-- Scanner of the global SSN replace: at each position with a
leading word boundary, test the fixed shape of three digits, hyphen,
two digits, hyphen, four digits, trailing word boundary; on a hit
replace the eleven characters, otherwise advance one character. -/
def goSSN (prevW : Bool) : List Char → List Char
  | a :: tail1@(b :: c :: h1 :: d :: e :: h2 :: f :: g :: h :: i :: rest) =>
    if !prevW && isDigitChar a && isDigitChar b && isDigitChar c && h1 == '-' &&
       isDigitChar d && isDigitChar e && h2 == '-' &&
       isDigitChar f && isDigitChar g && isDigitChar h && isDigitChar i &&
       !headIsWord rest then
      ssnPH ++ goSSN true rest
    else a :: goSSN (isWordChar a) tail1
  | c :: cs => c :: goSSN (isWordChar c) cs
  | [] => []

/-- The local-part class of the email regex. -/
def isC1 (c : Char) : Bool :=
  isAsciiLetter c || isDigitChar c || c == '.' || c == '_' || c == '%' || c == '+' || c == '-'

/-- The domain class of the email regex. -/
def isC2 (c : Char) : Bool :=
  isAsciiLetter c || isDigitChar c || c == '.' || c == '-'

/-- The top-level-domain class of the email regex: the source class
[A-Z|a-z] literally contains the pipe character. -/
def isTldChar (c : Char) : Bool :=
  isAsciiLetter c || c == '|'

/-- Greedy backtracking over the top-level-domain length: try the
longest prefix of the maximal TLD-class run first, length at least
two, and accept the first length whose end position is a word
boundary.  Returns the accepted TLD and the remainder. -/
def tldTry (tldArea : List Char) : Nat → Option (List Char × List Char)
  | 0 => none
  | n + 1 =>
    if n + 1 < 2 then none
    else
      let tld := tldArea.take (n + 1)
      let rest := tldArea.drop (n + 1)
      if isWordChar (tld.getLastD ' ') != headIsWord rest then some (tld, rest)
      else tldTry tldArea n

/-- First success of a function over a list of candidates. -/
def firstSome (f : Nat → Option (List Char × List Char)) : List Nat → Option (List Char × List Char)
  | [] => none
  | k :: ks =>
    match f k with
    | some r => some r
    | none => firstSome f ks

/-- Email match attempt at the head of the list: word boundary, a
maximal run of local-part characters, a literal at sign, a nonempty
maximal run of domain characters, then greedy backtracking over the
dot position (latest dot first) and the TLD length.  On success
returns the matched characters and the remainder. -/
def matchEmailAt (prevW : Bool) (cs : List Char) : Option (List Char × List Char) :=
  match cs with
  | [] => none
  | c0 :: _ =>
    if isC1 c0 && (prevW != isWordChar c0) then
      let locpart := cs.takeWhile isC1
      let after := cs.dropWhile isC1
      match after with
      | [] => none
      | a :: afterAt =>
        if a = '@' then
          let D := afterAt.takeWhile isC2
          let restD := afterAt.dropWhile isC2
          if D.isEmpty then none
          else
            let dots := ((List.range D.length).filter
              (fun k => D.getD k ' ' == '.' && decide (1 ≤ k))).reverse
            firstSome (fun k =>
              let tldArea := D.drop (k + 1) ++ restD
              match tldTry tldArea (tldArea.takeWhile isTldChar).length with
              | some (tld, rest) => some (locpart ++ '@' :: D.take k ++ '.' :: tld, rest)
              | none => none) dots
        else none
    else none

/-- A successful first-some comes from one of the candidates. -/
theorem firstSome_mem {f : Nat → Option (List Char × List Char)} :
    ∀ {ks : List Nat} {r}, firstSome f ks = some r → ∃ k ∈ ks, f k = some r := by
  intro ks
  induction ks with
  | nil => intro r h; simp [firstSome] at h
  | cons k ks ih =>
    intro r h
    simp only [firstSome] at h
    cases hf : f k with
    | some v =>
      rw [hf] at h
      cases h
      exact ⟨k, List.mem_cons_self k ks, hf⟩
    | none =>
      rw [hf] at h
      obtain ⟨k2, hk2, hfk2⟩ := ih h
      exact ⟨k2, List.mem_cons_of_mem k hk2, hfk2⟩

/-- A successful TLD try splits the TLD area and is nonempty. -/
theorem tldTry_spec {area : List Char} :
    ∀ {n : Nat} {tld rest : List Char}, tldTry area n = some (tld, rest) →
      tld ++ rest = area ∧ tld ≠ [] := by
  intro n
  induction n with
  | zero => intro tld rest h; simp [tldTry] at h
  | succ n ih =>
    intro tld rest h
    simp only [tldTry] at h
    split at h
    · cases h
    · split at h
      · cases h
        refine ⟨List.take_append_drop _ _, ?_⟩
        intro hnil
        have hA : area = [] := by
          by_contra hne
          have : area.take (n + 1) ≠ [] := by
            cases area with
            | nil => exact absurd rfl hne
            | cons a as => simp [List.take]
          exact this hnil
        rename_i hcond
        rw [hnil, hA] at hcond
        simp [headIsWord, List.getLastD, isWordChar] at hcond
      · exact ih h

/-- A successful email match attempt decomposes its input: the match
is a nonempty prefix and the remainder is the corresponding suffix. -/
theorem matchEmailAt_spec {b : Bool} {cs m rest : List Char}
    (h : matchEmailAt b cs = some (m, rest)) : m ++ rest = cs ∧ m ≠ [] := by
  match cs, h with
  | c0 :: t, h =>
    simp only [matchEmailAt] at h
    split at h
    · cases hAfter : (c0 :: t).dropWhile isC1 with
      | nil => rw [hAfter] at h; cases h
      | cons a afterAt =>
        rw [hAfter] at h
        simp only at h
        split at h
        · rename_i ha
          subst ha
          split at h
          · cases h
          · obtain ⟨k, hkmem, hfk⟩ := firstSome_mem h
            simp only [List.mem_reverse, List.mem_filter, List.mem_range] at hkmem
            obtain ⟨hklt, hkcond⟩ := hkmem
            have hdot : (afterAt.takeWhile isC2).getD k ' ' = '.' := by
              simp only [Bool.and_eq_true, beq_iff_eq, decide_eq_true_eq] at hkcond
              exact hkcond.1
            split at hfk
            · rename_i tld rest2 htld
              cases hfk
              have hsp := tldTry_spec htld
              constructor
              · set D := afterAt.takeWhile isC2 with hD
                set restD := afterAt.dropWhile isC2 with hrestD
                have hk2 : k < D.length := hklt
                have hDsplit : D.take k ++ '.' :: D.drop (k + 1) = D := by
                  have hget : D.getD k ' ' = D[k] := List.getD_eq_getElem D ' ' hk2
                  have hdr : D.drop k = D[k] :: D.drop (k + 1) :=
                    List.drop_eq_getElem_cons hk2
                  rw [hget] at hdot
                  rw [← hdot]
                  rw [← hdr]
                  exact List.take_append_drop k D
                calc ((c0 :: t).takeWhile isC1 ++ '@' :: D.take k ++ '.' :: tld) ++ rest
                    = (c0 :: t).takeWhile isC1 ++ '@' :: (D.take k ++ '.' :: (tld ++ rest)) := by
                      simp [List.append_assoc]
                  _ = (c0 :: t).takeWhile isC1 ++ '@' :: (D.take k ++ '.' :: (D.drop (k + 1) ++ restD)) := by
                      rw [hsp.1]
                  _ = (c0 :: t).takeWhile isC1 ++ '@' :: ((D.take k ++ '.' :: D.drop (k + 1)) ++ restD) := by
                      simp [List.append_assoc]
                  _ = (c0 :: t).takeWhile isC1 ++ '@' :: (D ++ restD) := by
                      rw [hDsplit]
                  _ = (c0 :: t).takeWhile isC1 ++ '@' :: afterAt := by
                      rw [hD, hrestD, List.takeWhile_append_dropWhile]
                  _ = (c0 :: t).takeWhile isC1 ++ (c0 :: t).dropWhile isC1 := by rw [hAfter]
                  _ = c0 :: t := List.takeWhile_append_dropWhile _ _
              · intro hnil
                cases hx : (c0 :: t).takeWhile isC1 with
                | nil => rw [hx] at hnil; cases hnil
                | cons y ys => rw [hx] at hnil; cases hnil
            · cases hfk
        · cases h
    · cases h

/-- The remainder of a successful email match is strictly shorter
than the input. -/
theorem matchEmailAt_rest_lt {b : Bool} {cs m rest : List Char}
    (h : matchEmailAt b cs = some (m, rest)) : rest.length < cs.length := by
  obtain ⟨heq, hne⟩ := matchEmailAt_spec h
  have := congrArg List.length heq
  simp only [List.length_append] at this
  have hm : 0 < m.length := List.length_pos.mpr hne
  omega

/-- Scanner of the global email replace: at each position attempt the
email match; on success replace the match, otherwise advance one
character.  After a match the word-boundary state is that of the last
matched character of the original text. -/
def goEmail (prevW : Bool) : List Char → List Char
  | [] => []
  | c :: cs =>
    match h : matchEmailAt prevW (c :: cs) with
    | some (m, rest) => emailPH ++ goEmail (isWordChar (m.getLastD ' ')) rest
    | none => c :: goEmail (isWordChar c) cs
  termination_by cs => cs.length
  decreasing_by
    · have := matchEmailAt_rest_lt h
      simp only [List.length_cons] at this ⊢
      omega
    · simp

/-- buildAiPayload of ingredientAnalysis.service.js on a character
list: the three global replaces in source order (digit runs, emails,
SSN shapes). -/
def sanitizeL (cs : List Char) : List Char :=
  goSSN false (goEmail false (goPhone false cs))

/-- buildAiPayload on a string: returns the sanitized text of the
payload object. -/
def buildAiPayload (text : String) : String :=
  String.mk (sanitizeL text.data)

/-! ## Idempotence of the sanitizer

The development below shows that the three-stage sanitizer is
idempotent.  Each scanner is characterised by a match-at-position
predicate; a string is a fixed point of a scanner exactly when no
position matches.  The outputs of the pipeline stages are shown to be
match-free for every scanner, the crux being that replacing a match
with a bracketed placeholder never creates a match at an earlier
position. -/

/-- Digits are word characters. -/
theorem word_of_digit {c : Char} (h : isDigitChar c = true) : isWordChar c = true := by
  simp only [isDigitChar, Bool.and_eq_true, decide_eq_true_eq] at h
  simp [isWordChar, h.1, h.2]

/-- A while-taken prefix stops at a failing character regardless of
what follows it. -/
theorem takeWhile_append_not {p : Char → Bool} {z : Char} (hz : p z = false) :
    ∀ (W R : List Char), ((W ++ z :: R).takeWhile p) = W.takeWhile p
  | [], R => by simp [List.takeWhile_cons, hz]
  | x :: W, R => by
    by_cases hx : p x
    · simp [List.takeWhile_cons, hx, takeWhile_append_not hz W R]
    · simp [List.takeWhile_cons, hx]

/-- A while-dropped list splits around a failing character. -/
theorem dropWhile_append_cons {p : Char → Bool} {z : Char} (hz : p z = false) :
    ∀ (W R : List Char), ((W ++ z :: R).dropWhile p) = W.dropWhile p ++ z :: R
  | [], R => by simp [List.dropWhile_cons, hz]
  | x :: W, R => by
    by_cases hx : p x
    · simp [List.dropWhile_cons, hx, dropWhile_append_cons hz W R]
    · simp [List.dropWhile_cons, hx]

/-- Appending past a nonempty while-dropped remainder keeps it. -/
theorem dropWhile_append_of_ne_nil {p : Char → Bool} :
    ∀ {W : List Char} (Z : List Char) {e : Char} {W₂ : List Char},
      W.dropWhile p = e :: W₂ → (W ++ Z).dropWhile p = e :: (W₂ ++ Z)
  | [], Z, e, W₂ => by intro h; simp [List.dropWhile] at h
  | x :: W, Z, e, W₂ => by
    intro h
    by_cases hx : p x
    · simp only [List.dropWhile_cons, hx, if_true] at h
      simpa [List.dropWhile_cons, hx] using dropWhile_append_of_ne_nil Z h
    · simp only [List.dropWhile_cons, hx, if_false] at h
      cases h
      simp [List.dropWhile_cons, hx]

/-- A while-taken prefix of an append extends the one of the left part. -/
theorem takeWhile_append_exts {p : Char → Bool} :
    ∀ (W Z : List Char), ∃ ext, (W ++ Z).takeWhile p = W.takeWhile p ++ ext
  | [], Z => ⟨Z.takeWhile p, by simp⟩
  | x :: W, Z => by
    by_cases hx : p x
    · obtain ⟨ext, hext⟩ := takeWhile_append_exts (p := p) W Z
      exact ⟨ext, by simp [List.takeWhile_cons, hx, hext]⟩
    · exact ⟨[], by simp [List.takeWhile_cons, hx]⟩

/-- If the while-taken prefix is proper, appending changes nothing. -/
theorem takeWhile_append_of_ne {p : Char → Bool} :
    ∀ {W : List Char} (Z : List Char), W.takeWhile p ≠ W →
      (W ++ Z).takeWhile p = W.takeWhile p
  | [], Z => by intro h; simp at h
  | x :: W, Z => by
    intro h
    by_cases hx : p x
    · simp only [List.cons_append, List.takeWhile_cons, hx, if_true] at h ⊢
      have hW : W.takeWhile p ≠ W := fun he => h (by rw [he])
      rw [takeWhile_append_of_ne Z hW]
    · simp [List.takeWhile_cons, hx]

/-- Over an all-satisfying left part the while-taken prefix crosses. -/
theorem takeWhile_append_all {p : Char → Bool} :
    ∀ {W : List Char} (Z : List Char), (∀ x ∈ W, p x = true) →
      (W ++ Z).takeWhile p = W ++ Z.takeWhile p
  | [], Z => by intro _; simp
  | x :: W, Z => by
    intro h
    have hx : p x = true := h x (by simp)
    simp only [List.cons_append, List.takeWhile_cons, hx, if_true]
    rw [takeWhile_append_all Z (fun y hy => h y (by simp [hy]))]

/-- An all-satisfying list is its own while-taken prefix. -/
theorem takeWhile_all {p : Char → Bool} :
    ∀ {W : List Char}, (∀ x ∈ W, p x = true) → W.takeWhile p = W
  | [] => by intro _; simp
  | x :: W => by
    intro h
    have hx : p x = true := h x (by simp)
    simp only [List.takeWhile_cons, hx, if_true]
    rw [takeWhile_all (fun y hy => h y (by simp [hy]))]

/-- A proper while-taken prefix is strictly shorter. -/
theorem takeWhile_length_lt {p : Char → Bool} :
    ∀ {W : List Char}, W.takeWhile p ≠ W → (W.takeWhile p).length < W.length
  | [] => by intro h; simp at h
  | x :: W => by
    intro h
    by_cases hx : p x
    · simp only [List.takeWhile_cons, hx, if_true] at h ⊢
      have : W.takeWhile p ≠ W := fun he => h (by rw [he])
      simpa using takeWhile_length_lt this
    · simp [List.takeWhile_cons, hx]

/-- Every element of a while-taken prefix satisfies the test. -/
theorem takeWhile_mem {p : Char → Bool} :
    ∀ {W : List Char} {x : Char}, x ∈ W.takeWhile p → p x = true
  | [], x => by intro h; simp at h
  | w :: W, x => by
    intro h
    by_cases hw : p w
    · simp only [List.takeWhile_cons, hw, if_true, List.mem_cons] at h
      rcases h with h | h
      · exact h ▸ hw
      · exact takeWhile_mem h
    · simp [List.takeWhile_cons, hw] at h

/-- Dropping within the left part of an append. -/
theorem drop_append_le {W Z : List Char} {n : Nat} (h : n ≤ W.length) :
    (W ++ Z).drop n = W.drop n ++ Z := by
  rw [List.drop_append_eq_append_drop]
  have : n - W.length = 0 := Nat.sub_eq_zero_of_le h
  rw [this, List.drop_zero]

/-- Taking within the left part of an append. -/
theorem take_append_le {W Z : List Char} {n : Nat} (h : n ≤ W.length) :
    (W ++ Z).take n = W.take n := by
  rw [List.take_append_eq_append_take]
  have : n - W.length = 0 := Nat.sub_eq_zero_of_le h
  rw [this, List.take_zero, List.append_nil]

/-- Reading inside the left part of an append. -/
theorem getD_append_lt {A B : List Char} {k : Nat} (x : Char) (h : k < A.length) :
    (A ++ B).getD k x = A.getD k x := by
  rw [List.getD_eq_getElem?_getD, List.getD_eq_getElem?_getD,
    List.getElem?_append, if_pos h]

/-- The head of a while-dropped remainder fails the test. -/
theorem dropWhile_head_false {p : Char → Bool} :
    ∀ {W : List Char} {e : Char} {W₂ : List Char}, W.dropWhile p = e :: W₂ →
      p e = false
  | [], e, W₂ => by intro h; simp [List.dropWhile] at h
  | x :: W, e, W₂ => by
    intro h
    by_cases hx : p x
    · simp only [List.dropWhile_cons, hx, if_true] at h
      exact dropWhile_head_false h
    · simp only [List.dropWhile_cons, hx, if_false] at h
      cases h
      simpa using hx

/-- The phone scanner's match condition at the current position. -/
def phoneAt (prevW : Bool) : List Char → Bool
  | [] => false
  | c :: cs =>
    (isDigitChar c && !prevW) &&
      (decide (10 ≤ (c :: cs.takeWhile isDigitChar).length) &&
        !headIsWord (cs.dropWhile isDigitChar))

/-- The SSN scanner's match condition at the current position. -/
def ssnAt (prevW : Bool) : List Char → Bool
  | a :: b :: c :: h1 :: d :: e :: h2 :: f :: g :: h :: i :: rest =>
    !prevW && isDigitChar a && isDigitChar b && isDigitChar c && h1 == '-' &&
    isDigitChar d && isDigitChar e && h2 == '-' &&
    isDigitChar f && isDigitChar g && isDigitChar h && isDigitChar i &&
    !headIsWord rest
  | _ => false

/-- A scanner-generic bad-position predicate: some position of the
list, taken with the word-status of the character before it, is hit
by the match condition. -/
def scanBad (hit : Bool → List Char → Prop) (b : Bool) (cs : List Char) : Prop :=
  hit b cs ∨ ∃ A u V, cs = A ++ V ∧ A.getLast? = some u ∧ hit (isWordChar u) V

/-- Some position of the list starts a phone-number match. -/
def phoneBad (b : Bool) (cs : List Char) : Prop :=
  scanBad (fun b' l => phoneAt b' l = true) b cs

/-- Some position of the list starts an SSN match. -/
def ssnBad (b : Bool) (cs : List Char) : Prop :=
  scanBad (fun b' l => ssnAt b' l = true) b cs

/-- Some position of the list starts an email match. -/
def emailBad (b : Bool) (cs : List Char) : Prop :=
  scanBad (fun b' l => matchEmailAt b' l ≠ none) b cs

/-- The empty list has no bad position. -/
theorem scanBad_nil {hit : Bool → List Char → Prop} {b : Bool}
    (hn : ∀ b', ¬ hit b' []) : ¬ scanBad hit b [] := by
  rintro (h | ⟨A, u, V, hsplit, hlast, hhit⟩)
  · exact hn b h
  · have hA : A = [] := (List.append_eq_nil.mp hsplit.symm).1
    rw [hA] at hlast
    simp at hlast

/-- Shifting a bad position under one more character. -/
theorem scanBad_cons_intro {hit : Bool → List Char → Prop} {c : Char}
    {Y : List Char} (b : Bool) (h : scanBad hit (isWordChar c) Y) :
    scanBad hit b (c :: Y) := by
  rcases h with h | ⟨A, u, V, hsplit, hlast, hhit⟩
  · exact Or.inr ⟨[c], c, Y, by simp, by simp, h⟩
  · refine Or.inr ⟨c :: A, u, V, by simp [hsplit], ?_, hhit⟩
    cases A with
    | nil => simp at hlast
    | cons a A' => rw [List.getLast?_cons_cons]; exact hlast

/-- A bad position of a nonempty list is at its head or in its tail. -/
theorem scanBad_cons_elim {hit : Bool → List Char → Prop} {b : Bool} {c : Char}
    {Y : List Char} (h : scanBad hit b (c :: Y)) :
    hit b (c :: Y) ∨ scanBad hit (isWordChar c) Y := by
  rcases h with h | ⟨A, u, V, hsplit, hlast, hhit⟩
  · exact Or.inl h
  · cases A with
    | nil => simp at hlast
    | cons a A' =>
      have hc : c = a ∧ Y = A' ++ V := by
        have := hsplit
        simp only [List.cons_append, List.cons.injEq] at this
        exact this
      cases A' with
      | nil =>
        have hau : a = u := by simpa using hlast
        have hYV : Y = V := by simpa using hc.2
        refine Or.inr (Or.inl ?_)
        rw [hYV, hc.1, hau]
        exact hhit
      | cons a2 A2 =>
        rw [List.getLast?_cons_cons] at hlast
        exact Or.inr (Or.inr ⟨a2 :: A2, u, V, hc.2, hlast, hhit⟩)

/-- A bad position inside a suffix is one of the whole list. -/
theorem scanBad_lift {hit : Bool → List Char → Prop} {u : Char}
    {U V : List Char} (b : Bool) (hlast : U.getLast? = some u)
    (h : scanBad hit (isWordChar u) V) : scanBad hit b (U ++ V) := by
  rcases h with h | ⟨A, u', V', hsplit, hlast', hhit⟩
  · exact Or.inr ⟨U, u, V, rfl, hlast, h⟩
  · have hA : A ≠ [] := by intro hA; rw [hA] at hlast'; simp at hlast'
    refine Or.inr ⟨U ++ A, u', V', by simp [hsplit], ?_, hhit⟩
    rw [List.getLast?_append_of_ne_nil U hA]
    exact hlast'

/-- A bad position not at the head survives a flag change. -/
theorem scanBad_flag_switch {hit : Bool → List Char → Prop} {b : Bool}
    {cs : List Char} (b' : Bool) (h : scanBad hit b cs) (hhead : ¬ hit b cs) :
    scanBad hit b' cs := by
  rcases h with h | hdeep
  · exact absurd h hhead
  · exact Or.inr hdeep
/-- The phone scanner on the empty list. -/
theorem goPhone_nil (b : Bool) : goPhone b [] = [] := by
  simp [goPhone]

/-- The phone scanner's step when the position cannot start a run. -/
theorem goPhone_cons_not {b : Bool} {c : Char} {cs : List Char}
    (h : (isDigitChar c && !b) = false) :
    goPhone b (c :: cs) = c :: goPhone (isWordChar c) cs := by
  simp only [goPhone, h]
  simp

/-- The phone scanner's step at the head of a digit run. -/
theorem goPhone_cons_digit {c : Char} {cs : List Char}
    (hd : isDigitChar c = true) :
    goPhone false (c :: cs) =
      if (decide (10 ≤ (c :: cs.takeWhile isDigitChar).length) &&
          !headIsWord (cs.dropWhile isDigitChar)) = true then
        phonePH ++ goPhone true (cs.dropWhile isDigitChar)
      else (c :: cs.takeWhile isDigitChar) ++ goPhone true (cs.dropWhile isDigitChar) := by
  simp only [goPhone, hd]
  simp

/-- The SSN scanner on the empty list. -/
theorem goSSN_nil (b : Bool) : goSSN b [] = [] := by
  simp [goSSN]

/-- The SSN scanner's step, phrased by the match condition. -/
theorem goSSN_cons (b : Bool) (c : Char) :
    ∀ cs : List Char, goSSN b (c :: cs) =
      if ssnAt b (c :: cs) = true then ssnPH ++ goSSN true ((c :: cs).drop 11)
      else c :: goSSN (isWordChar c) cs
  | [] => by simp [goSSN, ssnAt]
  | [a1] => by simp [goSSN, ssnAt]
  | [a1, a2] => by simp [goSSN, ssnAt]
  | [a1, a2, a3] => by simp [goSSN, ssnAt]
  | [a1, a2, a3, a4] => by simp [goSSN, ssnAt]
  | [a1, a2, a3, a4, a5] => by simp [goSSN, ssnAt]
  | [a1, a2, a3, a4, a5, a6] => by simp [goSSN, ssnAt]
  | [a1, a2, a3, a4, a5, a6, a7] => by simp [goSSN, ssnAt]
  | [a1, a2, a3, a4, a5, a6, a7, a8] => by simp [goSSN, ssnAt]
  | [a1, a2, a3, a4, a5, a6, a7, a8, a9] => by simp [goSSN, ssnAt]
  | a1 :: a2 :: a3 :: a4 :: a5 :: a6 :: a7 :: a8 :: a9 :: a10 :: rest => by
    show goSSN b (c :: a1 :: a2 :: a3 :: a4 :: a5 :: a6 :: a7 :: a8 :: a9 :: a10 :: rest) = _
    simp only [goSSN, ssnAt, List.drop_succ_cons, List.drop_zero]

/-- The SSN match condition never holds after a word character. -/
theorem ssnAt_true_flag : ∀ cs : List Char, ssnAt true cs = false := by
  intro cs
  unfold ssnAt
  split
  · simp
  · rfl

/-- The SSN match condition needs a digit at its head. -/
theorem ssnAt_head_digit {b : Bool} {c : Char} {cs : List Char}
    (h : ssnAt b (c :: cs) = true) : isDigitChar c = true ∧ b = false := by
  unfold ssnAt at h
  split at h
  · rename_i heq
    simp only [List.cons.injEq] at heq
    obtain ⟨h1, -⟩ := heq
    simp only [Bool.and_eq_true, Bool.not_eq_true'] at h
    exact ⟨h1 ▸ h.1.1.1.1.1.1.1.1.1.1.1.2, h.1.1.1.1.1.1.1.1.1.1.1.1⟩
  · cases h

/-- The email scanner on the empty list. -/
theorem goEmail_nil (b : Bool) : goEmail b [] = [] := by
  simp [goEmail]

/-- The email scanner's step on a successful attempt. -/
theorem goEmail_cons_pos {b : Bool} {c : Char} {cs m r : List Char}
    (h : matchEmailAt b (c :: cs) = some (m, r)) :
    goEmail b (c :: cs) = emailPH ++ goEmail (isWordChar (m.getLastD ' ')) r := by
  simp only [goEmail]
  split
  · rename_i m' r' heq
    have := h.symm.trans heq
    cases this
    rfl
  · rename_i heq
    rw [h] at heq
    cases heq

/-- The email scanner's step on a failed attempt. -/
theorem goEmail_cons_neg {b : Bool} {c : Char} {cs : List Char}
    (h : matchEmailAt b (c :: cs) = none) :
    goEmail b (c :: cs) = c :: goEmail (isWordChar c) cs := by
  simp only [goEmail]
  split
  · rename_i m' r' heq
    rw [h] at heq
    cases heq
  · rfl

/-- The TLD backtracking fails below length two. -/
theorem tldTry_none_le_one (A : List Char) : ∀ {n : Nat}, n ≤ 1 → tldTry A n = none
  | 0, _ => rfl
  | 1, _ => by simp [tldTry]

/-- A TLD acceptance has length at least two. -/
theorem tldTry_some_two {A : List Char} {n : Nat} {r : List Char × List Char}
    (h : tldTry A n = some r) : 2 ≤ n := by
  by_contra hlt
  rw [tldTry_none_le_one A (by omega)] at h
  cases h

/-- The TLD backtracking succeeds whenever some admissible length
has a word boundary at its end. -/
theorem tldTry_ne_none_of_accept {A : List Char} :
    ∀ {N n : Nat}, 2 ≤ n → n ≤ N →
      (isWordChar ((A.take n).getLastD ' ') != headIsWord (A.drop n)) = true →
      tldTry A N ≠ none
  | 0, n, h2, hle, _ => by omega
  | N + 1, n, h2, hle, hacc => by
    simp only [tldTry]
    have hlt : ¬ (N + 1 < 2) := by omega
    rw [if_neg hlt]
    by_cases heq : n = N + 1
    · subst heq
      rw [if_pos hacc]
      simp
    · have hle' : n ≤ N := by omega
      by_cases hprobe :
          (isWordChar ((A.take (N + 1)).getLastD ' ') != headIsWord (A.drop (N + 1))) = true
      · rw [if_pos hprobe]
        simp
      · rw [if_neg hprobe]
        exact tldTry_ne_none_of_accept h2 hle' hacc

/-- The TLD backtracking's success is decided by the boundary probes,
which only inspect initial segments and the character after them. -/
theorem tldTry_ne_none_congr {A B : List Char} :
    ∀ {N : Nat},
      (∀ m, 2 ≤ m → m ≤ N →
        isWordChar ((A.take m).getLastD ' ') = isWordChar ((B.take m).getLastD ' ') ∧
          headIsWord (A.drop m) = headIsWord (B.drop m)) →
      tldTry B N ≠ none → tldTry A N ≠ none
  | 0, _, hne => by simp [tldTry] at hne
  | N + 1, h, hne => by
    simp only [tldTry] at hne ⊢
    by_cases hlt : N + 1 < 2
    · rw [if_pos hlt] at hne
      exact absurd rfl hne
    · rw [if_neg hlt] at hne ⊢
      have hm := h (N + 1) (by omega) (le_refl _)
      by_cases hprobe :
          (isWordChar ((B.take (N + 1)).getLastD ' ') != headIsWord (B.drop (N + 1))) = true
      · have hprobeA :
            (isWordChar ((A.take (N + 1)).getLastD ' ') != headIsWord (A.drop (N + 1))) = true := by
          rw [hm.1, hm.2]; exact hprobe
        rw [if_pos hprobeA]
        simp
      · have hprobeA :
            ¬ (isWordChar ((A.take (N + 1)).getLastD ' ') != headIsWord (A.drop (N + 1))) = true := by
          rw [hm.1, hm.2]; exact hprobe
        rw [if_neg hprobe] at hne
        rw [if_neg hprobeA]
        exact tldTry_ne_none_congr (fun m h2 hle => h m h2 (by omega)) hne

/-- A first-some search fails exactly when every candidate fails. -/
theorem firstSome_eq_none_iff {f : Nat → Option (List Char × List Char)} :
    ∀ {ks : List Nat}, firstSome f ks = none ↔ ∀ k ∈ ks, f k = none := by
  intro ks
  induction ks with
  | nil => simp [firstSome]
  | cons k ks ih =>
    simp only [firstSome]
    cases hf : f k with
    | some v => simp [hf]
    | none => simp [hf, ih]

/-- An email attempt fails at a character outside the local class. -/
theorem mea_none_of_notC1 {b : Bool} {c : Char} {cs : List Char}
    (h : isC1 c = false) : matchEmailAt b (c :: cs) = none := by
  simp [matchEmailAt, h]

/-- An email attempt fails without a leading word boundary. -/
theorem mea_none_of_flag {b : Bool} {c : Char} {cs : List Char}
    (h : b = isWordChar c) : matchEmailAt b (c :: cs) = none := by
  simp [matchEmailAt, h]

/-- An email attempt fails when the local run reaches the end. -/
theorem mea_none_after_nil {b : Bool} {c : Char} {cs : List Char}
    (hd : (c :: cs).dropWhile isC1 = []) : matchEmailAt b (c :: cs) = none := by
  simp [matchEmailAt, hd]

/-- An email attempt fails when no at sign follows the local run. -/
theorem mea_none_no_at {b : Bool} {c e : Char} {cs t : List Char}
    (hd : (c :: cs).dropWhile isC1 = e :: t) (he : e ≠ '@') :
    matchEmailAt b (c :: cs) = none := by
  simp [matchEmailAt, hd, he]

/-- A successful email attempt passes the head guard. -/
theorem matchEmailAt_some_guard {b : Bool} {c : Char} {cs : List Char}
    {r : List Char × List Char} (h : matchEmailAt b (c :: cs) = some r) :
    isC1 c = true ∧ (b != isWordChar c) = true := by
  simp only [matchEmailAt] at h
  by_cases hg : (isC1 c && (b != isWordChar c)) = true
  · exact ⟨(Bool.and_eq_true _ _).mp hg |>.1, (Bool.and_eq_true _ _).mp hg |>.2⟩
  · rw [if_neg hg] at h
    cases h
/-- A while-taken prefix never lengthens a list. -/
theorem takeWhile_length_le (p : Char → Bool) : ∀ W : List Char,
    (W.takeWhile p).length ≤ W.length
  | [] => by simp
  | x :: W => by
    by_cases hx : p x
    · simpa [List.takeWhile_cons, hx] using takeWhile_length_le p W
    · simp [List.takeWhile_cons, hx]

/-- The head word-status of an append with nonempty left part. -/
theorem headIsWord_append_ne_nil {W Z : List Char} (h : W ≠ []) :
    headIsWord (W ++ Z) = headIsWord W := by
  cases W with
  | nil => exact absurd rfl h
  | cons x xs => rfl

/-- Dropping within the while-taken prefix recovers a drop of the
whole list once the while-dropped remainder is appended back. -/
theorem takeWhile_drop_append_dropWhile (p : Char → Bool) (L : List Char) {n : Nat}
    (h : n ≤ (L.takeWhile p).length) :
    (L.takeWhile p).drop n ++ L.dropWhile p = L.drop n := by
  conv_rhs => rw [← List.takeWhile_append_dropWhile (p := p) (l := L)]
  rw [drop_append_le h]

/-- The portion of an email attempt after the at sign: domain run,
dot backtracking, TLD backtracking.  The first argument only seeds
the returned match text and never affects failure. -/
def emailTail (loc : List Char) (afterAt : List Char) : Option (List Char × List Char) :=
  let D := afterAt.takeWhile isC2
  let restD := afterAt.dropWhile isC2
  if D.isEmpty then none
  else
    let dots := ((List.range D.length).filter
      (fun k => D.getD k ' ' == '.' && decide (1 ≤ k))).reverse
    firstSome (fun k =>
      let tldArea := D.drop (k + 1) ++ restD
      match tldTry tldArea (tldArea.takeWhile isTldChar).length with
      | some (tld, rest) => some (loc ++ '@' :: D.take k ++ '.' :: tld, rest)
      | none => none) dots

/-- The email attempt decomposed into guard, at-sign search and tail. -/
theorem matchEmailAt_decomp (b : Bool) (c0 : Char) (t : List Char) :
    matchEmailAt b (c0 :: t) =
      if (isC1 c0 && (b != isWordChar c0)) = true then
        match (c0 :: t).dropWhile isC1 with
        | [] => none
        | a :: afterAt =>
          if a = '@' then emailTail ((c0 :: t).takeWhile isC1) afterAt else none
      else none := by
  simp only [matchEmailAt, emailTail]

/-- An email attempt whose local run is followed by an at sign. -/
theorem mea_at {b : Bool} {c0 : Char} {t U₂ : List Char}
    (hg : (isC1 c0 && (b != isWordChar c0)) = true)
    (hdw : (c0 :: t).dropWhile isC1 = '@' :: U₂) :
    matchEmailAt b (c0 :: t) = emailTail ((c0 :: t).takeWhile isC1) U₂ := by
  rw [matchEmailAt_decomp, if_pos hg, hdw]
  simp

/-- The email tail is insensitive to the text of its first argument
as far as failure goes, and fails on the bracket-truncated domain
whenever it fails on the original one, provided the character before
the replaced span sits at a word boundary. -/
theorem emailTail_none_transfer {U₂ V R : List Char} {d : Char} (loc loc' : List Char)
    (hlast : ∀ u, U₂.getLast? = some u → isWordChar u ≠ isWordChar d)
    (hnone : emailTail loc (U₂ ++ d :: V) = none) :
    emailTail loc' (U₂ ++ '[' :: R) = none := by
  have hC2br : isC2 '[' = false := by decide
  have hTldbr : isTldChar '[' = false := by decide
  have hDY : (U₂ ++ '[' :: R).takeWhile isC2 = U₂.takeWhile isC2 :=
    takeWhile_append_not hC2br U₂ R
  by_cases hD0e : (U₂.takeWhile isC2).isEmpty = true
  · simp only [emailTail, hDY]
    rw [if_pos hD0e]
  · simp only [emailTail, hDY]
    rw [if_neg hD0e, firstSome_eq_none_iff]
    intro k hk
    simp only [List.mem_reverse, List.mem_filter, List.mem_range, Bool.and_eq_true,
      beq_iff_eq, decide_eq_true_eq] at hk
    obtain ⟨hk1, hdot, h1k⟩ := hk
    -- the X side fails on every dot candidate
    obtain ⟨ext, hext⟩ := takeWhile_append_exts (p := isC2) U₂ (d :: V)
    have hD0ne : U₂.takeWhile isC2 ≠ [] := by
      intro hnil
      rw [hnil] at hD0e
      simp at hD0e
    have hDXe : ((U₂ ++ d :: V).takeWhile isC2).isEmpty = false := by
      rw [hext]
      cases hq : U₂.takeWhile isC2 with
      | nil => exact absurd hq hD0ne
      | cons y ys => simp
    have hnoneX := hnone
    simp only [emailTail] at hnoneX
    rw [if_neg (by rw [hDXe]; simp), firstSome_eq_none_iff] at hnoneX
    have hkX : k ∈ ((List.range ((U₂ ++ d :: V).takeWhile isC2).length).filter
        (fun k => ((U₂ ++ d :: V).takeWhile isC2).getD k ' ' == '.' && decide (1 ≤ k))).reverse := by
      simp only [List.mem_reverse, List.mem_filter, List.mem_range, Bool.and_eq_true,
        beq_iff_eq, decide_eq_true_eq]
      refine ⟨?_, ?_, h1k⟩
      · rw [hext, List.length_append]
        omega
      · rw [hext, getD_append_lt ' ' hk1]
        exact hdot
    have hXk := hnoneX k hkX
    -- reduce both tld areas to drops of the underlying suffix
    have hklen : k + 1 ≤ (U₂.takeWhile isC2).length := by omega
    have hkU : k + 1 ≤ U₂.length := by
      have := takeWhile_length_le isC2 U₂
      omega
    have hareaY : (U₂.takeWhile isC2).drop (k + 1) ++ (U₂ ++ '[' :: R).dropWhile isC2 =
        U₂.drop (k + 1) ++ '[' :: R := by
      have h1 : ((U₂ ++ '[' :: R).takeWhile isC2).drop (k + 1) ++
          (U₂ ++ '[' :: R).dropWhile isC2 = (U₂ ++ '[' :: R).drop (k + 1) :=
        takeWhile_drop_append_dropWhile isC2 (U₂ ++ '[' :: R) (by rw [hDY]; exact hklen)
      rw [hDY] at h1
      rw [h1, drop_append_le hkU]
    have hareaX : ((U₂ ++ d :: V).takeWhile isC2).drop (k + 1) ++
        (U₂ ++ d :: V).dropWhile isC2 = U₂.drop (k + 1) ++ d :: V := by
      have h1 : ((U₂ ++ d :: V).takeWhile isC2).drop (k + 1) ++
          (U₂ ++ d :: V).dropWhile isC2 = (U₂ ++ d :: V).drop (k + 1) :=
        takeWhile_drop_append_dropWhile isC2 (U₂ ++ d :: V)
          (by rw [hext, List.length_append]; omega)
      rw [h1, drop_append_le hkU]
    -- goal at candidate k
    rw [hareaY]
    -- suppose the bracket side succeeded
    cases htY : tldTry (U₂.drop (k + 1) ++ '[' :: R)
        ((U₂.drop (k + 1) ++ '[' :: R).takeWhile isTldChar).length with
    | none => rfl
    | some pr =>
      exfalso
      have hNY : (U₂.drop (k + 1) ++ '[' :: R).takeWhile isTldChar =
          (U₂.drop (k + 1)).takeWhile isTldChar :=
        takeWhile_append_not hTldbr (U₂.drop (k + 1)) R
      have hne : tldTry (U₂.drop (k + 1) ++ d :: V)
          ((U₂.drop (k + 1) ++ d :: V).takeWhile isTldChar).length ≠ none := by
        by_cases htw : (U₂.drop (k + 1)).takeWhile isTldChar = U₂.drop (k + 1)
        · -- the run fills the whole remaining domain piece
          have hW2 : 2 ≤ (U₂.drop (k + 1)).length := by
            have h2 := tldTry_some_two (by rw [htY])
            rw [hNY, htw] at h2
            exact h2
          have hWne : U₂.drop (k + 1) ≠ [] := by
            intro hnil
            rw [hnil] at hW2
            simp at hW2
          obtain ⟨w₀, hw₀⟩ : ∃ w₀, (U₂.drop (k + 1)).getLast? = some w₀ := by
            cases hq : (U₂.drop (k + 1)).getLast? with
            | none => exact absurd (List.getLast?_eq_none_iff.mp hq) hWne
            | some w₀ => exact ⟨w₀, rfl⟩
          have hu : U₂.getLast? = some w₀ := by
            conv_lhs => rw [← List.take_append_drop (k + 1) U₂]
            rw [List.getLast?_append_of_ne_nil _ hWne]
            exact hw₀
          have hwd : isWordChar w₀ ≠ isWordChar d := hlast w₀ hu
          have hrun : (U₂.drop (k + 1) ++ d :: V).takeWhile isTldChar =
              U₂.drop (k + 1) ++ (d :: V).takeWhile isTldChar := by
            refine takeWhile_append_all (d :: V) ?_
            intro x hx
            rw [← htw] at hx
            exact takeWhile_mem hx
          refine tldTry_ne_none_of_accept (n := (U₂.drop (k + 1)).length) hW2 ?_ ?_
          · rw [hrun, List.length_append]
            omega
          · rw [take_append_le (le_refl _), List.take_length, List.drop_left]
            have hlastD : (U₂.drop (k + 1)).getLastD ' ' = w₀ := by
              rw [List.getLastD_eq_getLast?, hw₀]
              rfl
            rw [hlastD]
            show (isWordChar w₀ != headIsWord (d :: V)) = true
            have : headIsWord (d :: V) = isWordChar d := rfl
            rw [this]
            exact bne_iff_ne.mpr hwd
        · -- the run stops inside the remaining domain piece
          have hrunX : (U₂.drop (k + 1) ++ d :: V).takeWhile isTldChar =
              (U₂.drop (k + 1)).takeWhile isTldChar :=
            takeWhile_append_of_ne _ htw
          have hlt : ((U₂.drop (k + 1)).takeWhile isTldChar).length <
              (U₂.drop (k + 1)).length := takeWhile_length_lt htw
          rw [hrunX]
          have htY' : tldTry (U₂.drop (k + 1) ++ '[' :: R)
              ((U₂.drop (k + 1)).takeWhile isTldChar).length = some pr := by
            rw [← hNY]; exact htY
          refine tldTry_ne_none_congr (B := U₂.drop (k + 1) ++ '[' :: R) ?_
            (by rw [htY']; simp)
          intro m h2m hmle
          have hmlt : m < (U₂.drop (k + 1)).length := by omega
          constructor
          · rw [take_append_le (by omega), take_append_le (by omega)]
          · rw [drop_append_le (by omega), drop_append_le (by omega)]
            have hdne : (U₂.drop (k + 1)).drop m ≠ [] := by
              intro hnil
              have := List.drop_eq_nil_iff_le.mp hnil
              omega
            rw [headIsWord_append_ne_nil hdne, headIsWord_append_ne_nil hdne]
      -- contradiction with the X-side failure at this dot
      rw [hareaX] at hXk
      cases htX : tldTry (U₂.drop (k + 1) ++ d :: V)
          ((U₂.drop (k + 1) ++ d :: V).takeWhile isTldChar).length with
      | none => exact hne htX
      | some pr' =>
        rw [htX] at hXk
        cases pr' with
        | mk tld rest => simp at hXk
/-- A defaulted read at the junction of an append. -/
theorem getD_append_length (z x : Char) : ∀ (U T : List Char),
    (U ++ z :: T).getD U.length x = z
  | [], T => rfl
  | u :: U, T => by
    simpa [List.getD_cons_succ] using getD_append_length z x U T

/-- The optional last element as a defaulted read. -/
theorem getLast?_eq_getD : ∀ (U : List Char), U ≠ [] →
    U.getLast? = some (U.getD (U.length - 1) ' ')
  | [], h => absurd rfl h
  | [x], _ => rfl
  | x :: y :: ys, _ => by
    rw [List.getLast?_cons_cons, getLast?_eq_getD (y :: ys) (by simp)]
    simp [List.getD_cons_succ]

/-- The optional last element is a member. -/
theorem getLast?_mem : ∀ {W : List Char} {u : Char}, W.getLast? = some u → u ∈ W
  | [], u => by intro h; simp at h
  | [x], u => by
    intro h
    simp only [List.getLast?_singleton, Option.some.injEq] at h
    simp [h]
  | x :: y :: ys, u => by
    intro h
    rw [List.getLast?_cons_cons] at h
    exact List.mem_cons_of_mem x (getLast?_mem h)

/-- An empty while-dropped remainder means the whole list was taken. -/
theorem takeWhile_eq_of_dropWhile_nil {p : Char → Bool} {W : List Char}
    (h : W.dropWhile p = []) : W.takeWhile p = W := by
  have hsplit := List.takeWhile_append_dropWhile (p := p) (l := W)
  rw [h, List.append_nil] at hsplit
  exact hsplit

/-- A full while-taken prefix means an empty while-dropped remainder. -/
theorem dropWhile_nil_of_takeWhile_eq {p : Char → Bool} {W : List Char}
    (h : W.takeWhile p = W) : W.dropWhile p = [] := by
  have hsplit := List.takeWhile_append_dropWhile (p := p) (l := W)
  rw [h] at hsplit
  have hlen := congrArg List.length hsplit
  simp only [List.length_append] at hlen
  have : (W.dropWhile p).length = 0 := by omega
  exact List.length_eq_zero.mp this

/-- Replacing a later span by a bracket cannot make an email attempt
at this position succeed when it failed on the original text, as long
as the replaced span opened at a word boundary. -/
theorem matchEmailAt_transfer {f : Bool} {U V R : List Char} {d : Char}
    (hlast : ∀ u, U.getLast? = some u → isWordChar u ≠ isWordChar d)
    (hnone : matchEmailAt f (U ++ d :: V) = none) :
    matchEmailAt f (U ++ '[' :: R) = none := by
  cases U with
  | nil =>
    rw [List.nil_append]
    exact mea_none_of_notC1 (by decide)
  | cons c0 U₁ =>
    rw [List.cons_append]
    rw [List.cons_append] at hnone
    by_cases hg : (isC1 c0 && (f != isWordChar c0)) = true
    · cases hdw : (c0 :: U₁).dropWhile isC1 with
      | nil =>
        have hd : (c0 :: (U₁ ++ '[' :: R)).dropWhile isC1 = '[' :: R := by
          have h1 := dropWhile_append_cons (p := isC1) (z := '[') (by decide) (c0 :: U₁) R
          rw [hdw] at h1
          simpa using h1
        exact mea_none_no_at hd (by decide)
      | cons e U₂ =>
        have hdY : (c0 :: (U₁ ++ '[' :: R)).dropWhile isC1 = e :: (U₂ ++ '[' :: R) := by
          have h1 := dropWhile_append_of_ne_nil (p := isC1) ('[' :: R) hdw
          simpa using h1
        have hdX : (c0 :: (U₁ ++ d :: V)).dropWhile isC1 = e :: (U₂ ++ d :: V) := by
          have h1 := dropWhile_append_of_ne_nil (p := isC1) (d :: V) hdw
          simpa using h1
        by_cases he : e = '@'
        · subst he
          rw [mea_at hg hdY]
          rw [mea_at hg hdX] at hnone
          refine emailTail_none_transfer _ _ ?_ hnone
          intro u hu
          apply hlast
          have hU₂ne : U₂ ≠ [] := by
            intro hnil
            rw [hnil] at hu
            simp at hu
          have hchain : (c0 :: U₁).getLast? = U₂.getLast? := by
            conv_lhs =>
              rw [← List.takeWhile_append_dropWhile (p := isC1) (l := c0 :: U₁), hdw]
            rw [List.getLast?_append_of_ne_nil _ (by simp)]
            cases U₂ with
            | nil => exact absurd rfl hU₂ne
            | cons y ys => rw [List.getLast?_cons_cons]
          rw [hchain]
          exact hu
        · exact mea_none_no_at hdY he
    · rw [matchEmailAt_decomp, if_neg hg]

/-- Replacing a later span by a bracket cannot make the phone match
condition at this position hold when it failed on the original text. -/
theorem phoneAt_transfer {f : Bool} {U V R : List Char} {d : Char}
    (hlast : ∀ u, U.getLast? = some u → isWordChar u ≠ isWordChar d)
    (hnone : phoneAt f (U ++ d :: V) = false) :
    phoneAt f (U ++ '[' :: R) = false := by
  cases U with
  | nil =>
    simp only [List.nil_append, phoneAt]
    have : isDigitChar '[' = false := by decide
    simp [this]
  | cons c0 U₁ =>
    rw [List.cons_append]
    rw [List.cons_append] at hnone
    simp only [phoneAt] at hnone ⊢
    by_cases hd0 : (isDigitChar c0 && !f) = true
    · rw [hd0, Bool.true_and] at hnone ⊢
      by_cases htw : U₁.takeWhile isDigitChar = U₁
      · -- the whole known part is one digit run
        obtain ⟨u, hu⟩ : ∃ u, (c0 :: U₁).getLast? = some u := by
          cases hq : (c0 :: U₁).getLast? with
          | none => exact absurd (List.getLast?_eq_none_iff.mp hq) (by simp)
          | some u => exact ⟨u, rfl⟩
        have hud : isDigitChar u = true := by
          have hmem := getLast?_mem hu
          rcases List.mem_cons.mp hmem with h | h
          · rw [h]
            exact (Bool.and_eq_true _ _).mp hd0 |>.1
          · rw [← htw] at h
            exact takeWhile_mem h
        have hdnw : isWordChar d = false := by
          have := hlast u hu
          rw [word_of_digit hud] at this
          cases hq : isWordChar d
          · rfl
          · exact absurd hq.symm this
        have hdd : isDigitChar d = false := by
          cases hq : isDigitChar d
          · rfl
          · rw [word_of_digit hq] at hdnw
            cases hdnw
        have hdropU : U₁.dropWhile isDigitChar = [] := dropWhile_nil_of_takeWhile_eq htw
        have hrunX : (U₁ ++ d :: V).takeWhile isDigitChar = U₁ := by
          rw [takeWhile_append_not hdd, htw]
        have hrunY : (U₁ ++ '[' :: R).takeWhile isDigitChar = U₁ := by
          rw [takeWhile_append_not (by decide), htw]
        have hdropX : (U₁ ++ d :: V).dropWhile isDigitChar = d :: V := by
          rw [dropWhile_append_cons hdd, hdropU, List.nil_append]
        have hdropY : (U₁ ++ '[' :: R).dropWhile isDigitChar = '[' :: R := by
          rw [dropWhile_append_cons (by decide), hdropU, List.nil_append]
        rw [hrunX, hdropX] at hnone
        rw [hrunY, hdropY]
        have hhwX : headIsWord (d :: V) = false := hdnw
        have hhwY : headIsWord ('[' :: R) = false := by
          show isWordChar '[' = false
          decide
        rw [hhwX] at hnone
        rw [hhwY]
        simpa using hnone
      · -- the digit run stops inside the known part
        obtain ⟨e, W₂, hdropU⟩ : ∃ e W₂, U₁.dropWhile isDigitChar = e :: W₂ := by
          cases hq : U₁.dropWhile isDigitChar with
          | nil => exact absurd (takeWhile_eq_of_dropWhile_nil hq) htw
          | cons e W₂ => exact ⟨e, W₂, rfl⟩
        have hrunX : (U₁ ++ d :: V).takeWhile isDigitChar = U₁.takeWhile isDigitChar :=
          takeWhile_append_of_ne _ htw
        have hrunY : (U₁ ++ '[' :: R).takeWhile isDigitChar = U₁.takeWhile isDigitChar :=
          takeWhile_append_of_ne _ htw
        have hdropX : (U₁ ++ d :: V).dropWhile isDigitChar = e :: (W₂ ++ d :: V) :=
          dropWhile_append_of_ne_nil _ hdropU
        have hdropY : (U₁ ++ '[' :: R).dropWhile isDigitChar = e :: (W₂ ++ '[' :: R) :=
          dropWhile_append_of_ne_nil _ hdropU
        rw [hrunX, hdropX] at hnone
        rw [hrunY, hdropY]
        exact hnone
    · have hd0f : (isDigitChar c0 && !f) = false := by
        cases hq : (isDigitChar c0 && !f)
        · rfl
        · exact absurd hq hd0
      rw [hd0f, Bool.false_and]
/-- The SSN window condition as positional reads on the list. -/
theorem ssnAt_reads (b : Bool) : ∀ L : List Char,
    ssnAt b L =
      (decide (11 ≤ L.length) &&
        (!b && isDigitChar (L.getD 0 ' ') && isDigitChar (L.getD 1 ' ') &&
          isDigitChar (L.getD 2 ' ') && (L.getD 3 ' ' == '-') &&
          isDigitChar (L.getD 4 ' ') && isDigitChar (L.getD 5 ' ') &&
          (L.getD 6 ' ' == '-') &&
          isDigitChar (L.getD 7 ' ') && isDigitChar (L.getD 8 ' ') &&
          isDigitChar (L.getD 9 ' ') && isDigitChar (L.getD 10 ' ') &&
          !headIsWord (L.drop 11)))
  | [] => by simp [ssnAt]
  | [a1] => by simp [ssnAt]
  | [a1, a2] => by simp [ssnAt]
  | [a1, a2, a3] => by simp [ssnAt]
  | [a1, a2, a3, a4] => by simp [ssnAt]
  | [a1, a2, a3, a4, a5] => by simp [ssnAt]
  | [a1, a2, a3, a4, a5, a6] => by simp [ssnAt]
  | [a1, a2, a3, a4, a5, a6, a7] => by simp [ssnAt]
  | [a1, a2, a3, a4, a5, a6, a7, a8] => by simp [ssnAt]
  | [a1, a2, a3, a4, a5, a6, a7, a8, a9] => by simp [ssnAt]
  | [a1, a2, a3, a4, a5, a6, a7, a8, a9, a10] => by simp [ssnAt]
  | a1 :: a2 :: a3 :: a4 :: a5 :: a6 :: a7 :: a8 :: a9 :: a10 :: a11 :: rest => by
    have hlen : decide (11 ≤
        (a1 :: a2 :: a3 :: a4 :: a5 :: a6 :: a7 :: a8 :: a9 :: a10 :: a11 :: rest).length) =
          true := by
      simp only [decide_eq_true_eq, List.length_cons]
      omega
    rw [hlen, Bool.true_and]
    rfl

/-- Replacing a later span by a bracket cannot make the SSN window
condition at this position hold when it failed on the original text. -/
theorem ssnAt_transfer {f : Bool} {U V R : List Char} {d : Char}
    (hlast : ∀ u, U.getLast? = some u → isWordChar u ≠ isWordChar d)
    (hnone : ssnAt f (U ++ d :: V) = false) :
    ssnAt f (U ++ '[' :: R) = false := by
  by_cases hY : ssnAt f (U ++ '[' :: R) = true
  case neg =>
    cases hq : ssnAt f (U ++ '[' :: R)
    · rfl
    · exact absurd hq hY
  case pos =>
    exfalso
    rw [ssnAt_reads] at hY
    simp only [Bool.and_eq_true, decide_eq_true_eq, beq_iff_eq, Bool.not_eq_true'] at hY
    obtain ⟨hlen,
      ⟨⟨⟨⟨⟨⟨⟨⟨⟨⟨⟨⟨hf, h0⟩, h1⟩, h2⟩, h3⟩, h4⟩, h5⟩, h6⟩, h7⟩, h8⟩, h9⟩, h10⟩, hT⟩⟩ := hY
    have hbr : (U ++ '[' :: R).getD U.length ' ' = '[' := getD_append_length _ _ _ _
    rcases Nat.lt_or_ge U.length 11 with hU | hU
    · -- the bracket lands inside the window and breaks its shape
      have hcases : U.length = 0 ∨ U.length = 1 ∨ U.length = 2 ∨ U.length = 3 ∨
          U.length = 4 ∨ U.length = 5 ∨ U.length = 6 ∨ U.length = 7 ∨
          U.length = 8 ∨ U.length = 9 ∨ U.length = 10 := by omega
      rcases hcases with h | h | h | h | h | h | h | h | h | h | h
      · rw [h] at hbr; rw [hbr] at h0; exact absurd h0 (by decide)
      · rw [h] at hbr; rw [hbr] at h1; exact absurd h1 (by decide)
      · rw [h] at hbr; rw [hbr] at h2; exact absurd h2 (by decide)
      · rw [h] at hbr; rw [hbr] at h3; exact absurd h3 (by decide)
      · rw [h] at hbr; rw [hbr] at h4; exact absurd h4 (by decide)
      · rw [h] at hbr; rw [hbr] at h5; exact absurd h5 (by decide)
      · rw [h] at hbr; rw [hbr] at h6; exact absurd h6 (by decide)
      · rw [h] at hbr; rw [hbr] at h7; exact absurd h7 (by decide)
      · rw [h] at hbr; rw [hbr] at h8; exact absurd h8 (by decide)
      · rw [h] at hbr; rw [hbr] at h9; exact absurd h9 (by decide)
      · rw [h] at hbr; rw [hbr] at h10; exact absurd h10 (by decide)
    · -- the window lies inside the known prefix
      have hreads : ∀ i, i < 11 → (U ++ d :: V).getD i ' ' = (U ++ '[' :: R).getD i ' ' := by
        intro i hi
        rw [getD_append_lt ' ' (by omega), getD_append_lt ' ' (by omega)]
      have hX : ssnAt f (U ++ d :: V) = true := by
        rw [ssnAt_reads]
        simp only [Bool.and_eq_true, decide_eq_true_eq, beq_iff_eq, Bool.not_eq_true']
        refine ⟨by rw [List.length_append, List.length_cons]; omega,
          ⟨⟨⟨⟨⟨⟨⟨⟨⟨⟨⟨⟨hf, ?_⟩, ?_⟩, ?_⟩, ?_⟩, ?_⟩, ?_⟩, ?_⟩, ?_⟩, ?_⟩, ?_⟩, ?_⟩, ?_⟩⟩
        · rw [hreads 0 (by omega)]; exact h0
        · rw [hreads 1 (by omega)]; exact h1
        · rw [hreads 2 (by omega)]; exact h2
        · rw [hreads 3 (by omega)]; exact h3
        · rw [hreads 4 (by omega)]; exact h4
        · rw [hreads 5 (by omega)]; exact h5
        · rw [hreads 6 (by omega)]; exact h6
        · rw [hreads 7 (by omega)]; exact h7
        · rw [hreads 8 (by omega)]; exact h8
        · rw [hreads 9 (by omega)]; exact h9
        · rw [hreads 10 (by omega)]; exact h10
        · -- the trailing boundary
          rcases Nat.eq_or_lt_of_le hU with h11 | h12
          · -- the trailing read sits exactly at the junction
            have hu : U.getLast? = some (U.getD 10 ' ') := by
              have := getLast?_eq_getD U (by intro hnil; rw [hnil] at hU; simp at hU)
              rw [← h11] at this
              simpa using this
            have hud : isDigitChar (U.getD 10 ' ') = true := by
              have hr : (U ++ '[' :: R).getD 10 ' ' = U.getD 10 ' ' :=
                getD_append_lt ' ' (by omega)
              rw [hr] at h10
              exact h10
            have hdnw : isWordChar d = false := by
              have hne := hlast _ hu
              rw [word_of_digit hud] at hne
              cases hq : isWordChar d
              · rfl
              · exact absurd hq.symm hne
            have hdrop : (U ++ d :: V).drop 11 = d :: V := by
              rw [drop_append_le (by omega)]
              have : U.drop 11 = [] := by
                rw [List.drop_eq_nil_iff_le]
                omega
              rw [this, List.nil_append]
            rw [hdrop]
            exact hdnw
          · -- the trailing read is common to both sides
            have hdropX : (U ++ d :: V).drop 11 = U.drop 11 ++ d :: V :=
              drop_append_le (by omega)
            have hdropY : (U ++ '[' :: R).drop 11 = U.drop 11 ++ '[' :: R :=
              drop_append_le (by omega)
            have hne : U.drop 11 ≠ [] := by
              intro hnil
              have := List.drop_eq_nil_iff_le.mp hnil
              omega
            rw [hdropY, headIsWord_append_ne_nil hne] at hT
            rw [hdropX, headIsWord_append_ne_nil hne]
            exact hT
      rw [hnone] at hX
      cases hX
/-- The phone match condition fails after a word character. -/
theorem phoneAt_true_flag : ∀ cs : List Char, phoneAt true cs = false
  | [] => rfl
  | c :: cs => by simp [phoneAt]

/-- The phone match condition needs a digit at its head. -/
theorem phoneAt_false_head {b : Bool} {c : Char} {cs : List Char}
    (h : isDigitChar c = false) : phoneAt b (c :: cs) = false := by
  simp [phoneAt, h]

/-- The SSN match condition needs a digit at its head. -/
theorem ssnAt_false_head {b : Bool} {c : Char} {cs : List Char}
    (h : isDigitChar c = false) : ssnAt b (c :: cs) = false := by
  rw [ssnAt_reads]
  simp [List.getD_cons_zero, h]

/-- An email attempt fails at a non-word head with no word before. -/
theorem mea_false_nonword_head {c : Char} {cs : List Char}
    (hw : isWordChar c = false) : matchEmailAt false (c :: cs) = none :=
  mea_none_of_flag (by rw [hw])

/-- First-difference decomposition of the SSN scan: the output is the
input, or they share a prefix after which the output holds an opening
bracket where the input holds the first character of a replaced
match, a digit sitting at a word boundary. -/
theorem goSSN_diff : ∀ (cs : List Char) (b : Bool),
    goSSN b cs = cs ∨
    ∃ U d' V' R', cs = U ++ d' :: V' ∧ goSSN b cs = U ++ '[' :: R' ∧
      (U = [] → b ≠ isWordChar d') ∧
      (∀ u, U.getLast? = some u → isWordChar u ≠ isWordChar d')
  | [], b => Or.inl (goSSN_nil b)
  | c :: cs', b => by
    rw [goSSN_cons]
    by_cases hA : ssnAt b (c :: cs') = true
    · rw [if_pos hA]
      right
      obtain ⟨hcd, hbf⟩ := ssnAt_head_digit hA
      refine ⟨[], c, cs', ssnPH.tail ++ goSSN true ((c :: cs').drop 11), by simp, rfl, ?_, by simp⟩
      intro _
      rw [hbf, word_of_digit hcd]
      simp
    · rw [if_neg hA]
      rcases goSSN_diff cs' (isWordChar c) with hid | ⟨U, d', V', R', hsp, hout, hnil, hlast⟩
      · left
        rw [hid]
      · right
        refine ⟨c :: U, d', V', R', by rw [List.cons_append, ← hsp],
          by rw [List.cons_append, ← hout], by simp, ?_⟩
        intro u hu
        cases U with
        | nil =>
          have hcu : c = u := by simpa using hu
          rw [← hcu]
          exact hnil rfl
        | cons a A =>
          rw [List.getLast?_cons_cons] at hu
          exact hlast u hu

/-- First-difference decomposition of the email scan. -/
theorem goEmail_diff : ∀ (cs : List Char) (b : Bool),
    goEmail b cs = cs ∨
    ∃ U d' V' R', cs = U ++ d' :: V' ∧ goEmail b cs = U ++ '[' :: R' ∧
      (U = [] → b ≠ isWordChar d') ∧
      (∀ u, U.getLast? = some u → isWordChar u ≠ isWordChar d')
  | [], b => Or.inl (goEmail_nil b)
  | c :: cs', b => by
    cases hm : matchEmailAt b (c :: cs') with
    | some pr =>
      cases pr with
      | mk m r =>
        rw [goEmail_cons_pos hm]
        right
        refine ⟨[], c, cs', emailPH.tail ++ goEmail (isWordChar (m.getLastD ' ')) r,
          by simp, rfl, ?_, by simp⟩
        intro _
        exact bne_iff_ne.mp (matchEmailAt_some_guard hm).2
    | none =>
      rw [goEmail_cons_neg hm]
      rcases goEmail_diff cs' (isWordChar c) with hid | ⟨U, d', V', R', hsp, hout, hnil, hlast⟩
      · left
        rw [hid]
      · right
        refine ⟨c :: U, d', V', R', by rw [List.cons_append, ← hsp],
          by rw [List.cons_append, ← hout], by simp, ?_⟩
        intro u hu
        cases U with
        | nil =>
          have hcu : c = u := by simpa using hu
          rw [← hcu]
          exact hnil rfl
        | cons a A =>
          rw [List.getLast?_cons_cons] at hu
          exact hlast u hu

/-- A positionwise property transported along a first-difference
decomposition by the corresponding transfer lemma. -/
theorem step_transfer {P : Bool → List Char → Prop}
    (htr : ∀ (f : Bool) (U V R : List Char) (d : Char),
      (∀ u, U.getLast? = some u → isWordChar u ≠ isWordChar d) →
      P f (U ++ d :: V) → P f (U ++ '[' :: R))
    {f : Bool} {c : Char} {cs T2 : List Char}
    (hdiff : T2 = cs ∨ ∃ U d' V' R', cs = U ++ d' :: V' ∧ T2 = U ++ '[' :: R' ∧
      (U = [] → isWordChar c ≠ isWordChar d') ∧
      (∀ u, U.getLast? = some u → isWordChar u ≠ isWordChar d'))
    (hnone : P f (c :: cs)) : P f (c :: T2) := by
  rcases hdiff with he | ⟨U, d', V', R', hsp, hout, hnil, hlast⟩
  · rw [he]
    exact hnone
  · rw [hout]
    rw [hsp] at hnone
    have hlast' : ∀ u, (c :: U).getLast? = some u → isWordChar u ≠ isWordChar d' := by
      intro u hu
      cases U with
      | nil =>
        have hcu : c = u := by simpa using hu
        rw [← hcu]
        exact hnil rfl
      | cons a A =>
        rw [List.getLast?_cons_cons] at hu
        exact hlast u hu
    have h1 : P f ((c :: U) ++ d' :: V') := by
      rw [List.cons_append]
      exact hnone
    have h2 := htr f (c :: U) V' R' d' hlast' h1
    rw [List.cons_append] at h2
    exact h2

/-- Walking a bad position out of a digit-free prefix, for match
conditions that need a digit at their head. -/
theorem scanBad_strip_nondigit {hit : Bool → List Char → Prop}
    (hhd : ∀ (b' : Bool) (c : Char) (l : List Char), isDigitChar c = false → ¬ hit b' (c :: l)) :
    ∀ (p : List Char) (b : Bool) {T : List Char},
      (∀ x ∈ p, isDigitChar x = false) →
      scanBad hit b (p ++ T) →
      scanBad hit (p.foldl (fun _ c => isWordChar c) b) T
  | [], b, T, _, h => by simpa using h
  | x :: p, b, T, hnd, h => by
    rw [List.cons_append] at h
    rcases scanBad_cons_elim h with hhead | htail
    · exact absurd hhead (hhd b x _ (hnd x (by simp)))
    · exact scanBad_strip_nondigit hhd p (isWordChar x) (fun y hy => hnd y (by simp [hy])) htail
/-- One strip step at a word character inside a placeholder: the
attempt fails on the missing leading boundary. -/
theorem emailBad_step_word {c : Char} {Y : List Char}
    (h : scanBad (fun b' l => matchEmailAt b' l ≠ none) true (c :: Y))
    (hw : isWordChar c = true) :
    scanBad (fun b' l => matchEmailAt b' l ≠ none) true Y := by
  have h2 := (scanBad_cons_elim h).resolve_left
    (fun hh => hh (mea_none_of_flag hw.symm))
  rw [hw] at h2
  exact h2

/-- One strip step at a non-class character inside a placeholder. -/
theorem emailBad_step_notC1 {b : Bool} {c : Char} {Y : List Char}
    (h : scanBad (fun b' l => matchEmailAt b' l ≠ none) b (c :: Y))
    (hc : isC1 c = false) (hw : isWordChar c = false) :
    scanBad (fun b' l => matchEmailAt b' l ≠ none) false Y := by
  have h2 := (scanBad_cons_elim h).resolve_left
    (fun hh => hh (mea_none_of_notC1 hc))
  rw [hw] at h2
  exact h2

/-- One strip step where the local run stops before an at sign. -/
theorem emailBad_step_runstop {c e : Char} {Y t : List Char}
    (h : scanBad (fun b' l => matchEmailAt b' l ≠ none) false (c :: Y))
    (hd : (c :: Y).dropWhile isC1 = e :: t) (he : e ≠ '@') (hw : isWordChar c = true) :
    scanBad (fun b' l => matchEmailAt b' l ≠ none) true Y := by
  have h2 := (scanBad_cons_elim h).resolve_left
    (fun hh => hh (mea_none_no_at hd he))
  rw [hw] at h2
  exact h2

/-- No email attempt succeeds inside the email placeholder. -/
theorem emailBad_strip_emailPH {b : Bool} {T : List Char}
    (h : scanBad (fun b' l => matchEmailAt b' l ≠ none) b (emailPH ++ T)) :
    scanBad (fun b' l => matchEmailAt b' l ≠ none) false T := by
  have hlist : emailPH ++ T = '[' :: 'E' :: 'M' :: 'A' :: 'I' :: 'L' :: ' ' :: 'R' ::
      'E' :: 'D' :: 'A' :: 'C' :: 'T' :: 'E' :: 'D' :: ']' :: T := rfl
  rw [hlist] at h
  replace h := emailBad_step_notC1 h (by decide) (by decide)
  replace h := emailBad_step_runstop h (by rfl) (by decide) (by decide)
  replace h := emailBad_step_word h (by decide)
  replace h := emailBad_step_word h (by decide)
  replace h := emailBad_step_word h (by decide)
  replace h := emailBad_step_word h (by decide)
  replace h := emailBad_step_notC1 h (by decide) (by decide)
  replace h := emailBad_step_runstop h (by rfl) (by decide) (by decide)
  replace h := emailBad_step_word h (by decide)
  replace h := emailBad_step_word h (by decide)
  replace h := emailBad_step_word h (by decide)
  replace h := emailBad_step_word h (by decide)
  replace h := emailBad_step_word h (by decide)
  replace h := emailBad_step_word h (by decide)
  replace h := emailBad_step_word h (by decide)
  exact emailBad_step_notC1 h (by decide) (by decide)

/-- No email attempt succeeds inside the SSN placeholder. -/
theorem emailBad_strip_ssnPH {b : Bool} {T : List Char}
    (h : scanBad (fun b' l => matchEmailAt b' l ≠ none) b (ssnPH ++ T)) :
    scanBad (fun b' l => matchEmailAt b' l ≠ none) false T := by
  have hlist : ssnPH ++ T = '[' :: 'S' :: 'S' :: 'N' :: ' ' :: 'R' ::
      'E' :: 'D' :: 'A' :: 'C' :: 'T' :: 'E' :: 'D' :: ']' :: T := rfl
  rw [hlist] at h
  replace h := emailBad_step_notC1 h (by decide) (by decide)
  replace h := emailBad_step_runstop h (by rfl) (by decide) (by decide)
  replace h := emailBad_step_word h (by decide)
  replace h := emailBad_step_word h (by decide)
  replace h := emailBad_step_notC1 h (by decide) (by decide)
  replace h := emailBad_step_runstop h (by rfl) (by decide) (by decide)
  replace h := emailBad_step_word h (by decide)
  replace h := emailBad_step_word h (by decide)
  replace h := emailBad_step_word h (by decide)
  replace h := emailBad_step_word h (by decide)
  replace h := emailBad_step_word h (by decide)
  replace h := emailBad_step_word h (by decide)
  replace h := emailBad_step_word h (by decide)
  exact emailBad_step_notC1 h (by decide) (by decide)

/-- No phone position matches inside a digit-free placeholder. -/
theorem phoneBad_strip_of_nondigit {p : List Char} {b : Bool} {T : List Char}
    (hp : ∀ x ∈ p, isDigitChar x = false)
    (hfold : p.foldl (fun _ c => isWordChar c) b = false)
    (h : scanBad (fun b' l => phoneAt b' l = true) b (p ++ T)) :
    scanBad (fun b' l => phoneAt b' l = true) false T := by
  have h2 := scanBad_strip_nondigit
    (fun b' c l hc hh => by rw [phoneAt_false_head hc] at hh; cases hh) p b hp h
  rw [hfold] at h2
  exact h2

/-- No SSN position matches inside a digit-free placeholder. -/
theorem ssnBad_strip_of_nondigit {p : List Char} {b : Bool} {T : List Char}
    (hp : ∀ x ∈ p, isDigitChar x = false)
    (hfold : p.foldl (fun _ c => isWordChar c) b = false)
    (h : scanBad (fun b' l => ssnAt b' l = true) b (p ++ T)) :
    scanBad (fun b' l => ssnAt b' l = true) false T := by
  have h2 := scanBad_strip_nondigit
    (fun b' c l hc hh => by rw [ssnAt_false_head hc] at hh; cases hh) p b hp h
  rw [hfold] at h2
  exact h2
/-- A TLD acceptance records a word boundary at its end. -/
theorem tldTry_some_boundary {A : List Char} :
    ∀ {n : Nat} {tld rest : List Char}, tldTry A n = some (tld, rest) →
      (isWordChar (tld.getLastD ' ') != headIsWord rest) = true
  | 0, tld, rest, h => by simp [tldTry] at h
  | n + 1, tld, rest, h => by
    simp only [tldTry] at h
    split at h
    · cases h
    · split at h
      · rename_i hacc
        cases h
        exact hacc
      · exact tldTry_some_boundary h

/-- A defaulted last read of an append with nonempty right part. -/
theorem getLastD_append_right {A B : List Char} (x : Char) (h : B ≠ []) :
    (A ++ B).getLastD x = B.getLastD x := by
  rw [List.getLastD_eq_getLast?, List.getLastD_eq_getLast?,
    List.getLast?_append_of_ne_nil A h]

/-- A successful email tail ends its match at a word boundary. -/
theorem emailTail_some_boundary {loc afterAt m rest : List Char}
    (h : emailTail loc afterAt = some (m, rest)) :
    (isWordChar (m.getLastD ' ') != headIsWord rest) = true := by
  simp only [emailTail] at h
  split at h
  · cases h
  · obtain ⟨k, hk, hfk⟩ := firstSome_mem h
    split at hfk
    · rename_i tld rest2 htld
      cases hfk
      have hbd := tldTry_some_boundary htld
      have htne : tld ≠ [] := (tldTry_spec htld).2
      have hm : (loc ++ '@' :: (afterAt.takeWhile isC2).take k ++ '.' :: tld).getLastD ' ' =
          tld.getLastD ' ' := by
        rw [show loc ++ '@' :: (afterAt.takeWhile isC2).take k ++ '.' :: tld =
            (loc ++ '@' :: (afterAt.takeWhile isC2).take k ++ ['.']) ++ tld by
          simp [List.append_assoc]]
        exact getLastD_append_right ' ' htne
      rw [hm]
      exact hbd
    · cases hfk

/-- A successful email attempt ends its match at a word boundary. -/
theorem matchEmailAt_last_boundary {b : Bool} {cs m rest : List Char}
    (h : matchEmailAt b cs = some (m, rest)) :
    (isWordChar (m.getLastD ' ') != headIsWord rest) = true := by
  cases cs with
  | nil => simp [matchEmailAt] at h
  | cons c0 t =>
    rw [matchEmailAt_decomp] at h
    split at h
    · split at h
      · cases h
      · split at h
        · exact emailTail_some_boundary h
        · cases h
    · cases h

/-- A word-free bad position cannot exist in the empty list. -/
theorem phoneBad_nil {b : Bool} :
    ¬ scanBad (fun b' l => phoneAt b' l = true) b [] :=
  scanBad_nil (fun b' => by simp [phoneAt])

/-- No SSN bad position exists in the empty list. -/
theorem ssnBad_nil {b : Bool} :
    ¬ scanBad (fun b' l => ssnAt b' l = true) b [] :=
  scanBad_nil (fun b' => by simp [ssnAt])

/-- No email bad position exists in the empty list. -/
theorem emailBad_nil {b : Bool} :
    ¬ scanBad (fun b' l => matchEmailAt b' l ≠ none) b [] :=
  scanBad_nil (fun b' hh => hh rfl)

/-- A match-free list is a fixed point of the SSN scanner. -/
theorem goSSN_fix : ∀ (cs : List Char) (b : Bool),
    ¬ scanBad (fun b' l => ssnAt b' l = true) b cs → goSSN b cs = cs
  | [], b, _ => goSSN_nil b
  | c :: cs', b, hbad => by
    rw [goSSN_cons]
    have hA : ssnAt b (c :: cs') = false := by
      cases hq : ssnAt b (c :: cs')
      · rfl
      · exact absurd (Or.inl hq) hbad
    rw [if_neg (by rw [hA]; simp)]
    have := goSSN_fix cs' (isWordChar c) (fun hb' => hbad (scanBad_cons_intro b hb'))
    rw [this]

/-- A match-free list is a fixed point of the email scanner. -/
theorem goEmail_fix : ∀ (cs : List Char) (b : Bool),
    ¬ scanBad (fun b' l => matchEmailAt b' l ≠ none) b cs → goEmail b cs = cs
  | [], b, _ => goEmail_nil b
  | c :: cs', b, hbad => by
    have hm : matchEmailAt b (c :: cs') = none := by
      cases hq : matchEmailAt b (c :: cs') with
      | none => rfl
      | some pr =>
        refine absurd (Or.inl ?_) hbad
        show matchEmailAt b (c :: cs') ≠ none
        rw [hq]
        simp
    rw [goEmail_cons_neg hm]
    have := goEmail_fix cs' (isWordChar c) (fun hb' => hbad (scanBad_cons_intro b hb'))
    rw [this]

/-- A match-free list is a fixed point of the phone scanner. -/
theorem goPhone_fix : ∀ (n : Nat) (cs : List Char) (b : Bool), cs.length ≤ n →
    ¬ scanBad (fun b' l => phoneAt b' l = true) b cs → goPhone b cs = cs
  | _, [], b, _, _ => goPhone_nil b
  | 0, c :: cs', _, hlen, _ => by simp at hlen
  | n + 1, c :: cs', b, hlen, hbad => by
    by_cases hd : (isDigitChar c && !b) = true
    · have hb : b = false := by
        rcases (Bool.and_eq_true _ _).mp hd with ⟨-, hnb⟩
        cases b
        · rfl
        · simp at hnb
      subst hb
      have hAt : phoneAt false (c :: cs') = false := by
        cases hq : phoneAt false (c :: cs')
        · rfl
        · exact absurd (Or.inl hq) hbad
      have hinner : (decide (10 ≤ (c :: cs'.takeWhile isDigitChar).length) &&
          !headIsWord (cs'.dropWhile isDigitChar)) = false := by
        simp only [phoneAt, hd, Bool.true_and] at hAt
        exact hAt
      rw [goPhone_cons_digit ((Bool.and_eq_true _ _).mp hd).1]
      rw [if_neg (by rw [hinner]; simp)]
      have hrec : goPhone true (cs'.dropWhile isDigitChar) = cs'.dropWhile isDigitChar := by
        apply goPhone_fix n (cs'.dropWhile isDigitChar) true
        · have := dropWhile_length_le isDigitChar cs'
          simp only [List.length_cons] at hlen
          omega
        · intro hb'
          apply hbad
          rcases hb' with hh | ⟨A, u, V', hsp, hlastA, hhit⟩
          · rw [phoneAt_true_flag] at hh
            cases hh
          · have hAne : A ≠ [] := by
              intro hnil
              rw [hnil] at hlastA
              simp at hlastA
            refine Or.inr ⟨(c :: cs'.takeWhile isDigitChar) ++ A, u, V', ?_, ?_, hhit⟩
            · rw [List.append_assoc, ← hsp, List.cons_append,
                List.takeWhile_append_dropWhile]
            · rw [List.getLast?_append_of_ne_nil _ hAne]
              exact hlastA
      rw [hrec, List.cons_append, List.takeWhile_append_dropWhile]
    · have hdf : (isDigitChar c && !b) = false := by
        cases hq : (isDigitChar c && !b)
        · rfl
        · exact absurd hq hd
      rw [goPhone_cons_not hdf]
      have hrec := goPhone_fix n cs' (isWordChar c)
        (by simp only [List.length_cons] at hlen; omega)
        (fun hb' => hbad (scanBad_cons_intro b hb'))
      rw [hrec]
/-- A defaulted read inside a take prefix. -/
theorem getD_take_lt (x : Char) : ∀ (L : List Char) (n i : Nat), i < n →
    (L.take n).getD i x = L.getD i x
  | [], n, i, _ => by simp
  | c :: L, n + 1, 0, _ => by simp
  | c :: L, n + 1, i + 1, h => by
    simp only [List.take_succ_cons, List.getD_cons_succ]
    exact getD_take_lt x L n i (by omega)
  | c :: L, 0, i, h => by omega

/-- The output of the phone scanner has no phone match position. -/
theorem goPhone_out_free : ∀ (n : Nat) (b : Bool) (cs : List Char), cs.length ≤ n →
    ¬ scanBad (fun b' l => phoneAt b' l = true) b (goPhone b cs)
  | _, b, [], _ => by rw [goPhone_nil]; exact phoneBad_nil
  | 0, b, c :: cs', hlen => by simp at hlen
  | n + 1, b, c :: cs', hlen => by
    have hlen' : cs'.length ≤ n := by simp only [List.length_cons] at hlen; omega
    have hrestlen : (cs'.dropWhile isDigitChar).length ≤ n := by
      have := dropWhile_length_le isDigitChar cs'
      omega
    by_cases hd : (isDigitChar c && !b) = true
    · have hb : b = false := by
        rcases (Bool.and_eq_true _ _).mp hd with ⟨-, hnb⟩
        cases b
        · rfl
        · simp at hnb
      subst hb
      rw [goPhone_cons_digit ((Bool.and_eq_true _ _).mp hd).1]
      have htwmem : ∀ x ∈ cs'.takeWhile isDigitChar, isDigitChar x = true :=
        fun x hx => takeWhile_mem hx
      by_cases hcond : (decide (10 ≤ (c :: cs'.takeWhile isDigitChar).length) &&
          !headIsWord (cs'.dropWhile isDigitChar)) = true
      · -- a replacement happens
        rw [if_pos hcond]
        intro hbad
        replace hbad := phoneBad_strip_of_nondigit (p := phonePH) (by decide) rfl hbad
        cases hrest : cs'.dropWhile isDigitChar with
        | nil =>
          rw [hrest, goPhone_nil] at hbad
          exact phoneBad_nil hbad
        | cons r rs =>
          have hrd : isDigitChar r = false := dropWhile_head_false hrest
          rw [hrest, goPhone_cons_not (by rw [hrd]; simp)] at hbad
          rcases scanBad_cons_elim hbad with hh | htail
          · rw [phoneAt_false_head hrd] at hh
            cases hh
          · have hrslen : rs.length ≤ n := by
              rw [hrest] at hrestlen
              simp only [List.length_cons] at hrestlen
              omega
            exact goPhone_out_free n (isWordChar r) rs hrslen htail
      · -- the run is kept
        rw [if_neg (by intro hq; exact hcond hq)]
        intro hbad
        rcases hbad with hh | ⟨A, u, V', hsp, hlastA, hhit⟩
        · -- a head match would repeat the failed condition
          apply hcond
          have hT : ∀ (T : List Char), T = goPhone true (cs'.dropWhile isDigitChar) →
              (cs'.takeWhile isDigitChar ++ T).takeWhile isDigitChar =
                cs'.takeWhile isDigitChar ∧
              (cs'.takeWhile isDigitChar ++ T).dropWhile isDigitChar = T ∧
              headIsWord T = headIsWord (cs'.dropWhile isDigitChar) := by
            intro T hTdef
            cases hrest : cs'.dropWhile isDigitChar with
            | nil =>
              rw [hrest, goPhone_nil] at hTdef
              subst hTdef
              refine ⟨?_, ?_, rfl⟩
              · rw [List.append_nil, takeWhile_all htwmem]
              · rw [List.append_nil]
                apply dropWhile_nil_of_takeWhile_eq
                exact takeWhile_all htwmem
            | cons r rs =>
              have hrd : isDigitChar r = false := dropWhile_head_false hrest
              rw [hrest, goPhone_cons_not (by rw [hrd]; simp)] at hTdef
              subst hTdef
              refine ⟨?_, ?_, rfl⟩
              · rw [takeWhile_append_not hrd, takeWhile_all htwmem]
              · rw [dropWhile_append_cons hrd,
                  dropWhile_nil_of_takeWhile_eq (takeWhile_all htwmem), List.nil_append]
            -- wait: goal three: headIsWord (r :: goPhone (isWordChar r) rs) =
            --   headIsWord (r :: rs) : rfl
          obtain ⟨h1, h2, h3⟩ := hT _ rfl
          rw [List.cons_append] at hh
          simp only [phoneAt, h1, h2, h3] at hh
          simp only [Bool.and_eq_true] at hh
          rw [hh.2.1, hh.2.2]
          rfl
        · -- a deep match pulls back
          rcases List.append_eq_append_iff.mp hsp with ⟨a', hA, hTsp⟩ | ⟨c', hrun, hV⟩
          · cases ha' : a' with
            | nil =>
              rw [ha', List.append_nil] at hA
              have humem : u ∈ c :: cs'.takeWhile isDigitChar := by
                rw [← hA]
                exact getLast?_mem hlastA
              have hud : isDigitChar u = true := by
                rcases List.mem_cons.mp humem with h | h
                · rw [h]
                  exact ((Bool.and_eq_true _ _).mp hd).1
                · exact htwmem u h
              rw [word_of_digit hud, phoneAt_true_flag] at hhit
              cases hhit
            | cons a1 a2 =>
              have ha'ne : a' ≠ [] := by rw [ha']; simp
              rw [hA, List.getLast?_append_of_ne_nil _ ha'ne] at hlastA
              have hdeepT : scanBad (fun b' l => phoneAt b' l = true) true
                  (goPhone true (cs'.dropWhile isDigitChar)) :=
                Or.inr ⟨a', u, V', hTsp, hlastA, hhit⟩
              exact goPhone_out_free n true (cs'.dropWhile isDigitChar) hrestlen hdeepT
          · have humem : u ∈ c :: cs'.takeWhile isDigitChar := by
              rw [hrun]
              exact List.mem_append_left _ (getLast?_mem hlastA)
            have hud : isDigitChar u = true := by
              rcases List.mem_cons.mp humem with h | h
              · rw [h]
                exact ((Bool.and_eq_true _ _).mp hd).1
              · exact htwmem u h
            rw [word_of_digit hud, phoneAt_true_flag] at hhit
            cases hhit
    · have hdf : (isDigitChar c && !b) = false := by
        cases hq : (isDigitChar c && !b)
        · rfl
        · exact absurd hq hd
      rw [goPhone_cons_not hdf]
      intro hbad
      rcases scanBad_cons_elim hbad with hh | htail
      · simp only [phoneAt, hdf, Bool.false_and] at hh
        cases hh
      · exact goPhone_out_free n (isWordChar c) cs' hlen' htail

/-- The output of the SSN scanner has no SSN match position. -/
theorem goSSN_out_free : ∀ (n : Nat) (b : Bool) (cs : List Char), cs.length ≤ n →
    ¬ scanBad (fun b' l => ssnAt b' l = true) b (goSSN b cs)
  | _, b, [], _ => by rw [goSSN_nil]; exact ssnBad_nil
  | 0, b, c :: cs', hlen => by simp at hlen
  | n + 1, b, c :: cs', hlen => by
    have hlen' : cs'.length ≤ n := by simp only [List.length_cons] at hlen; omega
    rw [goSSN_cons]
    by_cases hA : ssnAt b (c :: cs') = true
    · rw [if_pos hA]
      intro hbad
      replace hbad := ssnBad_strip_of_nondigit (p := ssnPH) (b := b) (by decide) rfl hbad
      have hdroplen : ((c :: cs').drop 11).length ≤ n := by
        rw [List.length_drop]
        simp only [List.length_cons]
        omega
      have hT : headIsWord ((c :: cs').drop 11) = false := by
        rw [ssnAt_reads] at hA
        simp only [Bool.and_eq_true, Bool.not_eq_true'] at hA
        exact hA.2.2
      cases hrest : (c :: cs').drop 11 with
      | nil =>
        rw [hrest, goSSN_nil] at hbad
        exact ssnBad_nil hbad
      | cons r rs =>
        rw [hrest] at hT hbad hdroplen
        have hrw : isWordChar r = false := hT
        have hrd : isDigitChar r = false := by
          cases hq : isDigitChar r
          · rfl
          · rw [word_of_digit hq] at hrw
            cases hrw
        rw [goSSN_cons, if_neg (by rw [ssnAt_true_flag]; simp)] at hbad
        rcases scanBad_cons_elim hbad with hh | htail
        · rw [ssnAt_false_head hrd] at hh
          cases hh
        · have hrslen : rs.length ≤ n := by
            simp only [List.length_cons] at hdroplen
            omega
          exact goSSN_out_free n (isWordChar r) rs hrslen htail
    · have hAf : ssnAt b (c :: cs') = false := by
        cases hq : ssnAt b (c :: cs')
        · rfl
        · exact absurd hq hA
      rw [if_neg (by rw [hAf]; simp)]
      intro hbad
      rcases scanBad_cons_elim hbad with hh | htail
      · have htr := step_transfer (P := fun f l => ssnAt f l = false)
          (fun f U V R d hl hn => ssnAt_transfer hl hn)
          (goSSN_diff cs' (isWordChar c)) hAf
        rw [htr] at hh
        cases hh
      · exact goSSN_out_free n (isWordChar c) cs' hlen' htail

/-- The output of the email scanner has no email match position. -/
theorem goEmail_out_free : ∀ (n : Nat) (b : Bool) (cs : List Char), cs.length ≤ n →
    ¬ scanBad (fun b' l => matchEmailAt b' l ≠ none) b (goEmail b cs)
  | _, b, [], _ => by rw [goEmail_nil]; exact emailBad_nil
  | 0, b, c :: cs', hlen => by simp at hlen
  | n + 1, b, c :: cs', hlen => by
    have hlen' : cs'.length ≤ n := by simp only [List.length_cons] at hlen; omega
    cases hm : matchEmailAt b (c :: cs') with
    | some pr =>
      obtain ⟨m, r⟩ := pr
      have hrlen : r.length ≤ n := by
        have := matchEmailAt_rest_lt hm
        simp only [List.length_cons] at this
        omega
      rw [goEmail_cons_pos hm]
      intro hbad
      replace hbad := emailBad_strip_emailPH hbad
      by_cases hw2f : isWordChar (m.getLastD ' ') = false
      · rw [hw2f] at hbad
        exact goEmail_out_free n false r hrlen hbad
      · have hw2 : isWordChar (m.getLastD ' ') = true := by
          cases hq : isWordChar (m.getLastD ' ')
          · exact absurd hq hw2f
          · rfl
        rw [hw2] at hbad
        have hrb : headIsWord r = false := by
          have hbd := matchEmailAt_last_boundary hm
          rw [hw2] at hbd
          simpa using hbd
        rcases hbad with hh | hdeep
        · have hnone : matchEmailAt false (goEmail true r) = none := by
            cases hr0 : r with
            | nil =>
              rw [goEmail_nil]
              rfl
            | cons r1 rs1 =>
              cases hm2 : matchEmailAt true (r1 :: rs1) with
              | some pr2 =>
                obtain ⟨m2, r2⟩ := pr2
                rw [goEmail_cons_pos hm2]
                exact mea_none_of_notC1 (by decide)
              | none =>
                rw [goEmail_cons_neg hm2]
                apply mea_false_nonword_head
                rw [hr0] at hrb
                exact hrb
          exact hh hnone
        · exact goEmail_out_free n true r hrlen (Or.inr hdeep)
    | none =>
      rw [goEmail_cons_neg hm]
      intro hbad
      rcases scanBad_cons_elim hbad with hh | htail
      · have htr := step_transfer (P := fun f l => matchEmailAt f l = none)
          (fun f U V R d hl hn => matchEmailAt_transfer hl hn)
          (goEmail_diff cs' (isWordChar c)) hm
        exact hh htr
      · exact goEmail_out_free n (isWordChar c) cs' hlen' htail
/-- The email scanner does not create phone match positions. -/
theorem goEmail_pres_phone : ∀ (n : Nat) (b : Bool) (cs : List Char), cs.length ≤ n →
    scanBad (fun b' l => phoneAt b' l = true) b (goEmail b cs) →
    scanBad (fun b' l => phoneAt b' l = true) b cs
  | _, b, [], _ => by rw [goEmail_nil]; exact id
  | 0, b, c :: cs', hlen => by simp at hlen
  | n + 1, b, c :: cs', hlen => by
    have hlen' : cs'.length ≤ n := by simp only [List.length_cons] at hlen; omega
    cases hm : matchEmailAt b (c :: cs') with
    | some pr =>
      obtain ⟨m, r⟩ := pr
      have hrlen : r.length ≤ n := by
        have := matchEmailAt_rest_lt hm
        simp only [List.length_cons] at this
        omega
      obtain ⟨hmr, hmne⟩ := matchEmailAt_spec hm
      rw [goEmail_cons_pos hm]
      intro hbad
      replace hbad := phoneBad_strip_of_nondigit (p := emailPH) (by decide) rfl hbad
      have hbadw2 : scanBad (fun b' l => phoneAt b' l = true) (isWordChar (m.getLastD ' '))
          (goEmail (isWordChar (m.getLastD ' ')) r) := by
        by_cases hw2f : isWordChar (m.getLastD ' ') = false
        · rw [hw2f] at hbad ⊢
          exact hbad
        · have hw2 : isWordChar (m.getLastD ' ') = true := by
            cases hq : isWordChar (m.getLastD ' ')
            · exact absurd hq hw2f
            · rfl
          rw [hw2] at hbad ⊢
          apply scanBad_flag_switch true hbad
          have hrb : headIsWord r = false := by
            have hbd := matchEmailAt_last_boundary hm
            rw [hw2] at hbd
            simpa using hbd
          intro hh
          cases hr0 : r with
          | nil =>
            rw [hr0, goEmail_nil] at hh
            simp [phoneAt] at hh
          | cons r1 rs1 =>
            rw [hr0] at hrb hh
            have hr1w : isWordChar r1 = false := hrb
            have hr1d : isDigitChar r1 = false := by
              cases hq : isDigitChar r1
              · rfl
              · rw [word_of_digit hq] at hr1w
                cases hr1w
            cases hm2 : matchEmailAt true (r1 :: rs1) with
            | some pr2 =>
              obtain ⟨m2, r2⟩ := pr2
              rw [goEmail_cons_pos hm2] at hh
              have hph : phoneAt false
                  (emailPH ++ goEmail (isWordChar (m2.getLastD ' ')) r2) = false :=
                phoneAt_false_head (by decide)
              rw [hph] at hh
              cases hh
            | none =>
              rw [goEmail_cons_neg hm2] at hh
              rw [phoneAt_false_head hr1d] at hh
              cases hh
      have hr := goEmail_pres_phone n (isWordChar (m.getLastD ' ')) r hrlen hbadw2
      obtain ⟨u, hu⟩ : ∃ u, m.getLast? = some u := by
        cases hq : m.getLast? with
        | none => exact absurd (List.getLast?_eq_none_iff.mp hq) hmne
        | some u => exact ⟨u, rfl⟩
      have huD : m.getLastD ' ' = u := by
        rw [List.getLastD_eq_getLast?, hu]
        rfl
      rw [← hmr]
      apply scanBad_lift b hu
      rw [← huD]
      exact hr
    | none =>
      rw [goEmail_cons_neg hm]
      intro hbad
      rcases scanBad_cons_elim hbad with hh | htail
      · by_cases hq : phoneAt b (c :: cs') = true
        · exact Or.inl hq
        · exfalso
          have hqf : phoneAt b (c :: cs') = false := by
            cases hqq : phoneAt b (c :: cs')
            · rfl
            · exact absurd hqq hq
          have htr := step_transfer (P := fun f l => phoneAt f l = false)
            (fun f U V R d hl hn => phoneAt_transfer hl hn)
            (goEmail_diff cs' (isWordChar c)) hqf
          rw [htr] at hh
          cases hh
      · exact scanBad_cons_intro b (goEmail_pres_phone n (isWordChar c) cs' hlen' htail)

/-- The SSN scanner does not create phone match positions. -/
theorem goSSN_pres_phone : ∀ (n : Nat) (b : Bool) (cs : List Char), cs.length ≤ n →
    scanBad (fun b' l => phoneAt b' l = true) b (goSSN b cs) →
    scanBad (fun b' l => phoneAt b' l = true) b cs
  | _, b, [], _ => by rw [goSSN_nil]; exact id
  | 0, b, c :: cs', hlen => by simp at hlen
  | n + 1, b, c :: cs', hlen => by
    have hlen' : cs'.length ≤ n := by simp only [List.length_cons] at hlen; omega
    have hdroplen : ((c :: cs').drop 11).length ≤ n := by
      rw [List.length_drop]
      simp only [List.length_cons]
      omega
    rw [goSSN_cons]
    by_cases hA : ssnAt b (c :: cs') = true
    · rw [if_pos hA]
      intro hbad
      replace hbad := phoneBad_strip_of_nondigit (p := ssnPH) (by decide) rfl hbad
      have hAr := hA
      rw [ssnAt_reads] at hAr
      simp only [Bool.and_eq_true, decide_eq_true_eq, Bool.not_eq_true'] at hAr
      have hlen11 : 11 ≤ (c :: cs').length := hAr.1
      have htrail : headIsWord ((c :: cs').drop 11) = false := hAr.2.2
      have h10 : isDigitChar ((c :: cs').getD 10 ' ') = true := hAr.2.1.2
      have hbadT : scanBad (fun b' l => phoneAt b' l = true) true
          (goSSN true ((c :: cs').drop 11)) := by
        apply scanBad_flag_switch true hbad
        intro hh
        cases hrest : (c :: cs').drop 11 with
        | nil =>
          rw [hrest, goSSN_nil] at hh
          simp [phoneAt] at hh
        | cons r rs =>
          rw [hrest] at htrail hh
          have hrw : isWordChar r = false := htrail
          have hrd : isDigitChar r = false := by
            cases hq : isDigitChar r
            · rfl
            · rw [word_of_digit hq] at hrw
              cases hrw
          rw [goSSN_cons, if_neg (by rw [ssnAt_true_flag]; simp)] at hh
          rw [phoneAt_false_head hrd] at hh
          cases hh
      have hrec := goSSN_pres_phone n true ((c :: cs').drop 11) hdroplen hbadT
      have htake_ne : (c :: cs').take 11 ≠ [] := by simp
      have htlen : ((c :: cs').take 11).length = 11 := by
        rw [List.length_take, Nat.min_eq_left hlen11]
      have hufact : ((c :: cs').take 11).getLast? = some ((c :: cs').getD 10 ' ') := by
        rw [getLast?_eq_getD _ htake_ne, htlen]
        rw [getD_take_lt ' ' _ 11 10 (by omega)]
      have hlift := scanBad_lift b hufact (by rw [word_of_digit h10]; exact hrec)
      rw [List.take_append_drop] at hlift
      exact hlift
    · have hAf : ssnAt b (c :: cs') = false := by
        cases hq : ssnAt b (c :: cs')
        · rfl
        · exact absurd hq hA
      rw [if_neg (by rw [hAf]; simp)]
      intro hbad
      rcases scanBad_cons_elim hbad with hh | htail
      · by_cases hq : phoneAt b (c :: cs') = true
        · exact Or.inl hq
        · exfalso
          have hqf : phoneAt b (c :: cs') = false := by
            cases hqq : phoneAt b (c :: cs')
            · rfl
            · exact absurd hqq hq
          have htr := step_transfer (P := fun f l => phoneAt f l = false)
            (fun f U V R d hl hn => phoneAt_transfer hl hn)
            (goSSN_diff cs' (isWordChar c)) hqf
          rw [htr] at hh
          cases hh
      · exact scanBad_cons_intro b (goSSN_pres_phone n (isWordChar c) cs' hlen' htail)

/-- The SSN scanner does not create email match positions. -/
theorem goSSN_pres_email : ∀ (n : Nat) (b : Bool) (cs : List Char), cs.length ≤ n →
    scanBad (fun b' l => matchEmailAt b' l ≠ none) b (goSSN b cs) →
    scanBad (fun b' l => matchEmailAt b' l ≠ none) b cs
  | _, b, [], _ => by rw [goSSN_nil]; exact id
  | 0, b, c :: cs', hlen => by simp at hlen
  | n + 1, b, c :: cs', hlen => by
    have hlen' : cs'.length ≤ n := by simp only [List.length_cons] at hlen; omega
    have hdroplen : ((c :: cs').drop 11).length ≤ n := by
      rw [List.length_drop]
      simp only [List.length_cons]
      omega
    rw [goSSN_cons]
    by_cases hA : ssnAt b (c :: cs') = true
    · rw [if_pos hA]
      intro hbad
      replace hbad := emailBad_strip_ssnPH hbad
      have hAr := hA
      rw [ssnAt_reads] at hAr
      simp only [Bool.and_eq_true, decide_eq_true_eq, Bool.not_eq_true'] at hAr
      have hlen11 : 11 ≤ (c :: cs').length := hAr.1
      have htrail : headIsWord ((c :: cs').drop 11) = false := hAr.2.2
      have h10 : isDigitChar ((c :: cs').getD 10 ' ') = true := hAr.2.1.2
      have hbadT : scanBad (fun b' l => matchEmailAt b' l ≠ none) true
          (goSSN true ((c :: cs').drop 11)) := by
        apply scanBad_flag_switch true hbad
        intro hh
        cases hrest : (c :: cs').drop 11 with
        | nil =>
          rw [hrest, goSSN_nil] at hh
          exact hh rfl
        | cons r rs =>
          rw [hrest] at htrail hh
          rw [goSSN_cons, if_neg (by rw [ssnAt_true_flag]; simp)] at hh
          exact hh (mea_false_nonword_head htrail)
      have hrec := goSSN_pres_email n true ((c :: cs').drop 11) hdroplen hbadT
      have htake_ne : (c :: cs').take 11 ≠ [] := by simp
      have htlen : ((c :: cs').take 11).length = 11 := by
        rw [List.length_take, Nat.min_eq_left hlen11]
      have hufact : ((c :: cs').take 11).getLast? = some ((c :: cs').getD 10 ' ') := by
        rw [getLast?_eq_getD _ htake_ne, htlen]
        rw [getD_take_lt ' ' _ 11 10 (by omega)]
      have hlift := scanBad_lift b hufact (by rw [word_of_digit h10]; exact hrec)
      rw [List.take_append_drop] at hlift
      exact hlift
    · have hAf : ssnAt b (c :: cs') = false := by
        cases hq : ssnAt b (c :: cs')
        · rfl
        · exact absurd hq hA
      rw [if_neg (by rw [hAf]; simp)]
      intro hbad
      rcases scanBad_cons_elim hbad with hh | htail
      · by_cases hq : matchEmailAt b (c :: cs') = none
        · exfalso
          have htr := step_transfer (P := fun f l => matchEmailAt f l = none)
            (fun f U V R d hl hn => matchEmailAt_transfer hl hn)
            (goSSN_diff cs' (isWordChar c)) hq
          exact hh htr
        · exact Or.inl hq
      · exact scanBad_cons_intro b (goSSN_pres_email n (isWordChar c) cs' hlen' htail)
/-- The three-stage sanitizer is idempotent: its output contains no
phone, email or SSN match position, so a second pass is the identity. -/
theorem sanitizeL_idem (cs : List Char) : sanitizeL (sanitizeL cs) = sanitizeL cs := by
  unfold sanitizeL
  have h1 : ¬ scanBad (fun b' l => phoneAt b' l = true) false (goPhone false cs) :=
    goPhone_out_free cs.length false cs (le_refl _)
  have h2 : ¬ scanBad (fun b' l => phoneAt b' l = true) false
      (goEmail false (goPhone false cs)) :=
    fun hb => h1 (goEmail_pres_phone (goPhone false cs).length false _ (le_refl _) hb)
  have h3 : ¬ scanBad (fun b' l => phoneAt b' l = true) false
      (goSSN false (goEmail false (goPhone false cs))) :=
    fun hb => h2 (goSSN_pres_phone (goEmail false (goPhone false cs)).length false _
      (le_refl _) hb)
  have h4 : ¬ scanBad (fun b' l => matchEmailAt b' l ≠ none) false
      (goEmail false (goPhone false cs)) :=
    goEmail_out_free (goPhone false cs).length false _ (le_refl _)
  have h5 : ¬ scanBad (fun b' l => matchEmailAt b' l ≠ none) false
      (goSSN false (goEmail false (goPhone false cs))) :=
    fun hb => h4 (goSSN_pres_email (goEmail false (goPhone false cs)).length false _
      (le_refl _) hb)
  have h6 : ¬ scanBad (fun b' l => ssnAt b' l = true) false
      (goSSN false (goEmail false (goPhone false cs))) :=
    goSSN_out_free (goEmail false (goPhone false cs)).length false _ (le_refl _)
  rw [goPhone_fix (goSSN false (goEmail false (goPhone false cs))).length _ false
    (le_refl _) h3]
  rw [goEmail_fix _ false h5]
  rw [goSSN_fix _ false h6]

/-! ## Reference matcher: src/utils/riskClassifier.js

The static reference table (src/data/ingredients.json) is data loaded
at process start and not part of the analysed sources; the classifier
is therefore parameterised by the table, an association list from
normalized keys to entries in object-key insertion order. -/

/-- One entry of the static reference table. -/
structure RefEntry where
  status : String
  explanation : String
  deriving Repr, DecidableEq

/-- The classifier output: status, explanation and the matched key. -/
structure MatchOut where
  status : String
  explanation : String
  matchedKey : Option String
  deriving Repr, DecidableEq

/-- The crude synonym table of riskClassifier.js. -/
def SYNONYMS : List (String × String) :=
  [("aqua", "water"), ("perfume", "fragrance"),
   ("sodium lauryl sulphate", "sodium lauryl sulfate"),
   ("sodium laureth sulphate", "sodium laureth sulfate")]

/-- The bracket class removed by normalizeForMatch. -/
def isMatchBracket (c : Char) : Bool :=
  c == '(' || c == ')' || c == '[' || c == ']' || c == '{' || c == '}'

/-- normalizeForMatch of riskClassifier.js: lowercase, collapse
whitespace, drop brackets, trim. -/
def normalizeForMatch (cs : List Char) : List Char :=
  jsTrim ((collapseWs (jsToLower cs)).filter (fun c => !isMatchBracket c))

/-- Ends-with test for the family regex of riskClassifier.js: the
pattern paren-paraben-paren s? anchored at the end. -/
def endsWithParabenS (cs : List Char) : Bool :=
  "paraben".data.isSuffixOf cs || "parabens".data.isSuffixOf cs

/-- classifyIngredient of riskClassifier.js over an explicit reference
table: synonym substitution, exact key match, contains match over keys
of length at least four in table order, paraben and fragrance family
heuristics, otherwise Unknown. -/
def classifyIngredientL (db : List (List Char × RefEntry)) (raw : List Char) : MatchOut :=
  let ingredient := normalizeForMatch raw
  if ingredient = [] then ⟨"Unknown", "No ingredient provided.", none⟩
  else
    let normalized :=
      match SYNONYMS.find? (fun kv => kv.1.data == ingredient) with
      | some kv => normalizeForMatch kv.2.data
      | none => ingredient
    match db.find? (fun kv => kv.1 == normalized) with
    | some kv => ⟨kv.2.status, kv.2.explanation, some (String.mk normalized)⟩
    | none =>
      match db.find? (fun kv => decide (4 ≤ kv.1.length) && listHasInfix kv.1 normalized) with
      | some kv => ⟨kv.2.status, kv.2.explanation, some (String.mk kv.1)⟩
      | none =>
        if endsWithParabenS normalized || listHasInfix "paraben".data normalized then
          match db.find? (fun kv => kv.1 == "paraben".data) with
          | some kv => ⟨kv.2.status, kv.2.explanation, some "paraben"⟩
          | none => ⟨"Risky", "Preservative; may concern some users.", some "paraben"⟩
        else if listHasInfix "fragrance".data normalized || listHasInfix "parfum".data normalized then
          match db.find? (fun kv => kv.1 == "fragrance".data) with
          | some kv => ⟨kv.2.status, kv.2.explanation, some "fragrance"⟩
          | none => ⟨"Risky", "May trigger irritation or allergies in sensitive users.", some "fragrance"⟩
        else ⟨"Unknown", "Not found in the current SafeScan reference list.", none⟩

/-! ## Rules-path analysis: src/services/ingredientAnalysis.service.js -/

/-- The per-source summary of the rules path. -/
structure RuleSummary where
  total : Nat
  safe : Nat
  risky : Nat
  restricted : Nat
  unknown : Nat
  deriving Repr, DecidableEq

/-- One per-ingredient result of the rules path. -/
structure RuleResult where
  ingredient : String
  status : String
  explanation : String
  matchedKey : Option String
  deriving Repr, DecidableEq

/-- The rules-path analysis output. -/
structure RuleAnalysis where
  ingredients : List String
  results : List RuleResult
  summary : RuleSummary
  deriving Repr, DecidableEq

/-- The lowercased bucket key of one summary reduce step: a falsy
status counts as Unknown. -/
def summaryKey (status : String) : String :=
  String.mk (jsToLower (if status == "" then "Unknown".data else status.data))

/-- One step of the summary reduce of analyzeText: the lowercased
status selects exactly one bucket. -/
def summaryStep (acc : RuleSummary) (status : String) : RuleSummary :=
  if summaryKey status == "safe" then
    { acc with total := acc.total + 1, safe := acc.safe + 1 }
  else if summaryKey status == "risky" then
    { acc with total := acc.total + 1, risky := acc.risky + 1 }
  else if summaryKey status == "restricted" then
    { acc with total := acc.total + 1, restricted := acc.restricted + 1 }
  else
    { acc with total := acc.total + 1, unknown := acc.unknown + 1 }

/-- The summary reduce of analyzeText over a list of statuses. -/
def computeSummary (statuses : List String) : RuleSummary :=
  statuses.foldl summaryStep ⟨0, 0, 0, 0, 0⟩

/-- analyzeText of ingredientAnalysis.service.js: sanitize the input,
tokenize it, classify every token, fold the summary. -/
def analyzeText (db : List (List Char × RefEntry)) (text : String) : RuleAnalysis :=
  let sanitizedText := sanitizeL text.data
  let ingredients := normalizeIngredientsL sanitizedText
  let results := ingredients.map (fun ing =>
    let m := classifyIngredientL db ing
    RuleResult.mk (String.mk ing) m.status m.explanation m.matchedKey)
  ⟨ingredients.map String.mk, results, computeSummary (results.map (·.status))⟩

/-! ## Dataset tier: src/services/datasetAnalysis.service.js -/

/-- One row of the dataset_rows table; the schema constrains
risk_level to LOW, MEDIUM or HIGH and this development treats a NULL
aliases column as the empty string. -/
structure DatasetRow where
  ingredient_name : String
  risk_level : String
  reason : String
  aliases : String
  deriving Repr, DecidableEq

/-- Split on every single occurrence of a character, keeping empty
pieces: the semantics of the SQL string_to_array with a one-character
delimiter. -/
def splitOnChar (d : Char) : List Char → List (List Char)
  | [] => [[]]
  | c :: cs =>
    if c == d then [] :: splitOnChar d cs
    else
      match splitOnChar d cs with
      | [] => [[c]]
      | piece :: rest => (c :: piece) :: rest

/-- The exact-match query predicate: case-insensitive equality of the
token and the canonical ingredient name. -/
def exactMatchRow (row : DatasetRow) (token : String) : Bool :=
  jsToLower row.ingredient_name.data == jsToLower token.data

/-- The alias-match query predicate: the lowercased token equals one
whole comma-separated element of the lowercased aliases column. -/
def aliasMatchRow (row : DatasetRow) (token : String) : Bool :=
  (splitOnChar ',' (jsToLower row.aliases.data)).contains (jsToLower token.data)

/-- Per-token lookup of analyzeWithDataset: the exact-name query over
the whole table first, the alias query only when it returns no row;
the table list fixes the row order of the store. -/
def lookupToken (table : List DatasetRow) (token : String) : Option DatasetRow :=
  match table.find? (fun row => exactMatchRow row token) with
  | some row => some row
  | none => table.find? (fun row => aliasMatchRow row token)

/-- One matched ingredient of the dataset result. -/
structure DatasetMatch where
  input : String
  name : String
  risk_level : String
  reason : String
  deriving Repr, DecidableEq

/-- The dataset summary counts. -/
structure DatasetSummary where
  safeCount : Nat
  riskyCount : Nat
  restrictedCount : Nat
  deriving Repr, DecidableEq

/-- The dataset tier result. -/
structure DatasetResult where
  matched_ingredients : List DatasetMatch
  explanations : List String
  risk_level : String
  summary : DatasetSummary
  deriving Repr, DecidableEq

/-- The token loop of analyzeWithDataset: skip blank tokens, look each
token up, and keep only the first occurrence of every canonical name
(lowercased) in the matchedNames set. -/
def datasetLoop (table : List DatasetRow) (seen : List String) : List String → List DatasetMatch
  | [] => []
  | token :: ts =>
    if String.mk (jsTrim token.data) == "" then datasetLoop table seen ts
    else
      match lookupToken table token with
      | none => datasetLoop table seen ts
      | some row =>
        let lname := String.mk (jsToLower row.ingredient_name.data)
        if seen.contains lname then datasetLoop table seen ts
        else ⟨token, row.ingredient_name, row.risk_level, row.reason⟩ ::
          datasetLoop table (lname :: seen) ts

/-- determineOverallRiskLevel of datasetAnalysis.service.js:
HIGH above MEDIUM above LOW, empty input LOW. -/
def determineOverallRiskLevel (ms : List DatasetMatch) : String :=
  if ms.isEmpty then "LOW"
  else if ms.any (fun m => m.risk_level == "HIGH") then "HIGH"
  else if ms.any (fun m => m.risk_level == "MEDIUM") then "MEDIUM"
  else "LOW"

/-- The zero-token early return value of analyzeWithDataset. -/
def emptyDatasetResult : DatasetResult :=
  ⟨[], [], "LOW", ⟨0, 0, 0⟩⟩

/-- analyzeWithDataset: a missing or empty token list returns the
empty result before the storage connection is taken, so the store
(modelled as an erroring or available table) is not consulted; on a
non-empty token list a storage failure propagates, otherwise the loop

runs and a matchless outcome gets the explicit no-matches
explanation. -/
def analyzeWithDataset (db : Except String (List DatasetRow))
    (tokens : Option (List String)) : Except String DatasetResult :=
  match tokens with
  | none => .ok emptyDatasetResult
  | some toks =>
    if toks.length = 0 then .ok emptyDatasetResult
    else
      match db with
      | .error e => .error e
      | .ok table =>
        let ms := datasetLoop table [] toks
        let explanations := dedupFirst ((ms.map (·.reason)).filter (fun r => !(r == "")))
        let summary : DatasetSummary :=
          ⟨(ms.filter (fun m => m.risk_level == "LOW")).length,
           (ms.filter (fun m => m.risk_level == "MEDIUM")).length,
           (ms.filter (fun m => m.risk_level == "HIGH")).length⟩
        let riskLevel := determineOverallRiskLevel ms
        if ms.length = 0 then
          .ok ⟨[], ["No dataset matches found"], "LOW", ⟨0, 0, 0⟩⟩
        else
          .ok ⟨ms, explanations, riskLevel, summary⟩

/-- mapRiskLevelToScanRisk of datasetAnalysis.service.js. -/
def mapRiskLevelToScanRisk (riskLevel : String) : String :=
  if riskLevel = "LOW" then "safe"
  else if riskLevel = "MEDIUM" then "risky"
  else if riskLevel = "HIGH" then "restricted"
  else "unknown"

/-! ## AI tier, free-text flow: src/services/aiModel.service.js -/

/-- Lowercase and trim a string the way the AI services normalize
model vocabulary. -/
def lowerTrim (s : String) : String :=
  String.mk (jsTrim (jsToLower s.data))

/-- mapRiskLevel of aiModel.service.js: an absent or empty risk word
yields MEDIUM, the LOW synonym list yields LOW, the HIGH synonym list
yields HIGH, anything else yields MEDIUM. -/
def mapRiskLevel (risk : Option String) : String :=
  match risk with
  | none => "MEDIUM"
  | some r =>
    if r = "" then "MEDIUM"
    else
      let normalized := lowerTrim r
      if ["low", "safe", "safe/low", "low risk", "no risk"].contains normalized then "LOW"
      else if ["high", "danger", "dangerous", "high risk", "restricted", "unsafe"].contains normalized then "HIGH"
      else "MEDIUM"

/-- The HIGH synonym test of calculateOverallRisk. -/
def isHighSyn (r : String) : Bool :=
  ["high", "danger", "dangerous", "restricted"].contains (lowerTrim r)

/-- The MEDIUM synonym test of calculateOverallRisk. -/
def isMediumSyn (r : String) : Bool :=
  ["medium", "moderate", "risky", "caution"].contains (lowerTrim r)

/-- calculateOverallRisk of aiModel.service.js: MEDIUM for an empty
list, else HIGH if any element is a HIGH synonym, else MEDIUM if any
is a MEDIUM synonym, else LOW. -/
def calculateOverallRisk (riskLevels : List String) : String :=
  if riskLevels.isEmpty then "MEDIUM"
  else if riskLevels.any isHighSyn then "HIGH"
  else if riskLevels.any isMediumSyn then "MEDIUM"
  else "LOW"

/-! ## AI tier, ingredient-list flow: src/services/aiExplain.service.js -/

/-- normalizeStatus of aiExplain.service.js: an absent or empty status
yields Safe, the Restricted synonym list yields Restricted, the Risky
synonym list yields Risky, anything else yields Safe. -/
def normalizeStatus (status : Option String) : String :=
  match status with
  | none => "Safe"
  | some s =>
    if s = "" then "Safe"
    else
      let normalized := lowerTrim s
      if ["restricted", "banned", "high risk", "danger"].contains normalized then "Restricted"
      else if ["risky", "moderate", "medium risk", "caution", "concern"].contains normalized then "Risky"
      else "Safe"

/-- One parsed item of the AI explain response. -/
structure AIItem where
  name : String
  status : String
  explanation : String
  deriving Repr, DecidableEq

/-- The retry-trigger predicate of callAIWithRetry: the thrown message
contains the substring JSON or the substring parse.  The messages of a
failed JSON parse contain the word JSON; timeout and network failure
messages do not. -/
def retryTriggers (msg : String) : Bool :=
  listHasInfix "JSON".data msg.data || listHasInfix "parse".data msg.data

/-- The instruction appended to the prompt on the one retry. -/
def retrySuffix : String :=
  "\n\nIMPORTANT: You MUST return only valid JSON array, no other text or markdown."

/-- callAIWithRetry of aiExplain.service.js over an oracle giving the
outcome of the n-th provider call on a given prompt (provider call,
response parse and array check combined, as one fallible step): on an
error whose message triggers the retry predicate and while the retry
count is below one, re-send the prompt augmented with the JSON-only
instruction; otherwise propagate the error. -/
def callAIWithRetry (attempt : Nat → String → Except String (List AIItem))
    (prompt : String) (retryCount : Nat) : Except String (List AIItem) :=
  match attempt retryCount prompt with
  | .ok results => .ok results
  | .error msg =>
    if h : retryCount < 1 ∧ retryTriggers msg = true then
      callAIWithRetry attempt (prompt ++ retrySuffix) (retryCount + 1)
    else .error msg
  termination_by 2 - retryCount
  decreasing_by omega

/-! ## Orchestrator and format conversion: src/controllers/scan.controller.js -/

/-- The source tag of the orchestrated analyze entry point. -/
inductive Source where
  | dataset : Source
  | ai : Source
  | rules : Source
  deriving Repr, DecidableEq

/-- The status mapping inside convertAIRuleToFormat: a HIGH risk maps
to Risky, a LOW risk to Safe, anything else to Unknown. -/
def aiStatusOfRisk (risk : String) : String :=
  if risk = "HIGH" then "Risky" else if risk = "LOW" then "Safe" else "Unknown"

/-- One matched ingredient of the AI analysis result. -/
structure AIIngredient where
  name : String
  risk : String
  reason : String
  deriving Repr, DecidableEq

/-- The AI analysis result consumed by convertAIRuleToFormat. -/
structure AIAnalysis where
  matched_ingredients : List AIIngredient
  risk_level : String
  explanations : List String
  deriving Repr, DecidableEq

/-- The output of convertAIRuleToFormat that the unified response
uses: the rule-format fields derived from the AI result. -/
structure ConvertedAnalysis where
  ingredients : List String
  results : List RuleResult
  summary : RuleSummary
  risk_level : String
  deriving Repr, DecidableEq

/-- convertAIRuleToFormat of scan.controller.js: map each matched
ingredient to a rule-format result through the status mapping, and
fold the same summary reduce as the rules path. -/
def convertAIRuleToFormat (aiResult : AIAnalysis) : ConvertedAnalysis :=
  let results := aiResult.matched_ingredients.map (fun ing =>
    RuleResult.mk ing.name (aiStatusOfRisk ing.risk)
      (if ing.reason == "" then "" else ing.reason)
      (some (String.mk (jsToLower ing.name.data))))
  ⟨aiResult.matched_ingredients.map (·.name), results,
   computeSummary (results.map (·.status)), aiResult.risk_level⟩

/-- The tier-selection logic of the analyze entry point of
scan.controller.js: try the dataset tier when it is available, fall to
the AI tier only when an AI endpoint is configured, and fall to the
rules tier otherwise; the rules tier always succeeds.  The dataset and
AI calls are modelled by their outcomes, the rules result by its
value; the function returns the chosen analysis and the source tag. -/
def orchestrateAnalyzeText {D A R : Type} (datasetAvailable : Bool)
    (datasetOutcome : Except String D) (aiConfigured : Bool)
    (aiOutcome : Except String A) (rulesResult : R) :
    (D ⊕ A ⊕ R) × Source :=
  if datasetAvailable then
    match datasetOutcome with
    | .ok d => (Sum.inl d, Source.dataset)
    | .error _ =>
      if aiConfigured then
        match aiOutcome with
        | .ok a => (Sum.inr (Sum.inl a), Source.ai)
        | .error _ => (Sum.inr (Sum.inr rulesResult), Source.rules)
      else (Sum.inr (Sum.inr rulesResult), Source.rules)
  else
    if aiConfigured then
      match aiOutcome with
      | .ok a => (Sum.inr (Sum.inl a), Source.ai)
      | .error _ => (Sum.inr (Sum.inr rulesResult), Source.rules)
    else (Sum.inr (Sum.inr rulesResult), Source.rules)

/-! ## Vocabulary tables written from the specification (section 4.6)

The two inverse tables below are transcribed from the words of the
specification, not from the sources: they give, for each
persistence-vocabulary value and each rules-tier status, the unique
dataset risk level the table of section 4.6 associates with it.  They
exist to compare the source conversions against the specified
table. -/

/-- Modelled from the spec: the inverse of the scan-persistence column
of the vocabulary table (safe to LOW, risky to MEDIUM, restricted to
HIGH); values outside the table have no preimage. -/
def specScanRiskToLevel (v : String) : Option String :=
  if v = "safe" then some "LOW"
  else if v = "risky" then some "MEDIUM"
  else if v = "restricted" then some "HIGH"
  else none

/-- Modelled from the spec: the inverse of the rules-tier column of
the vocabulary table (Safe to LOW, Risky to MEDIUM, Restricted to
HIGH); values outside the table have no preimage. -/
def specStatusToLevel (s : String) : Option String :=
  if s = "Safe" then some "LOW"
  else if s = "Risky" then some "MEDIUM"
  else if s = "Restricted" then some "HIGH"
  else none

/-! ## Tokenizer lemmas for the idempotence analysis -/

/-- toNat of a valid small code point round-trips through ofNat. -/
theorem char_toNat_ofNat (n : Nat) (h : n < 55296) : (Char.ofNat n).toNat = n := by
  have hv : n.isValidChar := Or.inl h
  rw [Char.ofNat, dif_pos hv]
  show (Char.ofNatAux n hv).toNat = n
  rw [Char.ofNatAux]
  simp [Char.toNat]
  rfl

/-- Characters with equal code points are equal. -/
theorem char_eq_of_toNat {c d : Char} (h : c.toNat = d.toNat) : c = d := by
  rw [← Char.ofNat_toNat c, ← Char.ofNat_toNat d, h]

/-- Lowercasing fixes a character whose code point lies outside the
two uppercase ranges. -/
theorem jsLowerChar_eq_self {c : Char}
    (h : ¬((65 ≤ c.toNat ∧ c.toNat ≤ 90) ∨ (192 ≤ c.toNat ∧ c.toNat ≤ 222 ∧ c.toNat ≠ 215))) :
    jsLowerChar c = c := by
  unfold jsLowerChar
  rw [if_neg h]

/-- The code point of the lowercased character: shifted by 32 inside
the two uppercase ranges, unchanged outside. -/
theorem jsLowerChar_toNat (c : Char) :
    (jsLowerChar c).toNat = c.toNat + 32 ∧
      ((65 ≤ c.toNat ∧ c.toNat ≤ 90) ∨ (192 ≤ c.toNat ∧ c.toNat ≤ 222 ∧ c.toNat ≠ 215)) ∨
    (jsLowerChar c).toNat = c.toNat ∧
      ¬((65 ≤ c.toNat ∧ c.toNat ≤ 90) ∨ (192 ≤ c.toNat ∧ c.toNat ≤ 222 ∧ c.toNat ≠ 215)) := by
  unfold jsLowerChar
  by_cases h : (65 ≤ c.toNat ∧ c.toNat ≤ 90) ∨ (192 ≤ c.toNat ∧ c.toNat ≤ 222 ∧ c.toNat ≠ 215)
  · left
    rw [if_pos h]
    exact ⟨char_toNat_ofNat _ (by omega), h⟩
  · right
    rw [if_neg h]
    exact ⟨rfl, h⟩

/-- Lowercasing one character is idempotent. -/
theorem jsLowerChar_idem (c : Char) : jsLowerChar (jsLowerChar c) = jsLowerChar c := by
  rcases jsLowerChar_toNat c with ⟨h1, h2⟩ | ⟨h1, h2⟩
  · have hn : ¬((65 ≤ (jsLowerChar c).toNat ∧ (jsLowerChar c).toNat ≤ 90) ∨
        (192 ≤ (jsLowerChar c).toNat ∧ (jsLowerChar c).toNat ≤ 222 ∧ (jsLowerChar c).toNat ≠ 215)) := by
      rw [h1]; omega
    exact jsLowerChar_eq_self hn
  · have hc : jsLowerChar c = c := char_eq_of_toNat h1
    rw [hc]
    exact jsLowerChar_eq_self h2

/-- A character whose code point is outside both lowercase image
ranges is its own unique preimage under lowercasing. -/
theorem jsLowerChar_fixed_target {c d : Char}
    (hd : d.toNat < 97 ∨ (123 ≤ d.toNat ∧ d.toNat < 224) ∨ 255 ≤ d.toNat)
    (h : jsLowerChar c = d) : c = d := by
  rcases jsLowerChar_toNat c with ⟨h1, h2⟩ | ⟨h1, _⟩
  · rw [h] at h1
    omega
  · rw [← h]
    exact (char_eq_of_toNat h1).symm

/-- Lowercasing preserves whitespace status. -/
theorem jsIsSpace_jsLowerChar (c : Char) : jsIsSpace (jsLowerChar c) = jsIsSpace c := by
  have hsp : ∀ d : Char, jsIsSpace d = true ↔
      (d.toNat = 32 ∨ d.toNat = 9 ∨ d.toNat = 10 ∨ d.toNat = 13 ∨ d.toNat = 11 ∨ d.toNat = 12) := by
    intro d
    unfold jsIsSpace
    simp only [Bool.or_eq_true, beq_iff_eq]
    constructor
    · rintro (((((h | h) | h) | h) | h) | h) <;> subst h <;> decide
    · rintro (h | h | h | h | h | h)
      · exact Or.inl <| Or.inl <| Or.inl <| Or.inl <| Or.inl <| char_eq_of_toNat (by rw [h]; decide)
      · exact Or.inl <| Or.inl <| Or.inl <| Or.inl <| Or.inr <| char_eq_of_toNat (by rw [h]; decide)
      · exact Or.inl <| Or.inl <| Or.inl <| Or.inr <| char_eq_of_toNat (by rw [h]; decide)
      · exact Or.inl <| Or.inl <| Or.inr <| char_eq_of_toNat (by rw [h]; decide)
      · exact Or.inl <| Or.inr <| char_eq_of_toNat (by rw [h]; decide)
      · exact Or.inr <| char_eq_of_toNat (by rw [h]; decide)
  rcases jsLowerChar_toNat c with ⟨h1, h2⟩ | ⟨h1, _⟩
  · have hc : jsIsSpace c = false := by
      rw [← Bool.not_eq_true, hsp]; omega
    have hl : jsIsSpace (jsLowerChar c) = false := by
      rw [← Bool.not_eq_true, hsp, h1]; omega
    rw [hc, hl]
  · rw [char_eq_of_toNat h1]

/-- A list whose head fails the predicate is unchanged by dropWhile. -/
theorem dropWhile_eq_self_of_head {p : Char → Bool} {xs : List Char}
    (h : ∀ c, xs.head? = some c → p c = false) : xs.dropWhile p = xs := by
  cases xs with
  | nil => rfl
  | cons c cs =>
    rw [List.dropWhile_cons, if_neg]
    rw [h c rfl]
    simp

/-- The head of a dropWhile result fails the predicate. -/
theorem head?_dropWhile {p : Char → Bool} :
    ∀ {xs : List Char} {c : Char}, (xs.dropWhile p).head? = some c → p c = false := by
  intro xs
  induction xs with
  | nil => intro c h; cases h
  | cons x xs ih =>
    intro c h
    rw [List.dropWhile_cons] at h
    by_cases hp : p x
    · rw [if_pos hp] at h
      exact ih h
    · rw [if_neg hp] at h
      cases h
      simpa using hp

/-- dropWhile commutes with a map that preserves the predicate. -/
theorem dropWhile_map_comm (f : Char → Char) (p : Char → Bool)
    (hf : ∀ c, p (f c) = p c) :
    ∀ xs : List Char, (xs.map f).dropWhile p = (xs.dropWhile p).map f := by
  intro xs
  induction xs with
  | nil => rfl
  | cons c cs ih =>
    simp only [List.map_cons, List.dropWhile_cons, hf c]
    by_cases hp : p c
    · simp only [hp, if_true]
      exact ih
    · simp only [hp]
      simp

/-- dropWhile returns the list itself or a strictly shorter one. -/
theorem dropWhile_eq_or_lt (p : Char → Bool) (xs : List Char) :
    xs.dropWhile p = xs ∨ (xs.dropWhile p).length < xs.length := by
  cases xs with
  | nil => exact Or.inl rfl
  | cons c cs =>
    rw [List.dropWhile_cons]
    by_cases hp : p c
    · right
      rw [if_pos hp]
      exact Nat.lt_succ_of_le (dropWhile_length_le p cs)
    · left
      rw [if_neg hp]

/-- Trimming never lengthens. -/
theorem jsTrim_length_le (xs : List Char) : (jsTrim xs).length ≤ xs.length := by
  unfold jsTrim
  calc ((xs.dropWhile jsIsSpace).reverse.dropWhile jsIsSpace).reverse.length
      = ((xs.dropWhile jsIsSpace).reverse.dropWhile jsIsSpace).length := List.length_reverse _
    _ ≤ (xs.dropWhile jsIsSpace).reverse.length := dropWhile_length_le _ _
    _ = (xs.dropWhile jsIsSpace).length := List.length_reverse _
    _ ≤ xs.length := dropWhile_length_le _ _

/-- Trimming returns the list itself or a strictly shorter one. -/
theorem jsTrim_eq_or_lt (xs : List Char) :
    jsTrim xs = xs ∨ (jsTrim xs).length < xs.length := by
  unfold jsTrim
  rcases dropWhile_eq_or_lt jsIsSpace xs with h1 | h1
  · rw [h1]
    rcases dropWhile_eq_or_lt jsIsSpace xs.reverse with h2 | h2
    · left
      rw [h2, List.reverse_reverse]
    · right
      rw [List.length_reverse]
      calc (xs.reverse.dropWhile jsIsSpace).length < xs.reverse.length := h2
        _ = xs.length := List.length_reverse _
  · right
    calc ((xs.dropWhile jsIsSpace).reverse.dropWhile jsIsSpace).reverse.length
        = ((xs.dropWhile jsIsSpace).reverse.dropWhile jsIsSpace).length := List.length_reverse _
      _ ≤ (xs.dropWhile jsIsSpace).reverse.length := dropWhile_length_le _ _
      _ = (xs.dropWhile jsIsSpace).length := List.length_reverse _
      _ < xs.length := h1

/-- Trimming commutes with lowercasing. -/
theorem jsTrim_jsToLower (xs : List Char) :
    jsTrim (jsToLower xs) = jsToLower (jsTrim xs) := by
  unfold jsTrim jsToLower
  rw [dropWhile_map_comm jsLowerChar jsIsSpace jsIsSpace_jsLowerChar,
    ← List.map_reverse, dropWhile_map_comm jsLowerChar jsIsSpace jsIsSpace_jsLowerChar,
    ← List.map_reverse]

/-- The head of a trimmed list is not whitespace. -/
theorem jsTrim_head {xs : List Char} {c : Char}
    (h : (jsTrim xs).head? = some c) : jsIsSpace c = false := by
  unfold jsTrim at h
  rw [List.head?_reverse] at h
  set z := (xs.dropWhile jsIsSpace).reverse.dropWhile jsIsSpace with hz
  obtain ⟨t, ht⟩ := List.dropWhile_suffix (l := (xs.dropWhile jsIsSpace).reverse) (p := jsIsSpace)
  have hzne : z ≠ [] := by
    intro hcon
    rw [hcon] at h
    cases h
  have : (xs.dropWhile jsIsSpace).reverse.getLast? = z.getLast? := by
    rw [← ht, List.getLast?_append]
    cases hzz : z.getLast? with
    | none => exact absurd (List.getLast?_eq_none_iff.mp hzz) hzne
    | some d => rfl
  rw [← this, List.getLast?_reverse] at h
  exact head?_dropWhile h

/-- The last element of a trimmed list is not whitespace. -/
theorem jsTrim_getLast {xs : List Char} {c : Char}
    (h : (jsTrim xs).getLast? = some c) : jsIsSpace c = false := by
  unfold jsTrim at h
  rw [List.getLast?_reverse] at h
  exact head?_dropWhile h

/-- A list with non-whitespace head and last element is already
trimmed. -/
theorem jsTrim_eq_self {xs : List Char}
    (h1 : ∀ c, xs.head? = some c → jsIsSpace c = false)
    (h2 : ∀ c, xs.getLast? = some c → jsIsSpace c = false) : jsTrim xs = xs := by
  unfold jsTrim
  rw [dropWhile_eq_self_of_head h1]
  rw [dropWhile_eq_self_of_head (by
    intro c hc
    rw [List.head?_reverse] at hc
    exact h2 c hc)]
  exact List.reverse_reverse xs

/-- Trimming is idempotent. -/
theorem jsTrim_idem (xs : List Char) : jsTrim (jsTrim xs) = jsTrim xs :=
  jsTrim_eq_self (fun _ h => jsTrim_head h) (fun _ h => jsTrim_getLast h)

/-- Lowercasing a list is idempotent. -/
theorem jsToLower_idem (xs : List Char) : jsToLower (jsToLower xs) = jsToLower xs := by
  unfold jsToLower
  rw [List.map_map]
  exact List.map_congr_left (fun c _ => jsLowerChar_idem c)

/-- Collapsing whitespace never lengthens. -/
theorem collapseWs_length_le : ∀ xs : List Char, (collapseWs xs).length ≤ xs.length := by
  intro xs
  induction xs with
  | nil => simp [collapseWs]
  | cons c cs ih =>
    cases cs with
    | nil =>
      by_cases hc : jsIsSpace c <;> simp [collapseWs, hc]
    | cons c2 cs2 =>
      simp only [collapseWs]
      by_cases hc : jsIsSpace c
      · rw [if_pos hc]
        by_cases hc2 : jsIsSpace c2
        · rw [if_pos hc2]
          exact Nat.le_succ_of_le ih
        · rw [if_neg hc2]
          simpa using ih
      · rw [if_neg hc]
        simpa using ih

/-- Stripping trailing punctuation never lengthens, and is either the
identity or strictly shortening. -/
theorem stripTrailingPunct_eq_or_lt (xs : List Char) :
    stripTrailingPunct xs = xs ∨ (stripTrailingPunct xs).length < xs.length := by
  unfold stripTrailingPunct
  rcases dropWhile_eq_or_lt isTrailPunct xs.reverse with h | h
  · left
    rw [h, List.reverse_reverse]
  · right
    rw [List.length_reverse]
    calc (xs.reverse.dropWhile isTrailPunct).length < xs.reverse.length := h
      _ = xs.length := List.length_reverse _

/-- Stripping one parenthesis pair is the identity or strictly
shortening. -/
theorem stripOuterParens_eq_or_lt (xs : List Char) :
    stripOuterParens xs = xs ∨ (stripOuterParens xs).length < xs.length := by
  unfold stripOuterParens
  split
  · rename_i hcond
    right
    simp only [Bool.and_eq_true, beq_iff_eq, decide_eq_true_eq] at hcond
    have h2 : 2 ≤ xs.length := hcond.1.2
    have : ((xs.drop 1).dropLast).length = xs.length - 2 := by
      rw [List.length_dropLast, List.length_drop]
      omega
    omega
  · left
    rfl

/-- The separator consumption never lengthens the remainder. -/
theorem consumeLabelSep_length_le (rest : List Char) :
    (consumeLabelSep rest).length ≤ rest.length := by
  unfold consumeLabelSep
  simp only
  split
  · simp
  · rename_i c t heq
    split
    · calc (t.dropWhile jsIsSpace).length ≤ t.length := dropWhile_length_le _ _
        _ ≤ (rest.dropWhile jsIsSpace).length := by rw [heq]; simp
        _ ≤ rest.length := dropWhile_length_le _ _
    · calc ((rest.dropWhile jsIsSpace).dropWhile jsIsSpace).length
          ≤ (rest.dropWhile jsIsSpace).length := dropWhile_length_le _ _
        _ ≤ rest.length := dropWhile_length_le _ _

/-- A successful word match consumes exactly the word length, which
is positive. -/
theorem matchWordCI_some_length {w rest afterWs : List Char}
    (hm : matchWordCI w afterWs = some rest) :
    rest.length + w.length = afterWs.length := by
  unfold matchWordCI at hm
  split at hm
  · rename_i hcond
    cases hm
    have hcond2 : (afterWs.take w.length).map jsLowerChar = w := by
      simpa using hcond
    have hlen : (afterWs.take w.length).length = w.length := by
      have := congrArg List.length hcond2
      simpa using this
    have hwle : w.length ≤ afterWs.length := by
      rw [List.length_take] at hlen
      omega
    rw [List.length_drop]
    omega
  · cases hm

/-- A successful label alternation consumes at least ten characters. -/
theorem labelAttempt_some_length {afterWs rest : List Char}
    (hm : labelAttempt afterWs = some rest) :
    rest.length + 10 ≤ afterWs.length := by
  unfold labelAttempt at hm
  cases hm1 : matchWordCI "ingredients".data afterWs with
  | some r =>
    rw [hm1] at hm
    cases hm
    have h1 := matchWordCI_some_length hm1
    have h2 : ("ingredients".data).length = 11 := by decide
    omega
  | none =>
    rw [hm1] at hm
    cases hm2 : matchWordCI "ingredient".data afterWs with
    | some r =>
      rw [hm2] at hm
      cases hm
      have h1 := matchWordCI_some_length hm2
      have h2 : ("ingredient".data).length = 10 := by decide
      omega
    | none =>
      rw [hm2] at hm
      have h1 := matchWordCI_some_length hm
      have h2 : ("ingrédients".data).length = 11 := by decide
      omega

/-- Stripping the ingredients label is the identity or strictly
shortening. -/
theorem stripIngredientsLabel_eq_or_lt (xs : List Char) :
    stripIngredientsLabel xs = xs ∨
      (stripIngredientsLabel xs).length < xs.length := by
  unfold stripIngredientsLabel
  cases hm : labelAttempt (xs.dropWhile jsIsSpace) with
  | none => exact Or.inl rfl
  | some rest =>
    right
    have h1 := labelAttempt_some_length hm
    have h2 := consumeLabelSep_length_le rest
    have h3 : (xs.dropWhile jsIsSpace).length ≤ xs.length := dropWhile_length_le _ _
    simp only
    omega

/-- Lowercasing preserves length. -/
theorem jsToLower_length (xs : List Char) : (jsToLower xs).length = xs.length := by
  simp [jsToLower]

/-- Trailing punctuation stripping never lengthens. -/
theorem stripTrailingPunct_length_le (xs : List Char) :
    (stripTrailingPunct xs).length ≤ xs.length := by
  rcases stripTrailingPunct_eq_or_lt xs with h | h
  · rw [h]
  · omega

/-- Parenthesis stripping never lengthens. -/
theorem stripOuterParens_length_le (xs : List Char) :
    (stripOuterParens xs).length ≤ xs.length := by
  rcases stripOuterParens_eq_or_lt xs with h | h
  · rw [h]
  · omega

/-- Label stripping never lengthens. -/
theorem stripIngredientsLabel_length_le (xs : List Char) :
    (stripIngredientsLabel xs).length ≤ xs.length := by
  rcases stripIngredientsLabel_eq_or_lt xs with h | h
  · rw [h]
  · omega

/-- A failing word match still fails on the lowercased input. -/
theorem matchWordCI_lower_none {w ys : List Char}
    (h : matchWordCI w ys = none) : matchWordCI w (jsToLower ys) = none := by
  unfold matchWordCI at h ⊢
  split at h
  · cases h
  · rename_i hcond
    rw [if_neg]
    intro hcon
    apply hcond
    have : (jsToLower ys).take w.length = jsToLower (ys.take w.length) := by
      simp [jsToLower, List.map_take]
    rw [this] at hcon
    simp only [jsToLower, List.map_map] at hcon
    have hmm : (ys.take w.length).map (jsLowerChar ∘ jsLowerChar) =
        (ys.take w.length).map jsLowerChar :=
      List.map_congr_left (fun c _ => jsLowerChar_idem c)
    rw [hmm] at hcon
    exact hcon

/-- A failing label alternation still fails on the lowercased input. -/
theorem labelAttempt_lower_none {ys : List Char}
    (h : labelAttempt ys = none) : labelAttempt (jsToLower ys) = none := by
  unfold labelAttempt at h ⊢
  cases h1 : matchWordCI "ingredients".data ys with
  | some r => rw [h1] at h; cases h
  | none =>
    rw [h1] at h
    cases h2 : matchWordCI "ingredient".data ys with
    | some r => rw [h2] at h; cases h
    | none =>
      rw [h2] at h
      rw [matchWordCI_lower_none h1, matchWordCI_lower_none h2, matchWordCI_lower_none h]

/-- A fixed point of the label strip has a failing alternation attempt. -/
theorem labelAttempt_none_of_fixed {x : List Char}
    (h : stripIngredientsLabel x = x) : labelAttempt (x.dropWhile jsIsSpace) = none := by
  cases hm : labelAttempt (x.dropWhile jsIsSpace) with
  | none => rfl
  | some rest =>
    exfalso
    have h1 := labelAttempt_some_length hm
    have h2 := consumeLabelSep_length_le rest
    have h3 : (x.dropWhile jsIsSpace).length ≤ x.length := dropWhile_length_le _ _
    have h4 : stripIngredientsLabel x = consumeLabelSep rest := by
      unfold stripIngredientsLabel
      rw [hm]
    rw [h] at h4
    have := congrArg List.length h4
    omega

/-- A fixed point of the label strip stays fixed after lowercasing. -/
theorem stripIngredientsLabel_lower_fix {x : List Char}
    (h : stripIngredientsLabel x = x) :
    stripIngredientsLabel (jsToLower x) = jsToLower x := by
  have hnone := labelAttempt_none_of_fixed h
  unfold stripIngredientsLabel
  have hcomm : (jsToLower x).dropWhile jsIsSpace = jsToLower (x.dropWhile jsIsSpace) :=
    dropWhile_map_comm jsLowerChar jsIsSpace jsIsSpace_jsLowerChar x
  rw [hcomm, labelAttempt_lower_none hnone]

/-- A fixed point of cleanToken is trimmed, lowercase, and fixed by
the label strip. -/
theorem cleanToken_fix {t : List Char} (h : cleanToken t = t) :
    jsTrim t = t ∧ stripIngredientsLabel t = t ∧ jsToLower t = t := by
  have hct : cleanToken t =
      jsToLower (jsTrim (stripIngredientsLabel (jsTrim (stripOuterParens
        (jsTrim (stripTrailingPunct (jsTrim ((collapseWs t).map
          (fun c => if isBullet c then ' ' else c))))))))) := rfl
  set u := (collapseWs t).map (fun c => if isBullet c then ' ' else c) with hu
  set t1 := jsTrim u with ht1
  set t2 := jsTrim (stripTrailingPunct t1) with ht2
  set t3 := jsTrim (stripOuterParens t2) with ht3
  set t4 := jsTrim (stripIngredientsLabel t3) with ht4
  have hT : t = jsToLower t4 := by rw [← h, hct]
  have l0 : u.length ≤ t.length := by
    rw [hu, List.length_map]
    exact collapseWs_length_le t
  have l1 : t1.length ≤ u.length := jsTrim_length_le u
  have l2 : t2.length ≤ t1.length := by
    calc t2.length ≤ (stripTrailingPunct t1).length := jsTrim_length_le _
      _ ≤ t1.length := stripTrailingPunct_length_le _
  have l3 : t3.length ≤ t2.length := by
    calc t3.length ≤ (stripOuterParens t2).length := jsTrim_length_le _
      _ ≤ t2.length := stripOuterParens_length_le _
  have l4 : t4.length ≤ t3.length := by
    calc t4.length ≤ (stripIngredientsLabel t3).length := jsTrim_length_le _
      _ ≤ t3.length := stripIngredientsLabel_length_le _
  have lT : t.length = t4.length := by
    rw [hT, jsToLower_length]
  have s4 : stripIngredientsLabel t3 = t3 := by
    rcases stripIngredientsLabel_eq_or_lt t3 with hh | hh
    · exact hh
    · exfalso
      have := jsTrim_length_le (stripIngredientsLabel t3)
      rw [← ht4] at this
      omega
  have e4 : t4 = t3 := by
    rw [ht4, s4]
    rcases jsTrim_eq_or_lt t3 with hh | hh
    · exact hh
    · exfalso
      have h4 : t4.length < t3.length := by rw [ht4, s4]; exact hh
      omega
  have s3 : stripOuterParens t2 = t2 := by
    rcases stripOuterParens_eq_or_lt t2 with hh | hh
    · exact hh
    · exfalso
      have := jsTrim_length_le (stripOuterParens t2)
      rw [← ht3] at this
      omega
  have e3 : t3 = t2 := by
    rw [ht3, s3]
    rcases jsTrim_eq_or_lt t2 with hh | hh
    · exact hh
    · exfalso
      have h3 : t3.length < t2.length := by rw [ht3, s3]; exact hh
      omega
  have s2 : stripTrailingPunct t1 = t1 := by
    rcases stripTrailingPunct_eq_or_lt t1 with hh | hh
    · exact hh
    · exfalso
      have := jsTrim_length_le (stripTrailingPunct t1)
      rw [← ht2] at this
      omega
  have e2 : t2 = t1 := by
    rw [ht2, s2]
    rcases jsTrim_eq_or_lt t1 with hh | hh
    · exact hh
    · exfalso
      have h2 : t2.length < t1.length := by rw [ht2, s2]; exact hh
      omega
  refine ⟨?_, ?_, ?_⟩
  · rw [hT, e4, e3, e2, ht1]
    rw [jsTrim_jsToLower, jsTrim_idem]
  · have hfix3 : stripIngredientsLabel t3 = t3 := s4
    have := stripIngredientsLabel_lower_fix hfix3
    rw [hT, e4]
    exact this
  · rw [hT, jsToLower_idem]

/-- Splitting never yields an empty piece list. -/
theorem splitOnRuns_ne_nil (p : Char → Bool) : ∀ cs : List Char, splitOnRuns p cs ≠ [] := by
  intro cs
  match cs with
  | [] => simp [splitOnRuns]
  | [c] =>
    by_cases h : p c <;> simp [splitOnRuns, h]
  | c :: c2 :: cs =>
    rw [splitOnRuns]
    by_cases h : p c
    · rw [if_pos h]
      by_cases h2 : p c2
      · rw [if_pos h2]
        exact splitOnRuns_ne_nil p (c2 :: cs)
      · rw [if_neg h2]
        simp
    · rw [if_neg h]
      cases hr : splitOnRuns p (c2 :: cs) with
      | nil => simp [consPiece]
      | cons piece rest => simp [consPiece]

/-- Every character of every piece fails the delimiter predicate and
comes from the input. -/
theorem splitOnRuns_mem (p : Char → Bool) :
    ∀ (cs : List Char) (piece : List Char), piece ∈ splitOnRuns p cs →
      ∀ c ∈ piece, p c = false ∧ c ∈ cs := by
  intro cs
  match cs with
  | [] =>
    intro piece hp c hc
    simp [splitOnRuns] at hp
    subst hp
    cases hc
  | [d] =>
    intro piece hp c hc
    by_cases h : p d
    · have hsp : splitOnRuns p [d] = [[], []] := by simp [splitOnRuns, h]
      rw [hsp] at hp
      rcases List.mem_cons.mp hp with rfl | hp2
      · cases hc
      · rcases List.mem_singleton.mp hp2 with rfl
        cases hc
    · have hsp : splitOnRuns p [d] = [[d]] := by simp [splitOnRuns, h]
      rw [hsp] at hp
      rcases List.mem_singleton.mp hp with rfl
      rcases List.mem_singleton.mp hc with rfl
      exact ⟨by simpa using h, List.mem_singleton.mpr rfl⟩
  | d :: c2 :: cs =>
    intro piece hp c hc
    rw [splitOnRuns] at hp
    by_cases h : p d
    · rw [if_pos h] at hp
      by_cases h2 : p c2
      · rw [if_pos h2] at hp
        obtain ⟨hpc, hmem⟩ := splitOnRuns_mem p (c2 :: cs) piece hp c hc
        exact ⟨hpc, List.mem_cons_of_mem d hmem⟩
      · rw [if_neg h2] at hp
        cases hp with
        | head => cases hc
        | tail _ hp =>
          obtain ⟨hpc, hmem⟩ := splitOnRuns_mem p (c2 :: cs) piece hp c hc
          exact ⟨hpc, List.mem_cons_of_mem d hmem⟩
    · rw [if_neg h] at hp
      cases hr : splitOnRuns p (c2 :: cs) with
      | nil => exact absurd hr (splitOnRuns_ne_nil p (c2 :: cs))
      | cons piece0 rest =>
        rw [hr] at hp
        simp only [consPiece] at hp
        cases hp with
        | head =>
          cases hc with
          | head => exact ⟨by simpa using h, List.mem_cons_self _ _⟩
          | tail _ hc2 =>
            obtain ⟨hpc, hmem⟩ := splitOnRuns_mem p (c2 :: cs) piece0
              (by rw [hr]; exact List.mem_cons_self _ _) c hc2
            exact ⟨hpc, List.mem_cons_of_mem d hmem⟩
        | tail _ hp2 =>
          obtain ⟨hpc, hmem⟩ := splitOnRuns_mem p (c2 :: cs) piece
            (by rw [hr]; exact List.mem_cons_of_mem piece0 hp2) c hc
          exact ⟨hpc, List.mem_cons_of_mem d hmem⟩

/-- A list without delimiters splits into itself alone. -/
theorem splitOnRuns_nodelim (p : Char → Bool) :
    ∀ cs : List Char, (∀ c ∈ cs, p c = false) → splitOnRuns p cs = [cs] := by
  intro cs
  match cs with
  | [] => intro _; rfl
  | [c] =>
    intro h
    have := h c (List.mem_singleton.mpr rfl)
    simp [splitOnRuns, this]
  | c :: c2 :: cs =>
    intro h
    rw [splitOnRuns]
    have hc : p c = false := h c (List.mem_cons_self _ _)
    rw [if_neg (by simp [hc])]
    rw [splitOnRuns_nodelim p (c2 :: cs) (fun x hx => h x (List.mem_cons_of_mem c hx))]
    rfl

/-- Scanning a delimiter-free prefix, a single delimiter, and a
remainder with a non-delimiter head yields the prefix as one piece
followed by the split of the remainder. -/
theorem splitOnRuns_append (p : Char → Bool) (d : Char) (hd : p d = true) :
    ∀ (t zs : List Char), (∀ c ∈ t, p c = false) →
      (∀ z, zs.head? = some z → p z = false) → zs ≠ [] →
      splitOnRuns p (t ++ d :: zs) = t :: splitOnRuns p zs := by
  intro t
  induction t with
  | nil =>
    intro zs hnd hz hne
    cases zs with
    | nil => exact absurd rfl hne
    | cons z zr =>
      simp only [List.nil_append]
      rw [splitOnRuns, if_pos hd, if_neg (by rw [hz z rfl]; simp)]
  | cons a t ih =>
    intro zs hnd hz hne
    have ha : p a = false := hnd a (List.mem_cons_self _ _)
    have hrec := ih zs (fun c hc => hnd c (List.mem_cons_of_mem a hc)) hz hne
    cases ht : t ++ d :: zs with
    | nil => exact absurd (List.append_eq_nil.mp ht).2 (by simp)
    | cons b bs =>
      have : splitOnRuns p (a :: t ++ d :: zs) = consPiece a (splitOnRuns p (t ++ d :: zs)) := by
        rw [List.cons_append, ht, splitOnRuns, if_neg (by rw [ha]; simp)]
      rw [this, hrec]
      rfl

/-- Replacing a character absent from the list is a no-op. -/
theorem replaceChar_eq_self {a b : Char} {cs : List Char}
    (h : ∀ c ∈ cs, c ≠ a) : replaceChar a b cs = cs := by
  unfold replaceChar
  have hcong : ∀ c ∈ cs, (if c == a then b else c) = id c := by
    intro c hc
    rw [if_neg (by simpa using h c hc)]
    rfl
  rw [List.map_congr_left hcong, List.map_id]

/-- Characters after a replace: the replacement or an original
character different from the replaced one. -/
theorem replaceChar_mem {a b : Char} {cs : List Char} {c : Char}
    (h : c ∈ replaceChar a b cs) : c = b ∨ (c ∈ cs ∧ c ≠ a) := by
  unfold replaceChar at h
  obtain ⟨c0, hc0, heq⟩ := List.mem_map.mp h
  by_cases hca : c0 == a
  · rw [if_pos hca] at heq
    exact Or.inl heq.symm
  · rw [if_neg hca] at heq
    subst heq
    exact Or.inr ⟨hc0, by simpa using hca⟩

/-- Members of the deduplicated list come from the input. -/
theorem dedupFirstAux_mem {α : Type} [BEq α] :
    ∀ (ts seen : List α) (t : α), t ∈ dedupFirstAux seen ts → t ∈ ts := by
  intro ts
  induction ts with
  | nil => intro seen t h; cases h
  | cons x ts ih =>
    intro seen t h
    rw [dedupFirstAux] at h
    by_cases hx : seen.contains x
    · rw [if_pos hx] at h
      exact List.mem_cons_of_mem x (ih seen t h)
    · rw [if_neg hx] at h
      cases h with
      | head => exact List.mem_cons_self _ _
      | tail _ h2 => exact List.mem_cons_of_mem x (ih (x :: seen) t h2)

/-- An element already seen never reappears in the deduplicated
list. -/
theorem dedupFirstAux_not_mem_of_seen {α : Type} [BEq α] [LawfulBEq α] :
    ∀ (ts seen : List α) (t : α), t ∈ seen → t ∉ dedupFirstAux seen ts := by
  intro ts
  induction ts with
  | nil => intro seen t _ h; cases h
  | cons x ts ih =>
    intro seen t hseen h
    rw [dedupFirstAux] at h
    by_cases hx : seen.contains x
    · rw [if_pos hx] at h
      exact ih seen t hseen h
    · rw [if_neg hx] at h
      cases h with
      | head =>
        exact hx (List.elem_eq_true_of_mem hseen)
      | tail _ h2 =>
        exact ih (x :: seen) t (List.mem_cons_of_mem x hseen) h2

/-- The deduplicated list has no duplicates. -/
theorem dedupFirstAux_nodup {α : Type} [BEq α] [LawfulBEq α] :
    ∀ (ts seen : List α), (dedupFirstAux seen ts).Nodup := by
  intro ts
  induction ts with
  | nil => intro seen; exact List.nodup_nil
  | cons x ts ih =>
    intro seen
    rw [dedupFirstAux]
    by_cases hx : seen.contains x
    · rw [if_pos hx]
      exact ih seen
    · rw [if_neg hx]
      exact List.nodup_cons.mpr
        ⟨dedupFirstAux_not_mem_of_seen ts (x :: seen) x (List.mem_cons_self _ _), ih (x :: seen)⟩

/-- Deduplicating a duplicate-free list whose elements avoid the seen
set is the identity. -/
theorem dedupFirstAux_eq_self {α : Type} [BEq α] [LawfulBEq α] :
    ∀ (ts seen : List α), ts.Nodup → (∀ t ∈ ts, t ∉ seen) → dedupFirstAux seen ts = ts := by
  intro ts
  induction ts with
  | nil => intro seen _ _; rfl
  | cons x ts ih =>
    intro seen hnd hns
    rw [dedupFirstAux]
    rw [if_neg (by
      intro hcon
      exact hns x (List.mem_cons_self _ _) (List.mem_of_elem_eq_true hcon))]
    congr 1
    apply ih (x :: seen) (List.nodup_cons.mp hnd).2
    intro t ht hmem
    cases hmem with
    | head => exact (List.nodup_cons.mp hnd).1 ht
    | tail _ h2 => exact hns t (List.mem_cons_of_mem x ht) h2

/-- Characters of the whitespace-collapsed list: a space or an
original character. -/
theorem collapseWs_mem :
    ∀ (xs : List Char) (c : Char), c ∈ collapseWs xs → c = ' ' ∨ c ∈ xs := by
  intro xs
  match xs with
  | [] => intro c hc; cases hc
  | [d] =>
    intro c hc
    by_cases h : jsIsSpace d
    · simp [collapseWs, h] at hc
      exact Or.inl hc
    · simp [collapseWs, h] at hc
      simp [hc]
  | d :: c2 :: cs =>
    intro c hc
    rw [collapseWs] at hc
    by_cases h : jsIsSpace d
    · rw [if_pos h] at hc
      by_cases h2 : jsIsSpace c2
      · rw [if_pos h2] at hc
        rcases collapseWs_mem (c2 :: cs) c hc with hx | hx
        · exact Or.inl hx
        · exact Or.inr (List.mem_cons_of_mem d hx)
      · rw [if_neg h2] at hc
        cases hc with
        | head => exact Or.inl rfl
        | tail _ h3 =>
          rcases collapseWs_mem (c2 :: cs) c h3 with hx | hx
          · exact Or.inl hx
          · exact Or.inr (List.mem_cons_of_mem d hx)
    · rw [if_neg h] at hc
      cases hc with
      | head => exact Or.inr (List.mem_cons_self _ _)
      | tail _ h3 =>
        rcases collapseWs_mem (c2 :: cs) c h3 with hx | hx
        · exact Or.inl hx
        · exact Or.inr (List.mem_cons_of_mem d hx)

/-- Trimming keeps a sublist of the characters. -/
theorem jsTrim_mem {xs : List Char} {c : Char} (h : c ∈ jsTrim xs) : c ∈ xs := by
  unfold jsTrim at h
  rw [List.mem_reverse] at h
  have h2 := (List.dropWhile_sublist (l := (xs.dropWhile jsIsSpace).reverse) jsIsSpace).mem h
  rw [List.mem_reverse] at h2
  exact (List.dropWhile_sublist jsIsSpace).mem h2

/-- Stripping trailing punctuation keeps a sublist. -/
theorem stripTrailingPunct_mem {xs : List Char} {c : Char}
    (h : c ∈ stripTrailingPunct xs) : c ∈ xs := by
  unfold stripTrailingPunct at h
  rw [List.mem_reverse] at h
  have h2 := (List.dropWhile_sublist (l := xs.reverse) isTrailPunct).mem h
  rw [List.mem_reverse] at h2
  exact h2

/-- Stripping one parenthesis pair keeps a sublist. -/
theorem stripOuterParens_mem {xs : List Char} {c : Char}
    (h : c ∈ stripOuterParens xs) : c ∈ xs := by
  unfold stripOuterParens at h
  split at h
  · have h2 := (List.dropLast_sublist (xs.drop 1)).mem h
    exact (List.drop_sublist 1 xs).mem h2
  · exact h

/-- The separator consumption keeps a sublist of the remainder. -/
theorem consumeLabelSep_mem {rest : List Char} {c : Char}
    (h : c ∈ consumeLabelSep rest) : c ∈ rest := by
  unfold consumeLabelSep at h
  simp only at h
  have hsub : c ∈ rest.dropWhile jsIsSpace → c ∈ rest :=
    fun hx => (List.dropWhile_sublist jsIsSpace).mem hx
  revert h
  split
  · intro h
    cases (List.dropWhile_sublist (l := ([] : List Char)) jsIsSpace).mem h
  · rename_i c1 t heq
    intro h
    have h2 := (List.dropWhile_sublist jsIsSpace).mem h
    revert h2
    split
    · intro h2
      apply hsub
      rw [heq]
      exact List.mem_cons_of_mem c1 h2
    · intro h2
      exact hsub h2

/-- A successful word match returns the drop of the word length. -/
theorem matchWordCI_sub {w ys rest : List Char}
    (h : matchWordCI w ys = some rest) : rest = ys.drop w.length := by
  unfold matchWordCI at h
  split at h
  · cases h
    rfl
  · cases h

/-- A successful label alternation returns a drop of the input. -/
theorem labelAttempt_sub {ys rest : List Char}
    (h : labelAttempt ys = some rest) : ∃ n, rest = ys.drop n := by
  unfold labelAttempt at h
  cases h1 : matchWordCI "ingredients".data ys with
  | some r =>
    rw [h1] at h
    cases h
    exact ⟨_, matchWordCI_sub h1⟩
  | none =>
    rw [h1] at h
    cases h2 : matchWordCI "ingredient".data ys with
    | some r =>
      rw [h2] at h
      cases h
      exact ⟨_, matchWordCI_sub h2⟩
    | none =>
      rw [h2] at h
      exact ⟨_, matchWordCI_sub h⟩

/-- Stripping the label keeps a sublist of the characters. -/
theorem stripIngredientsLabel_mem {xs : List Char} {c : Char}
    (h : c ∈ stripIngredientsLabel xs) : c ∈ xs := by
  unfold stripIngredientsLabel at h
  revert h
  cases hm : labelAttempt (xs.dropWhile jsIsSpace) with
  | none => intro h; exact h
  | some rest =>
    intro h
    obtain ⟨n, hn⟩ := labelAttempt_sub hm
    have h2 := consumeLabelSep_mem h
    rw [hn] at h2
    have h3 := (List.drop_sublist n (xs.dropWhile jsIsSpace)).mem h2
    exact (List.dropWhile_sublist jsIsSpace).mem h3

/-- Characters of a cleaned token: a space or the lowercasing of an
input character. -/
theorem cleanToken_mem {xs : List Char} {c : Char}
    (h : c ∈ cleanToken xs) : c = ' ' ∨ ∃ c0 ∈ xs, c = jsLowerChar c0 := by
  have hct : cleanToken xs =
      jsToLower (jsTrim (stripIngredientsLabel (jsTrim (stripOuterParens
        (jsTrim (stripTrailingPunct (jsTrim ((collapseWs xs).map
          (fun c => if isBullet c then ' ' else c))))))))) := rfl
  rw [hct] at h
  obtain ⟨c4, hc4, hceq⟩ := List.mem_map.mp h
  have h4 := jsTrim_mem hc4
  have h3 := stripIngredientsLabel_mem h4
  have h3b := jsTrim_mem h3
  have h2 := stripOuterParens_mem h3b
  have h2b := jsTrim_mem h2
  have h1 := stripTrailingPunct_mem h2b
  have h1b := jsTrim_mem h1
  obtain ⟨c0, hc0, hc0eq⟩ := List.mem_map.mp h1b
  by_cases hb : isBullet c0
  · rw [if_pos hb] at hc0eq
    left
    rw [← hceq, ← hc0eq]
    decide
  · rw [if_neg hb] at hc0eq
    rcases collapseWs_mem xs c0 hc0 with hsp | hin
    · left
      rw [← hceq, ← hc0eq, hsp]
      decide
    · right
      refine ⟨c0, hin, ?_⟩
      rw [← hceq, ← hc0eq]

/-- The characters a token may not contain: the split delimiters and
the two control characters normalized away before the split. -/
def isBadTok (c : Char) : Bool :=
  isTokenDelim c || c == '\r' || c == '\t'

/-- Code point characterization of the forbidden token characters. -/
theorem isBadTok_toNat (c : Char) :
    isBadTok c = true ↔
      (c.toNat = 44 ∨ c.toNat = 59 ∨ c.toNat = 124 ∨ c.toNat = 10 ∨
       c.toNat = 13 ∨ c.toNat = 9) := by
  unfold isBadTok isTokenDelim
  simp only [Bool.or_eq_true, beq_iff_eq]
  constructor
  · rintro (((((h | h) | h) | h) | h) | h) <;> subst h <;> decide
  · rintro (h | h | h | h | h | h)
    · have hc : c = ',' := char_eq_of_toNat (by rw [h]; decide)
      subst hc; decide
    · have hc : c = ';' := char_eq_of_toNat (by rw [h]; decide)
      subst hc; decide
    · have hc : c = '|' := char_eq_of_toNat (by rw [h]; decide)
      subst hc; decide
    · have hc : c = '\n' := char_eq_of_toNat (by rw [h]; decide)
      subst hc; decide
    · have hc : c = '\r' := char_eq_of_toNat (by rw [h]; decide)
      subst hc; decide
    · have hc : c = '\t' := char_eq_of_toNat (by rw [h]; decide)
      subst hc; decide

/-- Lowercasing cannot produce a forbidden token character. -/
theorem jsLowerChar_not_bad {c : Char} (h : isBadTok c = false) :
    isBadTok (jsLowerChar c) = false := by
  rcases jsLowerChar_toNat c with ⟨h1, _⟩ | ⟨h1, _⟩
  · rw [← Bool.not_eq_true, isBadTok_toNat, h1]
    omega
  · rw [char_eq_of_toNat h1]
    exact h

/-- Every token of the tokenizer output is at least two characters
long and free of delimiter and control characters. -/
theorem normalizeIngredientsL_tokens {cs : List Char} {t : List Char}
    (ht : t ∈ normalizeIngredientsL cs) :
    2 ≤ t.length ∧ ∀ c ∈ t, isBadTok c = false := by
  unfold normalizeIngredientsL at ht
  split at ht
  · cases ht
  · have ht2 := dedupFirstAux_mem _ _ _ ht
    obtain ⟨htm, hlen⟩ := List.mem_filter.mp ht2
    obtain ⟨piece, hpiece, hteq⟩ := List.mem_map.mp htm
    constructor
    · have : 1 < t.length := by simpa using hlen
      omega
    · intro c hc
      subst hteq
      rcases cleanToken_mem hc with hsp | ⟨c0, hc0, hceq⟩
      · subst hsp
        decide
      · subst hceq
        apply jsLowerChar_not_bad
        obtain ⟨hnd, hmem⟩ := splitOnRuns_mem isTokenDelim _ piece hpiece c0 hc0
        have hcl := jsTrim_mem hmem
        have hcl2 := stripIngredientsLabel_mem hcl
        rcases replaceChar_mem hcl2 with hb | ⟨hmem2, hne⟩
        · subst hb
          decide
        · rcases replaceChar_mem hmem2 with hb | ⟨_, hne2⟩
          · exfalso
            subst hb
            simp [isTokenDelim] at hnd
          · simp [isBadTok, hnd, hne, hne2]

/-- Intercalation of a single piece. -/
theorem intercalate_single (x : List Char) : List.intercalate [','] [x] = x := by
  simp [List.intercalate, List.intersperse]

/-- Intercalation over at least two pieces unfolds one separator. -/
theorem intercalate_cons₂ (x y : List Char) (ys : List (List Char)) :
    List.intercalate [','] (x :: y :: ys) = x ++ ',' :: List.intercalate [','] (y :: ys) := by
  simp [List.intercalate, List.intersperse_cons_cons]

/-- Characters of an intercalation: the separator or a character of a
piece. -/
theorem intercalate_mem :
    ∀ (ts : List (List Char)) (c : Char), c ∈ List.intercalate [','] ts →
      c = ',' ∨ ∃ t ∈ ts, c ∈ t := by
  intro ts
  match ts with
  | [] => intro c hc; cases hc
  | [t] =>
    intro c hc
    rw [intercalate_single] at hc
    exact Or.inr ⟨t, List.mem_singleton.mpr rfl, hc⟩
  | t :: u :: ts =>
    intro c hc
    rw [intercalate_cons₂] at hc
    rcases List.mem_append.mp hc with hl | hr
    · exact Or.inr ⟨t, List.mem_cons_self _ _, hl⟩
    · cases hr with
      | head => exact Or.inl rfl
      | tail _ h2 =>
        rcases intercalate_mem (u :: ts) c h2 with hx | ⟨tl, htl, hctl⟩
        · exact Or.inl hx
        · exact Or.inr ⟨tl, List.mem_cons_of_mem t htl, hctl⟩

/-- An intercalation of nonempty pieces is nonempty and keeps the
head of the first piece. -/
theorem intercalate_head (t : List Char) (ts : List (List Char)) (ht : t ≠ []) :
    (List.intercalate [','] (t :: ts)).head? = t.head? := by
  cases ts with
  | nil => rw [intercalate_single]
  | cons u us =>
    rw [intercalate_cons₂, List.head?_append]
    cases hh : t.head? with
    | none => exact absurd (List.head?_eq_none_iff.mp hh) ht
    | some c => rfl

/-- An intercalation of nonempty pieces is nonempty. -/
theorem intercalate_ne_nil (t : List Char) (ts : List (List Char)) (ht : t ≠ []) :
    List.intercalate [','] (t :: ts) ≠ [] := by
  intro hcon
  have := intercalate_head t ts ht
  rw [hcon] at this
  cases hh : t.head? with
  | none => exact ht (List.head?_eq_none_iff.mp hh)
  | some c =>
    rw [hh] at this
    cases this

/-- The last element of an intercalation of nonempty pieces is the
last element of one of the pieces. -/
theorem intercalate_getLast :
    ∀ (ts : List (List Char)), ts ≠ [] → (∀ t ∈ ts, t ≠ []) →
      ∃ tl ∈ ts, (List.intercalate [','] ts).getLast? = tl.getLast? := by
  intro ts
  match ts with
  | [] => intro h _; exact absurd rfl h
  | [t] =>
    intro _ _
    exact ⟨t, List.mem_singleton.mpr rfl, by rw [intercalate_single]⟩
  | t :: u :: ts =>
    intro _ hne
    obtain ⟨tl, htl, heq⟩ := intercalate_getLast (u :: ts) (by simp)
      (fun x hx => hne x (List.mem_cons_of_mem t hx))
    refine ⟨tl, List.mem_cons_of_mem t htl, ?_⟩
    rw [intercalate_cons₂, List.getLast?_append]
    have hun : List.intercalate [','] (u :: ts) ≠ [] :=
      intercalate_ne_nil u ts (hne u (List.mem_cons_of_mem t (List.mem_cons_self u ts)))
    have : (',' :: List.intercalate [','] (u :: ts)).getLast? =
        (List.intercalate [','] (u :: ts)).getLast? := by
      cases hg : (List.intercalate [','] (u :: ts)).getLast? with
      | none => exact absurd (List.getLast?_eq_none_iff.mp hg) hun
      | some d =>
        rw [List.getLast?_cons]
        simp [hg]
    rw [this, heq]
    cases hg2 : tl.getLast? with
    | none => exact absurd (List.getLast?_eq_none_iff.mp hg2) (hne tl (List.mem_cons_of_mem t htl))
    | some d => rfl

/-- Splitting an intercalation of nonempty delimiter-free pieces
returns the pieces. -/
theorem splitOnRuns_intercalate (p : Char → Bool) (d : Char) (hd : p d = true) :
    ∀ ts : List (List Char), ts ≠ [] →
      (∀ t ∈ ts, t ≠ [] ∧ ∀ c ∈ t, p c = false) →
      splitOnRuns p (List.intercalate [d] ts) = ts := by
  intro ts
  match ts with
  | [] => intro h _; exact absurd rfl h
  | [t] =>
    intro _ hcond
    have := hcond t (List.mem_singleton.mpr rfl)
    have hsingle : List.intercalate [d] [t] = t := by
      simp [List.intercalate, List.intersperse]
    rw [hsingle]
    exact splitOnRuns_nodelim p t this.2
  | t :: u :: ts =>
    intro _ hcond
    have hcons : List.intercalate [d] (t :: u :: ts) =
        t ++ d :: List.intercalate [d] (u :: ts) := by
      simp [List.intercalate, List.intersperse_cons_cons]
    rw [hcons]
    have hu := hcond u (List.mem_cons_of_mem t (List.mem_cons_self _ _))
    have hne2 : List.intercalate [d] (u :: ts) ≠ [] := by
      have : List.intercalate [','] (u :: ts) ≠ [] ∨ True := Or.inr trivial
      intro hcon
      have hh : (List.intercalate [d] (u :: ts)).length = 0 := by rw [hcon]; rfl
      cases ts with
      | nil =>
        rw [show List.intercalate [d] [u] = u by simp [List.intercalate, List.intersperse]] at hcon
        exact hu.1 hcon
      | cons v vs =>
        rw [show List.intercalate [d] (u :: v :: vs) = u ++ d :: List.intercalate [d] (v :: vs) by
          simp [List.intercalate, List.intersperse_cons_cons]] at hcon
        exact absurd (List.append_eq_nil.mp hcon).2 (by simp)
    have hhead : ∀ z, (List.intercalate [d] (u :: ts)).head? = some z → p z = false := by
      intro z hz
      have hh : (List.intercalate [d] (u :: ts)).head? = u.head? := by
        cases ts with
        | nil =>
          rw [show List.intercalate [d] [u] = u by simp [List.intercalate, List.intersperse]]
        | cons v vs =>
          rw [show List.intercalate [d] (u :: v :: vs) = u ++ d :: List.intercalate [d] (v :: vs) by
            simp [List.intercalate, List.intersperse_cons_cons]]
          rw [List.head?_append]
          cases hu2 : u.head? with
          | none => exact absurd (List.head?_eq_none_iff.mp hu2) hu.1
          | some w => rfl
      rw [hh] at hz
      have : z ∈ u := List.mem_of_mem_head? hz
      exact (hu.2) z this
    rw [splitOnRuns_append p d hd t _ (hcond t (List.mem_cons_self _ _)).2 hhead hne2]
    rw [splitOnRuns_intercalate p d hd (u :: ts) (by simp)
      (fun x hx => hcond x (List.mem_cons_of_mem t hx))]

/-- A word without a comma that fails to match a token also fails on
the token followed by a comma and anything else. -/
theorem matchWordCI_append_comma_none {w t0 zs : List Char}
    (hcomma : (',' : Char) ∉ w) (hfail : matchWordCI w t0 = none) :
    matchWordCI w (t0 ++ ',' :: zs) = none := by
  unfold matchWordCI at hfail ⊢
  split at hfail
  · cases hfail
  · rename_i hcond
    rw [if_neg]
    intro hcon
    have hcon2 : ((t0 ++ ',' :: zs).take w.length).map jsLowerChar = w := by
      simpa using hcon
    by_cases hl : w.length ≤ t0.length
    · apply hcond
      rw [List.take_append_of_le_length hl] at hcon2
      simpa using hcon2
    · push_neg at hl
      have hidx : ((t0 ++ ',' :: zs).take w.length)[t0.length]? = some ',' := by
        rw [List.getElem?_take, if_pos hl, List.getElem?_append_right (le_refl _)]
        simp
      have hw : w[t0.length]? = some (jsLowerChar ',') := by
        rw [← hcon2, List.getElem?_map, hidx]
        rfl
      obtain ⟨hlt, hget⟩ := List.getElem?_eq_some.mp hw
      have hmem : jsLowerChar ',' ∈ w := by
        rw [← hget]
        exact List.getElem_mem hlt
      have hcc : jsLowerChar ',' = ',' := by decide
      rw [hcc] at hmem
      exact hcomma hmem

/-- A failing label alternation fails on each word. -/
theorem labelAttempt_none_parts {ys : List Char} (h : labelAttempt ys = none) :
    matchWordCI "ingredients".data ys = none ∧
    matchWordCI "ingredient".data ys = none ∧
    matchWordCI "ingrédients".data ys = none := by
  unfold labelAttempt at h
  cases h1 : matchWordCI "ingredients".data ys with
  | some r => rw [h1] at h; cases h
  | none =>
    rw [h1] at h
    cases h2 : matchWordCI "ingredient".data ys with
    | some r => rw [h2] at h; cases h
    | none =>
      rw [h2] at h
      exact ⟨rfl, rfl, h⟩

/-- A failing label alternation on a token still fails after a comma
and arbitrary continuation. -/
theorem labelAttempt_append_none {t0 zs : List Char}
    (h : labelAttempt t0 = none) : labelAttempt (t0 ++ ',' :: zs) = none := by
  obtain ⟨h1, h2, h3⟩ := labelAttempt_none_parts h
  unfold labelAttempt
  rw [matchWordCI_append_comma_none (by decide) h1,
    matchWordCI_append_comma_none (by decide) h2,
    matchWordCI_append_comma_none (by decide) h3]

/-- The character data of the string intercalation loop. -/
theorem strIntercalate_go_data :
    ∀ (as : List String) (acc : String),
      (String.intercalate.go acc "," as).data =
        acc.data ++ (as.map (fun a => ',' :: a.data)).flatten := by
  intro as
  induction as with
  | nil =>
    intro acc
    rw [String.intercalate.go]
    simp
  | cons a as ih =>
    intro acc
    rw [String.intercalate.go, ih]
    simp [String.data_append]

/-- Intercalation with one comma as the flattening of comma-headed
pieces. -/
theorem intercalate_eq_flatten :
    ∀ (x : List Char) (xs : List (List Char)),
      List.intercalate [','] (x :: xs) = x ++ (xs.map (fun t => ',' :: t)).flatten := by
  intro x xs
  induction xs generalizing x with
  | nil => rw [intercalate_single]; simp
  | cons y ys ih =>
    rw [intercalate_cons₂, ih y]
    simp

/-- The character data of a comma intercalation of strings. -/
theorem strIntercalate_data (ss : List String) :
    (String.intercalate "," ss).data = List.intercalate [','] (ss.map String.data) := by
  cases ss with
  | nil => rfl
  | cons a as =>
    show (String.intercalate.go a "," as).data = _
    rw [strIntercalate_go_data]
    rw [List.map_cons, intercalate_eq_flatten]
    rw [List.map_map]
    rfl

/-- The tokenizer output has no duplicate tokens. -/
theorem normalizeIngredientsL_nodup (cs : List Char) :
    (normalizeIngredientsL cs).Nodup := by
  unfold normalizeIngredientsL
  split
  · exact List.nodup_nil
  · exact dedupFirstAux_nodup _ _

/-- A forbidden-character-free token has no delimiter characters. -/
theorem isTokenDelim_of_not_bad {c : Char} (h : isBadTok c = false) :
    isTokenDelim c = false := by
  unfold isBadTok at h
  rcases Bool.or_eq_false_iff.mp h with ⟨h1, _⟩
  rcases Bool.or_eq_false_iff.mp h1 with ⟨h2, _⟩
  exact h2

/-- A fixed point of cleanToken has a non-whitespace head. -/
theorem fix_head_not_space {t : List Char} (hfix : cleanToken t = t) {c : Char}
    (hc : t.head? = some c) : jsIsSpace c = false := by
  have htr := (cleanToken_fix hfix).1
  rw [← htr] at hc
  exact jsTrim_head hc

/-- A fixed point of cleanToken has a non-whitespace last element. -/
theorem fix_getLast_not_space {t : List Char} (hfix : cleanToken t = t) {c : Char}
    (hc : t.getLast? = some c) : jsIsSpace c = false := by
  have htr := (cleanToken_fix hfix).1
  rw [← htr] at hc
  exact jsTrim_getLast hc

/-- C8 amended core: re-tokenizing the comma intercalation of the
token list gives back the token list, provided every token is a fixed
point of the token cleaner. -/
theorem retokenize_intercalate {cs : List Char}
    (hfix : ∀ t ∈ normalizeIngredientsL cs, cleanToken t = t) :
    normalizeIngredientsL (List.intercalate [','] (normalizeIngredientsL cs)) =
      normalizeIngredientsL cs := by
  have htok : ∀ t ∈ normalizeIngredientsL cs,
      2 ≤ t.length ∧ ∀ c ∈ t, isBadTok c = false :=
    fun t ht => normalizeIngredientsL_tokens ht
  have hnodup := normalizeIngredientsL_nodup cs
  cases hts : normalizeIngredientsL cs with
  | nil => rfl
  | cons t0 ts' =>
    rw [hts] at htok hnodup hfix
    have ht0 := htok t0 (List.mem_cons_self _ _)
    have htne : ∀ t ∈ t0 :: ts', t ≠ [] := by
      intro t ht hcon
      have := (htok t ht).1
      rw [hcon] at this
      simp at this
    have ht0ne : t0 ≠ [] := htne t0 (List.mem_cons_self _ _)
    have hjne : List.intercalate [','] (t0 :: ts') ≠ [] :=
      intercalate_ne_nil t0 ts' ht0ne
    have hjmem : ∀ c ∈ List.intercalate [','] (t0 :: ts'), c = ',' ∨ isBadTok c = false := by
      intro c hc
      rcases intercalate_mem _ c hc with hx | ⟨t, htmem, hcin⟩
      · exact Or.inl hx
      · exact Or.inr ((htok t htmem).2 c hcin)
    have hnr : ∀ c ∈ List.intercalate [','] (t0 :: ts'), c ≠ '\r' := by
      intro c hc hcon
      rcases hjmem c hc with hx | hx
      · rw [hcon] at hx
        cases hx
      · rw [hcon] at hx
        have : isBadTok '\r' = true := by decide
        rw [this] at hx
        cases hx
    have hnt : ∀ c ∈ replaceChar '\r' '\n' (List.intercalate [','] (t0 :: ts')), c ≠ '\t' := by
      intro c hc hcon
      rcases replaceChar_mem hc with hb | ⟨hmem, _⟩
      · rw [hcon] at hb
        cases hb
      · rcases hjmem c hmem with hx | hx
        · rw [hcon] at hx
          cases hx
        · rw [hcon] at hx
          have : isBadTok '\t' = true := by decide
          rw [this] at hx
          cases hx
    have hrep1 : replaceChar '\r' '\n' (List.intercalate [','] (t0 :: ts')) =
        List.intercalate [','] (t0 :: ts') := replaceChar_eq_self hnr
    have hrep2 : replaceChar '\t' ' ' (List.intercalate [','] (t0 :: ts')) =
        List.intercalate [','] (t0 :: ts') := by
      apply replaceChar_eq_self
      intro c hc
      rw [← hrep1] at hc
      exact hnt c hc
    have hheadt0 : ∀ c, (List.intercalate [','] (t0 :: ts')).head? = some c →
        jsIsSpace c = false := by
      intro c hc
      rw [intercalate_head t0 ts' ht0ne] at hc
      exact fix_head_not_space (hfix t0 (List.mem_cons_self _ _)) hc
    have hdropj : (List.intercalate [','] (t0 :: ts')).dropWhile jsIsSpace =
        List.intercalate [','] (t0 :: ts') := dropWhile_eq_self_of_head hheadt0
    have ht0drop : t0.dropWhile jsIsSpace = t0 := by
      apply dropWhile_eq_self_of_head
      intro c hc
      exact fix_head_not_space (hfix t0 (List.mem_cons_self _ _)) hc
    have hlab0 : labelAttempt t0 = none := by
      have := labelAttempt_none_of_fixed (cleanToken_fix (hfix t0 (List.mem_cons_self _ _))).2.1
      rw [ht0drop] at this
      exact this
    have hlabj : labelAttempt (List.intercalate [','] (t0 :: ts')) = none := by
      cases ts' with
      | nil =>
        rw [intercalate_single]
        exact hlab0
      | cons u us =>
        rw [intercalate_cons₂]
        exact labelAttempt_append_none hlab0
    have hstrip : stripIngredientsLabel (List.intercalate [','] (t0 :: ts')) =
        List.intercalate [','] (t0 :: ts') := by
      unfold stripIngredientsLabel
      rw [hdropj, hlabj]
    have htrimj : jsTrim (List.intercalate [','] (t0 :: ts')) =
        List.intercalate [','] (t0 :: ts') := by
      apply jsTrim_eq_self hheadt0
      intro c hc
      obtain ⟨tl, htl, heq⟩ := intercalate_getLast (t0 :: ts') (by simp) htne
      rw [heq] at hc
      exact fix_getLast_not_space (hfix tl htl) hc
    have hsplit : splitOnRuns isTokenDelim (List.intercalate [','] (t0 :: ts')) =
        t0 :: ts' := by
      apply splitOnRuns_intercalate isTokenDelim ',' (by decide) (t0 :: ts') (by simp)
      intro t ht
      refine ⟨htne t ht, ?_⟩
      intro c hc
      exact isTokenDelim_of_not_bad ((htok t ht).2 c hc)
    have hmap : (t0 :: ts').map cleanToken = t0 :: ts' := by
      rw [List.map_congr_left hfix]
      simp
    have hfilter : (t0 :: ts').filter (fun t => decide (1 < t.length)) = t0 :: ts' := by
      rw [List.filter_eq_self]
      intro t ht
      have := (htok t ht).1
      simpa using (by omega : 1 < t.length)
    have hdedup : dedupFirst (t0 :: ts') = t0 :: ts' := by
      unfold dedupFirst
      exact dedupFirstAux_eq_self (t0 :: ts') [] hnodup (fun t _ hcon => by cases hcon)
    unfold normalizeIngredientsL
    rw [if_neg hjne]
    show dedupFirst (((splitOnRuns isTokenDelim (jsTrim (stripIngredientsLabel
      (replaceChar '\t' ' ' (replaceChar '\r' '\n'
        (List.intercalate [','] (t0 :: ts'))))))).map cleanToken).filter
          (fun t => decide (1 < t.length))) = t0 :: ts'
    rw [hrep1, hrep2, hstrip, htrimj, hsplit]
    rw [hmap, hfilter, hdedup]

/-! ## Claim theorems -/

/-- C1, counterexample: the AI-to-rules-format conversion of
scan.controller.js does not follow the vocabulary table round trip:
converting HIGH to the rules-tier status gives Risky, whose dataset
vocabulary preimage under the specified table is MEDIUM, not HIGH. -/
theorem c1_roundtrip_counterexample :
    aiStatusOfRisk "HIGH" = "Risky" ∧
    specStatusToLevel (aiStatusOfRisk "HIGH") = some "MEDIUM" ∧
    specStatusToLevel (aiStatusOfRisk "HIGH") ≠ some "HIGH" := by
  refine ⟨rfl, rfl, ?_⟩
  decide

/-- C1, amended: the dataset-to-persistence conversion follows the
vocabulary table and round-trips for every value of LOW, MEDIUM and
HIGH, but the AI-to-rules-format conversion maps HIGH to Risky and
MEDIUM to Unknown, so of the three values only LOW round-trips
through it. -/
theorem c1_roundtrip_amended :
    (specScanRiskToLevel (mapRiskLevelToScanRisk "LOW") = some "LOW" ∧
     specScanRiskToLevel (mapRiskLevelToScanRisk "MEDIUM") = some "MEDIUM" ∧
     specScanRiskToLevel (mapRiskLevelToScanRisk "HIGH") = some "HIGH") ∧
    (aiStatusOfRisk "LOW" = "Safe" ∧
     specStatusToLevel (aiStatusOfRisk "LOW") = some "LOW") ∧
    (aiStatusOfRisk "HIGH" = "Risky" ∧ aiStatusOfRisk "MEDIUM" = "Unknown") := by
  exact ⟨⟨rfl, rfl, rfl⟩, ⟨rfl, rfl⟩, ⟨rfl, rfl⟩⟩

/-- C2: in the analyze entry point, when the dataset tier is available
but its lookup throws, the result carries the AI analysis with source
ai exactly when an AI endpoint is configured and the AI call succeeds,
and otherwise carries the rules analysis with source rules; the caller
receives an analysis in every case, never a dataset or AI error. -/
theorem c2_fallback_ordering {D A R : Type} (e : String)
    (dso : Except String D) (aic : Bool) (aio : Except String A) (rr : R)
    (hds : dso = Except.error e) :
    ((aic = true ∧ ∃ a, aio = Except.ok a) →
      ∃ a, aio = Except.ok a ∧
        orchestrateAnalyzeText true dso aic aio rr = (Sum.inr (Sum.inl a), Source.ai)) ∧
    (¬(aic = true ∧ ∃ a, aio = Except.ok a) →
      orchestrateAnalyzeText true dso aic aio rr = (Sum.inr (Sum.inr rr), Source.rules)) := by
  subst hds
  constructor
  · rintro ⟨haic, a, hok⟩
    subst haic
    subst hok
    exact ⟨a, rfl, rfl⟩
  · intro hneg
    cases aic with
    | false => simp [orchestrateAnalyzeText]
    | true =>
      cases aio with
      | ok a => exact absurd ⟨rfl, a, rfl⟩ hneg
      | error msg => simp [orchestrateAnalyzeText]

/-- C2, witness: with the dataset erroring, AI configured and
succeeding, the orchestrator returns the AI analysis with source
ai. -/
theorem c2_fallback_ordering_witness :
    orchestrateAnalyzeText true (Except.error "storage down" : Except String Nat) true
      (Except.ok 7 : Except String Nat) (0 : Nat) = (Sum.inr (Sum.inl 7), Source.ai) := by
  obtain ⟨h1, _⟩ :=
    c2_fallback_ordering "storage down" (Except.error "storage down" : Except String Nat)
      true (Except.ok 7 : Except String Nat) (0 : Nat) rfl
  obtain ⟨a, ha, heq⟩ := h1 ⟨rfl, 7, rfl⟩
  cases ha
  exact heq

/-- C3: an alias match succeeds exactly when the lowercased token is
one whole comma-separated element of the lowercased aliases column;
with the row named X and aliases y,z the token xy does not match while
the token y does; and when the exact-name query finds a row, the
lookup returns it without consulting the aliases. -/
theorem c3_alias_strictness :
    (∀ (row : DatasetRow) (token : String),
      aliasMatchRow row token = true ↔
        jsToLower token.data ∈ splitOnChar ',' (jsToLower row.aliases.data)) ∧
    (lookupToken [⟨"X", "HIGH", "r", "y,z"⟩] "xy" = none ∧
     lookupToken [⟨"X", "HIGH", "r", "y,z"⟩] "y" = some ⟨"X", "HIGH", "r", "y,z"⟩) ∧
    (∀ (table : List DatasetRow) (token : String) (row : DatasetRow),
      table.find? (fun r => exactMatchRow r token) = some row →
      lookupToken table token = some row) := by
  refine ⟨?_, ⟨?_, ?_⟩, ?_⟩
  · intro row token
    simp [aliasMatchRow, List.contains_iff_exists_mem_beq, beq_iff_eq]
  · decide
  · decide
  · intro table token row h
    simp [lookupToken, h]

/-- C3, witness: a token equal to the canonical name resolves through
the exact query alone. -/
theorem c3_alias_strictness_witness :
    lookupToken [⟨"X", "HIGH", "r", "y,z"⟩] "X" = some ⟨"X", "HIGH", "r", "y,z"⟩ :=
  c3_alias_strictness.2.2 _ _ _ (by decide)

/-- C5: with every dataset match drawn from the schema vocabulary, a
HIGH match dominates the dataset overall level, else MEDIUM, else LOW;
and in the AI tier a HIGH synonym dominates, else a MEDIUM synonym,
else LOW — with restricted, danger and high all HIGH synonyms. -/
theorem c5_severity_dominance :
    (∀ ms : List DatasetMatch, ms ≠ [] →
      ((∃ m ∈ ms, m.risk_level = "HIGH") → determineOverallRiskLevel ms = "HIGH") ∧
      ((¬∃ m ∈ ms, m.risk_level = "HIGH") → (∃ m ∈ ms, m.risk_level = "MEDIUM") →
        determineOverallRiskLevel ms = "MEDIUM") ∧
      ((¬∃ m ∈ ms, m.risk_level = "HIGH") → (¬∃ m ∈ ms, m.risk_level = "MEDIUM") →
        determineOverallRiskLevel ms = "LOW")) ∧
    (∀ rs : List String, rs ≠ [] →
      ((∃ r ∈ rs, isHighSyn r = true) → calculateOverallRisk rs = "HIGH") ∧
      ((¬∃ r ∈ rs, isHighSyn r = true) → (∃ r ∈ rs, isMediumSyn r = true) →
        calculateOverallRisk rs = "MEDIUM") ∧
      ((¬∃ r ∈ rs, isHighSyn r = true) → (¬∃ r ∈ rs, isMediumSyn r = true) →
        calculateOverallRisk rs = "LOW")) ∧
    (isHighSyn "restricted" = true ∧ isHighSyn "danger" = true ∧
     isHighSyn "HIGH" = true ∧ isMediumSyn "risky" = true) := by
  refine ⟨?_, ?_, by decide⟩
  · intro ms hne
    have hempty : ms.isEmpty = false := by
      cases ms with
      | nil => exact absurd rfl hne
      | cons m ms => rfl
    refine ⟨?_, ?_, ?_⟩
    · rintro ⟨m, hm, hr⟩
      have hany : ms.any (fun m => m.risk_level == "HIGH") = true :=
        List.any_eq_true.mpr ⟨m, hm, by simp [hr]⟩
      simp [determineOverallRiskLevel, hempty, hany]
    · intro hno
      rintro ⟨m, hm, hr⟩
      have hanyH : ms.any (fun m => m.risk_level == "HIGH") = false := by
        rw [← Bool.not_eq_true]
        intro hcon
        obtain ⟨m2, hm2, hb⟩ := List.any_eq_true.mp hcon
        exact hno ⟨m2, hm2, by simpa using hb⟩
      have hanyM : ms.any (fun m => m.risk_level == "MEDIUM") = true :=
        List.any_eq_true.mpr ⟨m, hm, by simp [hr]⟩
      simp [determineOverallRiskLevel, hempty, hanyH, hanyM]
    · intro hnoH hnoM
      have hanyH : ms.any (fun m => m.risk_level == "HIGH") = false := by
        rw [← Bool.not_eq_true]
        intro hcon
        obtain ⟨m2, hm2, hb⟩ := List.any_eq_true.mp hcon
        exact hnoH ⟨m2, hm2, by simpa using hb⟩
      have hanyM : ms.any (fun m => m.risk_level == "MEDIUM") = false := by
        rw [← Bool.not_eq_true]
        intro hcon
        obtain ⟨m2, hm2, hb⟩ := List.any_eq_true.mp hcon
        exact hnoM ⟨m2, hm2, by simpa using hb⟩
      simp [determineOverallRiskLevel, hempty, hanyH, hanyM]
  · intro rs hne
    have hempty : rs.isEmpty = false := by
      cases rs with
      | nil => exact absurd rfl hne
      | cons r rs => rfl
    refine ⟨?_, ?_, ?_⟩
    · rintro ⟨r, hr, hb⟩
      have hany : rs.any isHighSyn = true := List.any_eq_true.mpr ⟨r, hr, hb⟩
      simp [calculateOverallRisk, hempty, hany]
    · intro hno
      rintro ⟨r, hr, hb⟩
      have hanyH : rs.any isHighSyn = false := by
        rw [← Bool.not_eq_true]
        intro hcon
        obtain ⟨r2, hr2, hb2⟩ := List.any_eq_true.mp hcon
        exact hno ⟨r2, hr2, hb2⟩
      have hanyM : rs.any isMediumSyn = true := List.any_eq_true.mpr ⟨r, hr, hb⟩
      simp [calculateOverallRisk, hempty, hanyH, hanyM]
    · intro hnoH hnoM
      have hanyH : rs.any isHighSyn = false := by
        rw [← Bool.not_eq_true]
        intro hcon
        obtain ⟨r2, hr2, hb2⟩ := List.any_eq_true.mp hcon
        exact hnoH ⟨r2, hr2, hb2⟩
      have hanyM : rs.any isMediumSyn = false := by
        rw [← Bool.not_eq_true]
        intro hcon
        obtain ⟨r2, hr2, hb2⟩ := List.any_eq_true.mp hcon
        exact hnoM ⟨r2, hr2, hb2⟩
      simp [calculateOverallRisk, hempty, hanyH, hanyM]

/-- C5, witness: one HIGH dataset match among LOW matches yields HIGH,
and one danger synonym among safe AI results yields HIGH. -/
theorem c5_severity_dominance_witness :
    determineOverallRiskLevel
      [⟨"t1", "A", "LOW", "x"⟩, ⟨"t2", "B", "HIGH", "y"⟩, ⟨"t3", "C", "LOW", "z"⟩] = "HIGH" ∧
    calculateOverallRisk ["safe", "danger", "safe"] = "HIGH" := by
  constructor
  · exact (c5_severity_dominance.1 _ (by decide)).1
      ⟨⟨"t2", "B", "HIGH", "y"⟩, by decide, rfl⟩
  · exact (c5_severity_dominance.2.1 _ (by decide)).1 ⟨"danger", by decide, by decide⟩

/-- C6, counterexample: in the free-text flow, an absent risk value
and an unrecognized risk value both map to MEDIUM, not to the safest
bucket LOW that the claim states. -/
theorem c6_default_counterexample :
    mapRiskLevel none = "MEDIUM" ∧
    mapRiskLevel (some "gibberish") = "MEDIUM" ∧
    ("MEDIUM" : String) ≠ "LOW" := by
  refine ⟨rfl, by decide, by decide⟩

/-- C6, amended: both normalizers are total onto their three-value
vocabularies; the ingredient-list flow defaults absent and
unrecognized statuses to Safe, while the free-text flow defaults
absent and unrecognized risks to MEDIUM, not LOW. -/
theorem c6_vocabulary_amended :
    (∀ r : Option String,
      mapRiskLevel r = "LOW" ∨ mapRiskLevel r = "MEDIUM" ∨ mapRiskLevel r = "HIGH") ∧
    (∀ s : Option String,
      normalizeStatus s = "Safe" ∨ normalizeStatus s = "Risky" ∨ normalizeStatus s = "Restricted") ∧
    (normalizeStatus none = "Safe" ∧ normalizeStatus (some "") = "Safe") ∧
    (∀ s : String,
      ¬(["restricted", "banned", "high risk", "danger"].contains (lowerTrim s) = true) →
      ¬(["risky", "moderate", "medium risk", "caution", "concern"].contains (lowerTrim s) = true) →
      normalizeStatus (some s) = "Safe") ∧
    mapRiskLevel none = "MEDIUM" ∧
    (∀ r : String,
      ¬(["low", "safe", "safe/low", "low risk", "no risk"].contains (lowerTrim r) = true) →
      ¬(["high", "danger", "dangerous", "high risk", "restricted", "unsafe"].contains (lowerTrim r) = true) →
      mapRiskLevel (some r) = "MEDIUM") := by
  refine ⟨?_, ?_, ⟨rfl, by decide⟩, ?_, rfl, ?_⟩
  · intro r
    cases r with
    | none => exact Or.inr (Or.inl rfl)
    | some s =>
      simp only [mapRiskLevel]
      split
      · exact Or.inr (Or.inl rfl)
      · split
        · exact Or.inl rfl
        · split
          · exact Or.inr (Or.inr rfl)
          · exact Or.inr (Or.inl rfl)
  · intro s
    cases s with
    | none => exact Or.inl rfl
    | some s =>
      simp only [normalizeStatus]
      split
      · exact Or.inl rfl
      · split
        · exact Or.inr (Or.inr rfl)
        · split
          · exact Or.inr (Or.inl rfl)
          · exact Or.inl rfl
  · intro s h1 h2
    by_cases hs : s = ""
    · simp [normalizeStatus, hs]
    · simp at h1 h2
      simp [normalizeStatus, hs, h1, h2]
  · intro r h1 h2
    by_cases hr : r = ""
    · simp [mapRiskLevel, hr]
    · simp at h1 h2
      simp [mapRiskLevel, hr, h1, h2]

/-- C6, witness: an unrecognized word defaults to Safe in the
ingredient-list flow and to MEDIUM in the free-text flow. -/
theorem c6_vocabulary_amended_witness :
    normalizeStatus (some "weird") = "Safe" ∧ mapRiskLevel (some "weird") = "MEDIUM" := by
  constructor
  · exact c6_vocabulary_amended.2.2.2.1 "weird" (by decide) (by decide)
  · exact c6_vocabulary_amended.2.2.2.2.2 "weird" (by decide) (by decide)

/-- C7: starting from retry count zero, the retry loop makes at most
two provider calls: the first outcome is returned when it succeeds or
its error does not trigger the retry predicate; a triggering error
causes exactly one retry, on the same prompt augmented with the
JSON-only instruction, whose outcome is final either way.  Parse
failure messages contain the word JSON and trigger the retry; timeout
and network failure messages do not. -/
theorem c7_retry_policy :
    (∀ (attempt : Nat → String → Except String (List AIItem)) (prompt : String),
      callAIWithRetry attempt prompt 0 =
        match attempt 0 prompt with
        | .ok results => .ok results
        | .error msg =>
          if retryTriggers msg = true then
            match attempt 1 (prompt ++ retrySuffix) with
            | .ok results => .ok results
            | .error msg2 => .error msg2
          else .error msg) ∧
    retryTriggers "Unexpected token < in JSON at position 0" = true ∧
    retryTriggers "Unexpected end of JSON input" = true ∧
    retryTriggers "timeout of 20000ms exceeded" = false ∧
    retryTriggers "connect ECONNREFUSED 127.0.0.1:443" = false ∧
    retryTriggers "Request failed with status code 500" = false ∧
    retryTriggers "Invalid response format" = false := by
  refine ⟨?_, rfl, rfl, rfl, rfl, rfl, rfl⟩
  intro attempt prompt
  rw [callAIWithRetry]
  cases h0 : attempt 0 prompt with
  | ok results => rfl
  | error msg =>
    simp only
    by_cases hr : retryTriggers msg = true
    · rw [dif_pos ⟨Nat.zero_lt_one, hr⟩, if_pos hr]
      rw [callAIWithRetry]
      cases h1 : attempt 1 (prompt ++ retrySuffix) with
      | ok results => rfl
      | error msg2 =>
        simp only
        rw [dif_neg]
        intro hcon
        exact absurd hcon.1 (by omega)
    · rw [dif_neg, if_neg hr]
      intro hcon
      exact hr hcon.2

/-- C8, counterexample: tokenization is not idempotent even when the
comma rejoin preserves token content.  The input of one token inside
parentheses with a trailing dot tokenizes to a token ending in a dot;
the rejoin is that token itself and re-splits to exactly the same
token list, yet re-tokenizing strips the now-exposed trailing dot and
yields a different token. -/
theorem c8_idempotence_counterexample :
    normalizeIngredients "(ab.)" = ["ab."] ∧
    String.intercalate "," (normalizeIngredients "(ab.)") = "ab." ∧
    splitOnRuns isTokenDelim (String.intercalate "," (normalizeIngredients "(ab.)")).data =
      ["ab.".data] ∧
    normalizeIngredients (String.intercalate "," (normalizeIngredients "(ab.)")) = ["ab"] ∧
    normalizeIngredients (String.intercalate "," (normalizeIngredients "(ab.)")) ≠
      normalizeIngredients "(ab.)" := by
  refine ⟨?_, ?_, ?_, ?_, ?_⟩ <;> decide

/-- C8, amended: re-tokenizing the comma rejoin of the tokenizer
output yields the same token sequence whenever every output token is
a fixed point of the token cleaner (the rejoin itself always
preserves token content, since tokens never contain split
delimiters); without that condition idempotence fails, since a second
cleaning pass can strip further characters. -/
theorem c8_idempotence_amended (text : String)
    (hfix : ∀ t ∈ normalizeIngredientsL text.data, cleanToken t = t) :
    normalizeIngredients (String.intercalate "," (normalizeIngredients text)) =
      normalizeIngredients text := by
  unfold normalizeIngredients
  have hdata : (String.intercalate "," ((normalizeIngredientsL text.data).map String.mk)).data =
      List.intercalate [','] (normalizeIngredientsL text.data) := by
    rw [strIntercalate_data, List.map_map]
    have hcomp : (String.data ∘ String.mk) = fun l : List Char => l := rfl
    rw [hcomp]
    simp
  rw [hdata, retokenize_intercalate hfix]

/-- C8, witness: a two-token input whose tokens are already clean
re-tokenizes to itself. -/
theorem c8_idempotence_amended_witness :
    normalizeIngredients (String.intercalate "," (normalizeIngredients "aa, bb")) =
      normalizeIngredients "aa, bb" :=
  c8_idempotence_amended "aa, bb" (by decide)

/-- C9: for a missing or empty token list the dataset lookup returns
the empty low-risk result with zero counts for every state of the
store, including an erroring store, so it cannot raise a storage
error on this input. -/
theorem c9_empty_token_early_return :
    ∀ db : Except String (List DatasetRow),
      analyzeWithDataset db none = Except.ok emptyDatasetResult ∧
      analyzeWithDataset db (some []) = Except.ok emptyDatasetResult ∧
      emptyDatasetResult =
        ⟨[], [], "LOW", ⟨0, 0, 0⟩⟩ := by
  intro db
  exact ⟨rfl, rfl, rfl⟩

/-- One summary step increments the total by one and exactly one
bucket by one. -/
theorem summaryStep_counts (acc : RuleSummary) (s : String) :
    (summaryStep acc s).total = acc.total + 1 ∧
    (summaryStep acc s).safe + (summaryStep acc s).risky +
      (summaryStep acc s).restricted + (summaryStep acc s).unknown =
      acc.safe + acc.risky + acc.restricted + acc.unknown + 1 := by
  unfold summaryStep
  split_ifs <;> refine ⟨rfl, ?_⟩ <;> simp <;> omega

/-- The summary fold counts every status once and partitions the
total over the four buckets. -/
theorem summaryFold_counts :
    ∀ (statuses : List String) (acc : RuleSummary),
      (statuses.foldl summaryStep acc).total = acc.total + statuses.length ∧
      (statuses.foldl summaryStep acc).safe + (statuses.foldl summaryStep acc).risky +
        (statuses.foldl summaryStep acc).restricted + (statuses.foldl summaryStep acc).unknown =
        acc.safe + acc.risky + acc.restricted + acc.unknown + statuses.length := by
  intro statuses
  induction statuses with
  | nil => intro acc; exact ⟨rfl, rfl⟩
  | cons s ss ih =>
    intro acc
    obtain ⟨iht, ihs⟩ := ih (summaryStep acc s)
    obtain ⟨ht, hs⟩ := summaryStep_counts acc s
    simp only [List.foldl_cons, List.length_cons]
    constructor
    · rw [iht, ht]; omega
    · rw [ihs, hs]; omega

/-- C4: the rules-path analysis yields exactly one result per token,
its summary total equals the number of tokens, the four buckets
partition the total, and an empty token list gives total zero. -/
theorem c4_rules_coverage (db : List (List Char × RefEntry)) (text : String) :
    (analyzeText db text).results.length = (analyzeText db text).ingredients.length ∧
    (analyzeText db text).summary.total = (analyzeText db text).ingredients.length ∧
    (analyzeText db text).summary.safe + (analyzeText db text).summary.risky +
      (analyzeText db text).summary.restricted + (analyzeText db text).summary.unknown =
      (analyzeText db text).summary.total ∧
    ((analyzeText db text).ingredients = [] → (analyzeText db text).summary.total = 0) := by
  unfold analyzeText
  simp only
  obtain ⟨ht, hs⟩ := summaryFold_counts
    ((normalizeIngredientsL (sanitizeL text.data)).map (fun ing =>
      let m := classifyIngredientL db ing
      RuleResult.mk (String.mk ing) m.status m.explanation m.matchedKey)
      |>.map (·.status)) ⟨0, 0, 0, 0, 0⟩
  refine ⟨by simp, ?_, ?_, ?_⟩
  · simp only [computeSummary]
    rw [ht]
    simp
  · simp only [computeSummary]
    rw [hs, ht]
    simp
  · intro hnil
    simp only [computeSummary]
    rw [ht]
    have : normalizeIngredientsL (sanitizeL text.data) = [] := by
      have := congrArg List.length hnil
      simpa using List.length_eq_zero.mp (by simpa using this)
    simp [this]

/-- C4, witness: the empty input has an empty token list and summary
total zero. -/
theorem c4_rules_coverage_witness :
    (analyzeText [] "").summary.total = 0 := by
  apply (c4_rules_coverage [] "").2.2.2
  have hempty : sanitizeL "".data = [] := by
    simp [sanitizeL, goPhone, goEmail, goSSN]
  simp [analyzeText, hempty, normalizeIngredientsL]

/-- C10: the rules-path analysis redacts PII before tokenization, so
analyzing a text and analyzing its sanitized form give the same
output: the sanitizer is idempotent (its output has no remaining
phone, email or SSN match), hence the ingredients, per-ingredient
results and summary coincide for every reference table and input. -/
theorem c10_sanitize_invariance (db : List (List Char × RefEntry)) (text : String) :
    analyzeText db (buildAiPayload text) = analyzeText db text := by
  unfold analyzeText
  have h : sanitizeL (buildAiPayload text).data = sanitizeL text.data := by
    show sanitizeL (sanitizeL text.data) = sanitizeL text.data
    exact sanitizeL_idem text.data
  rw [h]

end SafeScan
